import Mathlib

/-!
# Posterior compression tools: a shallow embedding

The programs under `src/pcabin` are embedded as pure functions over exact
rational arithmetic (`ℚ` stands for `BaseFloat` and `double`).  Vectors are
lists, matrices are lists of rows, and every operation that the Kaldi library
would abort on (a dimension mismatch, an index out of range) returns `none`.

* `EstPcaMeanEnergy`  : `est-pca-mean-energy.cc`, the accumulation of the
  statistics, the cumulative-energy table and the matrix written;
* `PosteriorToPost`   : `posterior-to-post.cc`, truncation, renormalisation and
  emission of sparse posteriors;
* `PosteriorToPostFloat` : the default policy and the validation loop of
  `posterior-to-post.cc` in the arithmetic of `float` (IEEE 754 binary32), with
  its infinities and NaN;
* `AnalyzePostCounts` : `analyze-post-counts.cc`, accumulation and smoothing of
  the prior counts;
* `NnetPcaForward`    : `nnet-pca-forward.cc`, per-frame PCA reconstruction
  and its one-hot fallback;
* `CollectPosteriorsPerSenone` : `collect-posteriors-per-senone.cc`, the
  collection of the frames of one senone;
* `PcaBin`            : statements that span several of the programs.

Definitions come first, theorems follow.
-/

/-! ## Part 1: definitions -/

namespace EstPcaMeanEnergy

/-- Loop of lines 179-182 with the running value carried along: the entry
written at position `j` is the previous entry plus `s(j)`. -/
def cumsumFrom (acc : ℚ) : List ℚ → List ℚ
  | [] => []
  | x :: xs => (acc + x) :: cumsumFrom (acc + x) xs

/-- Vector `cumsum` of the source: `cumsum(0) = s(0)` and
`cumsum(j) = cumsum(j-1) + s(j)`. -/
def cumsum (s : List ℚ) : List ℚ := cumsumFrom 0 s

/-- Vector `energy` of the source: `energy.AddVec(100.0 / s.Sum(), cumsum)` on a
zero vector, so `energy(j) = 100 / s.Sum() * cumsum(j)`. -/
def energy (s : List ℚ) : List ℚ := (cumsum s).map (fun c => 100 / s.sum * c)

/-- Inner loop of lines 191-196 for one percentile `i`, scanning from column
`j`: the first `j` with `energy(j) > i` stores `j + 1` and breaks; when no
column qualifies the entry keeps the `0` that `e.resize(101)` put there. -/
def firstAbove (i : ℕ) : List ℚ → ℕ → ℕ
  | [], _ => 0
  | x :: xs, j => if x > (i : ℚ) then j + 1 else firstAbove i xs (j + 1)

/-- Value of `e[i]` after the loops of lines 190-197. -/
def tableEntry (s : List ℚ) (i : ℕ) : ℕ := firstAbove i (energy s) 0

/-- Vector `e` of the source (written out as `bins`): 101 entries, one per
percentile `0..100`. -/
def e (s : List ℚ) : List ℕ := (List.range 101).map (tableEntry s)

end EstPcaMeanEnergy

namespace PosteriorToPost

/-- Command-line options of `posterior-to-post` that steer the conversion
(lines 55-65); the defaults of the source are `precision = 2`,
`percentile = 0`, `topN = 0`, `roundOff = true`. -/
structure Options where
  precision : ℤ
  percentile : ℤ
  topN : ℤ
  roundOff : Bool

/-- Constant `eps` of line 89, `2.2204e-16`, as an exact rational. -/
def eps : ℚ := 22204 / 10 ^ 20

/-- Comparator `CompareByFirst` of lines 36-39: pairs `(value, column)` are
compared on the value alone. -/
def CompareByFirst (a b : ℚ × ℕ) : Prop := a.1 < b.1

/-- Contract of `std::priority_queue<pair<double,int>, ..., CompareByFirst>`.
A queue is represented by the function `pq` that sends the sequence of pushed
pairs to the sequence in which `top()`/`pop()` hand them back.  The C++
standard fixes that sequence up to the order of pairs with equal values: it is
a rearrangement of what was pushed, and no pair is handed back before one that
compares greater. -/
def IsPopOrder (pq : List (ℚ × ℕ) → List (ℚ × ℕ)) : Prop :=
  ∀ l, (pq l).Perm l ∧ (pq l).Pairwise (fun a b => ¬ CompareByFirst a b)

/-- A reference queue: among equal values the pair pushed first is handed back
first. -/
def heapPops (l : List (ℚ × ℕ)) : List (ℚ × ℕ) :=
  l.insertionSort (fun a b => b.1 ≤ a.1)

/-- Pushes of lines 124-125 and 141-142: the pairs `(frame(c), c)` in column
order, starting at column `c`. -/
def pushAll : ℕ → List ℚ → List (ℚ × ℕ)
  | _, [] => []
  | c, x :: xs => (x, c) :: pushAll (c + 1) xs

/-- C library `roundf` on exact values: nearest integer, halfway cases away
from zero. -/
def roundf (x : ℚ) : ℚ := if 0 ≤ x then ⌊x + 1 / 2⌋ else -⌊-x + 1 / 2⌋

/-- Precision branch (lines 109-116) on one row:
`mat(r,c) = roundf(mat(r,c) * digits) / digits` with `digits = pow(10, precision)`. -/
def roundRow (precision : ℤ) (row : List ℚ) : List ℚ :=
  row.map (fun x => roundf (x * 10 ^ precision) / 10 ^ precision)

/-- Loop of lines 129-133.  `q` holds the pairs still to be popped, so the
guard `c < numcols` is the queue being non-empty; `frame` is row `r` of `mat`. -/
def percentileLoop (maxprobsum : ℚ) : List (ℚ × ℕ) → ℚ → List ℚ → List ℚ
  | [], _, frame => frame
  | t :: q, probsum, frame =>
    if probsum < maxprobsum then
      percentileLoop maxprobsum q (probsum + t.1) (frame.set t.2 t.1)
    else frame

/-- Percentile branch (lines 118-135) on one row: every column is pushed and
zeroed, then the loop writes back the popped values while
`probsum < percentile / 100.0`. -/
def keepPercentile (pq : List (ℚ × ℕ) → List (ℚ × ℕ)) (percentile : ℤ)
    (row : List ℚ) : List ℚ :=
  percentileLoop ((percentile : ℚ) / 100) (pq (pushAll 0 row)) 0
    (List.replicate row.length 0)

/-- Loop of lines 144-147 with `n` iterations left: `top()` on an empty queue
is undefined, modelled as `none`. -/
def topNLoop : ℕ → List (ℚ × ℕ) → List ℚ → Option (List ℚ)
  | 0, _, frame => some frame
  | _ + 1, [], _ => none
  | n + 1, t :: q, frame => topNLoop n q (frame.set t.2 t.1)

/-- TopN branch (lines 137-149) on one row: every column is pushed (the row is
left as it is), then `topN` popped values are written back to their columns. -/
def keepTopN (pq : List (ℚ × ℕ) → List (ℚ × ℕ)) (topN : ℤ) (row : List ℚ) :
    Option (List ℚ) :=
  topNLoop topN.toNat (pq (pushAll 0 row)) row

/-- Truncation of one row, lines 109-149: `if (precision) ... else if
(percentile) ... else if (topN) ...`.  With all three options zero no branch
fires and the row is left as it is (the program stops at line 77 before it
reads any matrix in that configuration). -/
def truncateRow (pq : List (ℚ × ℕ) → List (ℚ × ℕ)) (o : Options) (row : List ℚ) :
    Option (List ℚ) :=
  if o.precision ≠ 0 then some (roundRow o.precision row)
  else if o.percentile ≠ 0 then some (keepPercentile pq o.percentile row)
  else if o.topN ≠ 0 then keepTopN pq o.topN row
  else some row

/-- Renormalisation of one row, lines 152-158: the row is multiplied by
`(sum + eps)^(-1)`.  A zero denominator makes `ApplyPow(-1)` fail. -/
def normalizeRow (row : List ℚ) : Option (List ℚ) :=
  if row.sum + eps = 0 then none
  else some (row.map (fun x => x * (row.sum + eps)⁻¹))

/-- Validation and emission of one row from column `c` on, lines 162-168, on
exact values: a value outside `[0, 1]` is a fatal error (line 164), a strictly
positive value is appended as the pair `(c, val)`.  An exact rational is
neither NaN nor an infinity, so the checks of lines 165-166 cannot fire here;
the run in `float` arithmetic, where they can, is
`PosteriorToPostFloat.emitFrom`. -/
def emitFrom : ℕ → List ℚ → Option (List (ℕ × ℚ))
  | _, [] => some []
  | c, val :: rest =>
    if val < 0 ∨ val > 1 then none
    else (emitFrom (c + 1) rest).map
      (fun post => if val > 0 then (c, val) :: post else post)

/-- One row of `mat` through lines 107-169: truncate and renormalise when
`roundOff` is set, then validate and emit. -/
def processRow (pq : List (ℚ × ℕ) → List (ℚ × ℕ)) (o : Options) (row : List ℚ) :
    Option (List (ℕ × ℚ)) :=
  if o.roundOff then
    (truncateRow pq o row).bind (fun t => (normalizeRow t).bind (emitFrom 0))
  else emitFrom 0 row

/-- All rows in order; an error in any row aborts the utterance. -/
def mapRows {α β : Type} (f : α → Option β) : List α → Option (List β)
  | [] => some []
  | x :: xs =>
    match f x with
    | none => none
    | some y => (mapRows f xs).map (fun ys => y :: ys)

/-- Body of the loop over utterances (lines 94-170) for the matrix `mat`
obtained after the optional `ApplyExp`: the `Posterior` written for the key. -/
def processMatrix (pq : List (ℚ × ℕ) → List (ℚ × ℕ)) (o : Options)
    (mat : List (List ℚ)) : Option (List (List (ℕ × ℚ))) :=
  mapRows (processRow pq o) mat

/-- Not a function of the source: the dense row of `numcols` columns that a
sparse posterior stands for, with the weight of every listed class at its index
and zero elsewhere.  It is used to state what a second run on the output of a
first run does. -/
def densify (numcols : ℕ) (post : List (ℕ × ℚ)) : List ℚ :=
  post.foldl (fun row p => row.set p.1 p.2) (List.replicate numcols 0)

/-- Not a function of the source: the dense matrix that the posterior
`utt_post` written for `mat` stands for, row by row, with the width of `mat`. -/
def densifyAll (mat : List (List ℚ)) (utt_post : List (List (ℕ × ℚ))) : List (List ℚ) :=
  List.zipWith (fun row post => densify row.length post) mat utt_post


/-- What a run of `posterior-to-post` leaves behind: the posteriors written, in
the order of the input, and the exit status. -/
structure Output where
  written : List (String × List (List (ℕ × ℚ)))
  status : ℤ

/-- Loop over the utterances (lines 90-172) with `num_done` carried along.
`apply_exp` is the option of line 67 and `exp` the function behind `ApplyExp`.
An utterance that ends in a fatal error or in undefined behaviour ends the run
without a normal return (`none`). -/
def loop (pq : List (ℚ × ℕ) → List (ℚ × ℕ)) (o : Options) (apply_exp : Bool)
    (exp : ℚ → ℚ) :
    List (String × List (List ℚ)) → ℕ →
      Option (List (String × List (List (ℕ × ℚ))) × ℕ)
  | [], num_done => some ([], num_done)
  | item :: rest, num_done =>
    match processMatrix pq o
        (if apply_exp then item.2.map (fun row => row.map exp) else item.2) with
    | none => none
    | some utt_post =>
      (loop pq o apply_exp exp rest (num_done + 1)).map
        (fun r => ((item.1, utt_post) :: r.1, r.2))

/-- The program from the check of line 77 to the `return` of line 175: with
rounding requested and no policy given the usage is printed and the status is
1; otherwise the status is `num_done != 0 ? 0 : 1`. -/
def main (pq : List (ℚ × ℕ) → List (ℚ × ℕ)) (o : Options) (apply_exp : Bool)
    (exp : ℚ → ℚ) (stream : List (String × List (List ℚ))) : Option Output :=
  if o.precision = 0 ∧ o.percentile = 0 ∧ o.topN = 0 ∧ o.roundOff = true then
    some ⟨[], 1⟩
  else
    (loop pq o apply_exp exp stream 0).map
      (fun r => ⟨r.1, if r.2 ≠ 0 then 0 else 1⟩)

end PosteriorToPost

namespace PosteriorToPostFloat

/-- A value of type `float`, which is `BaseFloat` in the default build of the
library: a finite number, an infinity or NaN.  The sign of a zero is not
represented. -/
inductive BaseFloat where
  | finite (x : ℚ)
  | inf (negative : Bool)
  | nan

/-- Rounding of a non-negative rational to the nearest integer, a tie going to
the even one. -/
def roundHalfEven (q : ℚ) : ℤ :=
  if q - ⌊q⌋ < 1 / 2 then ⌊q⌋
  else if 1 / 2 < q - ⌊q⌋ then ⌊q⌋ + 1
  else if ⌊q⌋ % 2 = 0 then ⌊q⌋
  else ⌊q⌋ + 1

/-- The exponent `e` of the unit in the last place of a positive `a` in the
binary32 format: `a` is halved or doubled until `a / 2^e` lies in
`[2^23, 2^24)`, and `e` is not taken below `-149`, the exponent of the
subnormal numbers.  The number of steps is bounded by `fuel`. -/
def exponent : ℕ → ℚ → ℤ → ℤ
  | 0, _, e => e
  | fuel + 1, a, e =>
    if 2 ^ 24 ≤ a then exponent fuel (a / 2) (e + 1)
    else if a < 2 ^ 23 ∧ -149 < e then exponent fuel (a * 2) (e - 1)
    else e

/-- The binary32 number nearest to a non-negative `a` (ties to even), before
the overflow test.  300 steps reach the exponent of every `a` between
`2^(-149)` and `2^128`; a larger `a` overflows whatever the exponent. -/
def magnitude (a : ℚ) : ℚ :=
  (roundHalfEven (a / 2 ^ exponent 300 a 0) : ℚ) * 2 ^ exponent 300 a 0

/-- Rounding of an exact result to `float` (IEEE 754 binary32, round to nearest,
ties to even): a magnitude that rounds to `2^128` or more becomes an
infinity. -/
def round32 (x : ℚ) : BaseFloat :=
  if x = 0 then BaseFloat.finite 0
  else if x < 0 then
    if 2 ^ 128 ≤ magnitude (-x) then BaseFloat.inf true
    else BaseFloat.finite (-magnitude (-x))
  else
    if 2 ^ 128 ≤ magnitude x then BaseFloat.inf false
    else BaseFloat.finite (magnitude x)

/-- Addition of two `float` values. -/
def add : BaseFloat → BaseFloat → BaseFloat
  | BaseFloat.finite x, BaseFloat.finite y => round32 (x + y)
  | BaseFloat.finite _, BaseFloat.inf s => BaseFloat.inf s
  | BaseFloat.inf s, BaseFloat.finite _ => BaseFloat.inf s
  | BaseFloat.inf s, BaseFloat.inf t => if s = t then BaseFloat.inf s else BaseFloat.nan
  | _, _ => BaseFloat.nan

/-- Multiplication of two `float` values. -/
def mul : BaseFloat → BaseFloat → BaseFloat
  | BaseFloat.finite x, BaseFloat.finite y => round32 (x * y)
  | BaseFloat.finite x, BaseFloat.inf s =>
    if x = 0 then BaseFloat.nan else BaseFloat.inf (xor (decide (x < 0)) s)
  | BaseFloat.inf s, BaseFloat.finite y =>
    if y = 0 then BaseFloat.nan else BaseFloat.inf (xor s (decide (y < 0)))
  | BaseFloat.inf s, BaseFloat.inf t => BaseFloat.inf (xor s t)
  | _, _ => BaseFloat.nan

/-- Division of two `float` values. -/
def div : BaseFloat → BaseFloat → BaseFloat
  | BaseFloat.finite x, BaseFloat.finite y =>
    if y = 0 then (if x = 0 then BaseFloat.nan else BaseFloat.inf (decide (x < 0)))
    else round32 (x / y)
  | BaseFloat.finite _, BaseFloat.inf _ => BaseFloat.finite 0
  | BaseFloat.inf s, BaseFloat.finite y => BaseFloat.inf (xor s (decide (y < 0)))
  | _, _ => BaseFloat.nan

/-- C library `roundf` on a `float`: an infinity and NaN are returned as they
are. -/
def roundf : BaseFloat → BaseFloat
  | BaseFloat.finite x => BaseFloat.finite (PosteriorToPost.roundf x)
  | v => v

/-- Constant `eps` of line 89: the literal `2.2204e-16` stored in a `float`. -/
def eps : BaseFloat := round32 (22204 / 10 ^ 20)

/-- Variable `digits` of line 110: `pow(10, precision)` stored in a `float`.  The
power is taken as exact and rounded once; from `precision = 39` on it is
`+inf`. -/
def digits (precision : ℤ) : BaseFloat := round32 (10 ^ precision)

/-- Precision branch (lines 109-116) on one row:
`mat(r,c) = roundf(mat(r,c) * digits) / digits`. -/
def roundRow (precision : ℤ) (row : List BaseFloat) : List BaseFloat :=
  row.map (fun x => div (roundf (mul x (digits precision))) (digits precision))

/-- Renormalisation of one row, lines 152-158: the row sum (`AddMatVec` with a
vector of ones; the order in which the library adds the terms is not fixed by
the source and is taken from the first column on), `eps` added to it, the
reciprocal taken (`ApplyPow(-1)`, as the quotient `1 / x`) and the row
multiplied by it (`MulRowsVec`). -/
def normalizeRow (row : List BaseFloat) : List BaseFloat :=
  row.map (fun x =>
    mul x (div (BaseFloat.finite 1) (add (row.foldl add (BaseFloat.finite 0)) eps)))

/-- Validation and emission of one row from column `c` on, lines 162-168.  A
value below `0.0` or above `1.0` is a fatal error (line 164; the comparisons
are false on NaN), NaN is a fatal error (line 165), an infinity is a fatal
error (lines 164 and 166); a value above `0.0` is appended as the pair
`(c, val)`. -/
def emitFrom : ℕ → List BaseFloat → Option (List (ℕ × ℚ))
  | _, [] => some []
  | c, BaseFloat.finite val :: rest =>
    if val < 0 ∨ val > 1 then none
    else (emitFrom (c + 1) rest).map
      (fun post => if val > 0 then (c, val) :: post else post)
  | _, BaseFloat.inf _ :: _ => none
  | _, BaseFloat.nan :: _ => none

/-- One row through lines 107-169 under the default policy (`roundOff` on,
`precision` non-zero): rounded to `precision` decimals, renormalised, validated
and emitted. -/
def processRow (precision : ℤ) (row : List BaseFloat) : Option (List (ℕ × ℚ)) :=
  emitFrom 0 (normalizeRow (roundRow precision row))

end PosteriorToPostFloat

namespace AnalyzePostCounts

/-- Options of `analyze-post-counts` (lines 66-77) with the tables they name:
`counts_dim`, the per-utterance weights (`none` when `--utt-weights` is not
given, else the table with its `HasKey`/`Value` lookup) and the per-frame
weights, likewise. -/
structure Config where
  counts_dim : ℤ
  utt_weights : Option (String → Option ℚ)
  frame_weights : Option (String → Option (List ℚ))

/-- Variables carried by the loop over utterances (lines 101-146). -/
structure State where
  counts : List ℚ
  num_done : ℕ
  num_other_error : ℕ

/-- What the program leaves behind: the vector written to `<counts>`, the labels
warned about as having a zero count, the two counters of the final log line
and the exit status. -/
structure Output where
  counts_nozero : List ℚ
  zero_labels : List ℕ
  num_done : ℕ
  num_other_error : ℕ
  status : ℤ

/-- Kaldi `Resize(dim, kCopyData)` on a vector: the old entries are kept, new
entries are zero. -/
def resize (counts : List ℚ) (dim : ℕ) : List ℚ :=
  counts.take dim ++ List.replicate (dim - counts.length) 0

/-- Inner loop of lines 134-143 over the pairs of frame `i`.  The vector grows
to `first + 1` when `first >= counts.Dim()`; then `second * utt_w * frame_w(i)`
(or `second * utt_w` without per-frame weights) is added at `first`.  A negative
index, or a frame without an entry in `frame_w`, is an access out of range
(`none`). -/
def accumulatePairs (utt_w : ℚ) (frame_w : Option (List ℚ)) (i : ℕ) :
    List (ℤ × ℚ) → List ℚ → Option (List ℚ)
  | [], counts => some counts
  | p :: ps, counts =>
    if p.1 < 0 then none
    else
      let grown :=
        if p.1 ≥ (counts.length : ℤ) then resize counts (p.1.toNat + 1) else counts
      match frame_w with
      | some fw =>
        match fw[i]? with
        | none => none
        | some f =>
          accumulatePairs utt_w frame_w i ps
            (grown.set p.1.toNat (grown.getD p.1.toNat 0 + p.2 * utt_w * f))
      | none =>
        accumulatePairs utt_w frame_w i ps
          (grown.set p.1.toNat (grown.getD p.1.toNat 0 + p.2 * utt_w))

/-- Outer loop of lines 133-144 over the frames of one posterior, from frame
`i` on. -/
def accumulateFrames (utt_w : ℚ) (frame_w : Option (List ℚ)) :
    ℕ → List (List (ℤ × ℚ)) → List ℚ → Option (List ℚ)
  | _, [], counts => some counts
  | i, fr :: frs, counts =>
    (accumulatePairs utt_w frame_w i fr counts).bind
      (accumulateFrames utt_w frame_w (i + 1) frs)

/-- Lines 108-118: the weight of utterance `utt`, `1.0` when no table is given;
`none` when the table lacks the key. -/
def uttWeight (cfg : Config) (utt : String) : Option ℚ :=
  match cfg.utt_weights with
  | none => some 1
  | some table => table utt

/-- Lines 120-130: the per-frame weights of utterance `utt`, absent (`some none`)
when no table is given; `none` when the table lacks the key. -/
def frameWeights (cfg : Config) (utt : String) : Option (Option (List ℚ)) :=
  match cfg.frame_weights with
  | none => some none
  | some table => (table utt).map some

/-- One pass of the loop body (lines 105-145): an utterance with a missing
weight is skipped and counted in `num_other_error`, otherwise its posterior
is accumulated and `num_done` is incremented. -/
def step (cfg : Config) (st : State) (item : String × List (List (ℤ × ℚ))) :
    Option State :=
  match uttWeight cfg item.1 with
  | none => some ⟨st.counts, st.num_done, st.num_other_error + 1⟩
  | some utt_w =>
    match frameWeights cfg item.1 with
    | none => some ⟨st.counts, st.num_done, st.num_other_error + 1⟩
    | some frame_w =>
      (accumulateFrames utt_w frame_w 0 item.2 st.counts).map
        (fun counts => ⟨counts, st.num_done + 1, st.num_other_error⟩)

/-- Loop over the utterances of the input stream (line 104). -/
def loop (cfg : Config) : List (String × List (List (ℤ × ℚ))) → State → Option State
  | [], st => some st
  | item :: items, st => (step cfg st item).bind (loop cfg items)

/-- Lines 149-153 from label `i` on: the labels with `0.0 == counts(i)`. -/
def zeroLabelsFrom : ℕ → List ℚ → List ℕ
  | _, [] => []
  | i, x :: xs =>
    if 0 = x then i :: zeroLabelsFrom (i + 1) xs else zeroLabelsFrom (i + 1) xs

/-- Lines 157-158: `counts_nozero` is a copy of `counts` with `0.5` added to
every element. -/
def counts_nozero (counts : List ℚ) : List ℚ := counts.map (fun x => x + 1 / 2)

/-- The program from the creation of `counts` (line 101) to `return 0`
(line 204).  A negative `counts_dim` cannot be allocated (`none`). -/
def main (cfg : Config) (stream : List (String × List (List (ℤ × ℚ)))) :
    Option Output :=
  if cfg.counts_dim < 0 then none
  else
    (loop cfg stream ⟨List.replicate cfg.counts_dim.toNat 0, 0, 0⟩).map
      (fun st =>
        ⟨counts_nozero st.counts, zeroLabelsFrom 0 st.counts, st.num_done,
          st.num_other_error, 0⟩)


/-- Specification: the weight of frame `i`, taken as 1 when no per-frame
weights are supplied. -/
def frameWeightAt (frame_w : Option (List ℚ)) (i : ℕ) : ℚ :=
  match frame_w with
  | some fw => fw.getD i 1
  | none => 1

/-- Specification of the mass that the frames `post`, numbered from `i`, add to
class `n`: the sum over the frames and over the pairs `(n, w)` of each frame of
`w * utt_w * frame_w(i)`. -/
def addedMass (utt_w : ℚ) (frame_w : Option (List ℚ)) (n : ℕ) :
    ℕ → List (List (ℤ × ℚ)) → ℚ
  | _, [] => 0
  | i, fr :: frs =>
    ((fr.filter (fun p => p.1 = (n : ℤ))).map
        (fun p => p.2 * utt_w * frameWeightAt frame_w i)).sum
      + addedMass utt_w frame_w n (i + 1) frs


/-- Specification: the class indices observed in the posteriors that the loop
processes, that is, in the utterances that are not skipped. -/
def observedIndices (cfg : Config) (stream : List (String × List (List (ℤ × ℚ)))) :
    List ℤ :=
  (stream.filter (fun item =>
      (uttWeight cfg item.1).isSome && (frameWeights cfg item.1).isSome)).flatMap
    (fun item => item.2.flatMap (fun fr => fr.map Prod.fst))

/-- Specification: `len1` is the larger of `len0` and the largest of the indices
`idxs` plus one. -/
def IsGrownLength (len0 : ℕ) (idxs : List ℤ) (len1 : ℕ) : Prop :=
  len0 ≤ len1 ∧ (∀ x ∈ idxs, x < (len1 : ℤ)) ∧
    (len1 = len0 ∨ ∃ x ∈ idxs, x + 1 = (len1 : ℤ))

end AnalyzePostCounts

namespace NnetPcaForward

/-- The C library functions behind `ApplyLog`, `log(eps)` and `ApplyExp`.  Their
values are not rational, so they are parameters of the embedding. -/
structure Libm where
  log : ℚ → ℚ
  exp : ℚ → ℚ

/-- Options of `nnet-pca-forward` (lines 64-80).  `log_priors` is the vector
that `PdfPrior::SubtractOnLogpost` subtracts from every row, present when
`--class-frame-counts` is given. -/
structure Options where
  energy : ℤ
  apply_log : Bool
  no_softmax : Bool
  apply_exp : Bool
  log_priors : Option (List ℚ)

/-- Constant `eps` of line 104, `2.2204e-16`, as an exact rational. -/
def eps : ℚ := 22204 / 10 ^ 20

/-- Kaldi `VecVec`: the inner product of two vectors. -/
def dot (a b : List ℚ) : ℚ := (List.zipWith (fun x y => x * y) a b).sum

/-- Kaldi `SubMatrix(M, 0, num_rows, 0, num_cols)`: the leading block of `M`,
refused when it does not fit. -/
def SubMatrix (M : List (List ℚ)) (num_rows num_cols : ℕ) : Option (List (List ℚ)) :=
  if num_rows ≤ M.length ∧ ∀ row ∈ M, num_cols ≤ row.length then
    some ((M.take num_rows).map (fun row => row.take num_cols))
  else none

/-- Kaldi `y.AddVec(alpha, v)`: `y` becomes `y + alpha * v`; the dimensions must
agree. -/
def AddVec (alpha : ℚ) (v y : List ℚ) : Option (List ℚ) :=
  if v.length = y.length then some (List.zipWith (fun yi vi => yi + alpha * vi) y v)
  else none

/-- Kaldi `y.AddMatVec(alpha, M, trans, v, beta)`: `y` becomes
`alpha * M * v + beta * y`, with `M` transposed when `trans` is set (`kTrans`);
the dimensions must agree. -/
def AddMatVec (alpha : ℚ) (M : List (List ℚ)) (trans : Bool) (v : List ℚ) (beta : ℚ)
    (y : List ℚ) : Option (List ℚ) :=
  if trans then
    if M.length = v.length ∧ ∀ row ∈ M, row.length = y.length then
      some (List.zipWith
        (fun j yj => alpha * dot (M.map (fun row => row.getD j 0)) v + beta * yj)
        (List.range y.length) y)
    else none
  else
    if M.length = y.length ∧ ∀ row ∈ M, row.length = v.length then
      some (List.zipWith (fun row yi => alpha * dot row v + beta * yi) M y)
    else none

/-- Transform branch, lines 231-241, for one frame: `k` columns of the class
basis are selected, the mean is subtracted, the frame is projected
(`kTrans`) and mapped back (`kNoTrans`) onto the mean.  `k` is the entry of
`energies` for the class. -/
def pcaReconstruct (dimension : ℕ) (transform : List (List ℚ)) (mean : List ℚ)
    (k : ℤ) (frame_data : List ℚ) : Option (List ℚ) :=
  if k < 0 then none
  else
    (SubMatrix transform dimension k.toNat).bind (fun trans_pca =>
      (AddVec (-1) mean frame_data).bind (fun centered =>
        (AddMatVec 1 trans_pca true centered 0 (List.replicate k.toNat 0)).bind
          (fun temp_data => AddMatVec 1 trans_pca false temp_data 1 mean)))

/-- Fallback branch, lines 244-248, for one frame of `numCols` columns: every
column is set to `log(eps)`, then the column of the class label to `0.0`. -/
def fallbackRow (logEps : ℚ) (numCols : ℕ) (senone : ℤ) : Option (List ℚ) :=
  if 0 ≤ senone ∧ senone < (numCols : ℤ) then
    some ((List.replicate numCols logEps).set senone.toNat 0)
  else none

/-- Lines 221-249 for one frame with class label `senone`: the transform branch
when both readers have the key, the fallback otherwise. -/
def reconstructFrame (logEps : ℚ) (dimension : ℕ)
    (transform_reader : ℤ → Option (List (List ℚ))) (mean_reader : ℤ → Option (List ℚ))
    (energies : List ℤ) (senone : ℤ) (frame_data : List ℚ) : Option (List ℚ) :=
  match transform_reader senone, mean_reader senone with
  | some transform, some mean =>
    if senone < 0 then none
    else
      match energies[senone.toNat]? with
      | none => none
      | some k => pcaReconstruct dimension transform mean k frame_data
  | _, _ => fallbackRow logEps frame_data.length senone

/-- Loop of line 220 over the rows, each with its label `vec[r]`; an alignment
shorter than the matrix is read out of range (`none`). -/
def reconstructRows (logEps : ℚ) (dimension : ℕ)
    (transform_reader : ℤ → Option (List (List ℚ))) (mean_reader : ℤ → Option (List ℚ))
    (energies : List ℤ) : List (List ℚ) → List ℤ → Option (List (List ℚ))
  | [], _ => some []
  | _ :: _, [] => none
  | frame_data :: frames, senone :: vec =>
    (reconstructFrame logEps dimension transform_reader mean_reader energies senone
      frame_data).bind
      (fun row =>
        (reconstructRows logEps dimension transform_reader mean_reader energies frames
          vec).map (fun rows => row :: rows))

/-- Lines 192-200: the optional `ApplyLog` and the optional subtraction of the
log-priors on the network output. -/
def logPosteriors (m : Libm) (o : Options) (nnet_out : List (List ℚ)) :
    Option (List (List ℚ)) :=
  let logged := if o.apply_log then nnet_out.map (fun row => row.map m.log) else nnet_out
  match o.log_priors with
  | some priors =>
    if o.no_softmax ∨ o.apply_log then
      PosteriorToPost.mapRows (fun row => AddVec (-1) priors row) logged
    else some logged
  | none => some logged

/-- Lines 192-254 for one utterance: the matrix `output` before the optional
final `ApplyExp`.  `alignment` is `none` when the alignment reader lacks the
key, and the output is then the (log-)posterior matrix itself.  The NaN and
infinity checks of lines 181-184 and 208-215 have no counterpart over exact
rationals. -/
def reconstructUtterance (m : Libm) (o : Options) (dimension : ℕ)
    (transform_reader : ℤ → Option (List (List ℚ))) (mean_reader : ℤ → Option (List ℚ))
    (energies : List ℤ) (nnet_out : List (List ℚ)) (alignment : Option (List ℤ)) :
    Option (List (List ℚ)) :=
  (logPosteriors m o nnet_out).bind (fun nnet_out_host =>
    match alignment with
    | some vec =>
      reconstructRows (m.log eps) dimension transform_reader mean_reader energies
        nnet_out_host vec
    | none => some nnet_out_host)

/-- Lines 257-261: the matrix written for the utterance, exponentiated when
`apply_exp` is set. -/
def writeOutput (m : Libm) (o : Options) (output : List (List ℚ)) : List (List ℚ) :=
  if o.apply_exp then output.map (fun row => row.map m.exp) else output


/-- What a run of `nnet-pca-forward` leaves behind: the matrices written, in
the order of the input, and the exit status. -/
structure Output where
  written : List (String × List (List ℚ))
  status : ℤ

/-- Loop of lines 157-162 over the energy tables: `energies(senone) = v[energy]`
for the table `v` stored under the key `senone` (the key as `atoi` reads it).
An index outside `energies` or outside `v` is an access out of range
(`none`). -/
def fillEnergies (energy : ℤ) : List (ℤ × List ℤ) → List ℤ → Option (List ℤ)
  | [], energies => some energies
  | item :: rest, energies =>
    if 0 ≤ item.1 ∧ item.1 < (energies.length : ℤ) ∧ 0 ≤ energy then
      match item.2[energy.toNat]? with
      | none => none
      | some k => fillEnergies energy rest (energies.set item.1.toNat k)
    else none

/-- Loop over the feature files (lines 169-272) with `num_done` carried along.
`nnet` is the forward pass of lines 189-190 through the feature transform and
the network, `alignment_reader` the table of alignments.  An utterance that
ends in a fatal error or an access out of range ends the run without a normal
return (`none`). -/
def loop (m : Libm) (o : Options) (dimension : ℕ)
    (nnet : List (List ℚ) → List (List ℚ))
    (alignment_reader : String → Option (List ℤ))
    (transform_reader : ℤ → Option (List (List ℚ))) (mean_reader : ℤ → Option (List ℚ))
    (energies : List ℤ) :
    List (String × List (List ℚ)) → ℕ → Option (List (String × List (List ℚ)) × ℕ)
  | [], num_done => some ([], num_done)
  | item :: rest, num_done =>
    match reconstructUtterance m o dimension transform_reader mean_reader energies
        (nnet item.2) (alignment_reader item.1) with
    | none => none
    | some output =>
      (loop m o dimension nnet alignment_reader transform_reader mean_reader energies
        rest (num_done + 1)).map
        (fun r => ((item.1, writeOutput m o output) :: r.1, r.2))

/-- The program from the option checks of lines 124-137 to the `return` of
lines 285-286.  `softmax_last` tells whether the last component of the network
is a softmax, `energy_reader` holds the energy tables in the order read.  The
three option checks are fatal (`none`); at the end the status is `-1` when
`num_done == 0` and `0` otherwise. -/
def main (m : Libm) (o : Options) (softmax_last : Bool) (dimension : ℕ)
    (nnet : List (List ℚ) → List (List ℚ))
    (alignment_reader : String → Option (List ℤ))
    (transform_reader : ℤ → Option (List (List ℚ))) (mean_reader : ℤ → Option (List ℚ))
    (energy_reader : List (ℤ × List ℤ)) (stream : List (String × List (List ℚ))) :
    Option Output :=
  if o.apply_log = true ∧ o.no_softmax = true then none
  else if o.apply_log = true ∧ softmax_last = false then none
  else if o.log_priors.isSome = true ∧ o.no_softmax = false ∧ o.apply_log = false then none
  else
    (fillEnergies o.energy energy_reader (List.replicate dimension 0)).bind
      (fun energies =>
        (loop m o dimension nnet alignment_reader transform_reader mean_reader energies
          stream 0).map
          (fun r => ⟨r.1, if r.2 = 0 then -1 else 0⟩))

end NnetPcaForward

namespace EstPcaMeanEnergy

/-- Options of `est-pca-mean-energy` that steer the computation (lines 54-64).
The reading mode of `--read-vectors` is the constructor of `Input`; `--apply-log`
acts on each matrix before it is accumulated, and the input is taken after it. -/
structure Options where
  normalize_variance : Bool
  normalize_mean : Bool
  dim : ℤ

/-- Contents of the input table: feature matrices, or single vectors when
`--read-vectors` is set. -/
inductive Input where
  | features (mats : List (List (List ℚ)))
  | vectors (vecs : List (List ℚ))

/-- Accumulators of lines 84-87: `sum`, `sumsq` (a symmetric matrix, held in
full), `count`, `num_done`, `num_err`. -/
structure Stats where
  sum : List ℚ
  sumsq : List (List ℚ)
  count : ℕ
  num_done : ℕ
  num_err : ℕ

/-- Kaldi `NumCols()` of a matrix with at least one row. -/
def NumCols (mat : List (List ℚ)) : ℕ := (mat.headD []).length

/-- Kaldi `sum.AddVec(alpha, vec)`: `sum` becomes `sum + alpha * vec`. -/
def AddVec (alpha : ℚ) (vec sum : List ℚ) : List ℚ :=
  List.zipWith (fun s x => s + alpha * x) sum vec

/-- Kaldi `sumsq.AddVec2(alpha, vec)`: `sumsq` becomes
`sumsq + alpha * vec * vec^T`. -/
def AddVec2 (alpha : ℚ) (vec : List ℚ) (sumsq : List (List ℚ)) : List (List ℚ) :=
  List.zipWith (fun row vj => List.zipWith (fun a vk => a + alpha * vj * vk) row vec)
    sumsq vec

/-- Kaldi `sum.AddRowSumMat(alpha, mat)`: `sum` becomes `sum` plus `alpha` times
the sum of the rows of `mat`. -/
def AddRowSumMat (alpha : ℚ) (mat : List (List ℚ)) (sum : List ℚ) : List ℚ :=
  List.zipWith (fun j s => s + alpha * (mat.map (fun row => row.getD j 0)).sum)
    (List.range sum.length) sum

/-- Kaldi `sumsq.AddMat2(alpha, mat, kTrans, 1.0)`: `sumsq` becomes
`sumsq + alpha * mat^T * mat`. -/
def AddMat2 (alpha : ℚ) (mat : List (List ℚ)) (sumsq : List (List ℚ)) :
    List (List ℚ) :=
  List.zipWith
    (fun j row => List.zipWith
      (fun k a => a + alpha * (mat.map (fun r => r.getD j 0 * r.getD k 0)).sum)
      (List.range row.length) row)
    (List.range sumsq.length) sumsq

/-- Body of the loop over feature matrices, lines 99-122: an empty matrix and a
matrix of another width are counted in `num_err`; the first matrix taken sizes
`sum` and `sumsq`. -/
def addMatrix (st : Stats) (mat : List (List ℚ)) : Stats :=
  if mat.length = 0 then ⟨st.sum, st.sumsq, st.count, st.num_done, st.num_err + 1⟩
  else
    let sum := if st.sum.length = 0 then List.replicate (NumCols mat) 0 else st.sum
    let sumsq :=
      if st.sum.length = 0 then
        List.replicate (NumCols mat) (List.replicate (NumCols mat) 0)
      else st.sumsq
    if sum.length ≠ NumCols mat then ⟨sum, sumsq, st.count, st.num_done, st.num_err + 1⟩
    else
      ⟨AddRowSumMat 1 mat sum, AddMat2 1 mat sumsq, st.count + mat.length,
        st.num_done + 1, st.num_err⟩

/-- Body of the loop over vectors, lines 131-150. -/
def addVector (st : Stats) (vec : List ℚ) : Stats :=
  if vec.length = 0 then ⟨st.sum, st.sumsq, st.count, st.num_done, st.num_err + 1⟩
  else
    let sum := if st.sum.length = 0 then List.replicate vec.length 0 else st.sum
    let sumsq :=
      if st.sum.length = 0 then List.replicate vec.length (List.replicate vec.length 0)
      else st.sumsq
    if sum.length ≠ vec.length then ⟨sum, sumsq, st.count, st.num_done, st.num_err + 1⟩
    else ⟨AddVec 1 vec sum, AddVec2 1 vec sumsq, st.count + 1, st.num_done + 1, st.num_err⟩

/-- The pass over the input, lines 95-154, from empty accumulators. -/
def accumulate : Input → Stats
  | Input.features mats => mats.foldl addMatrix ⟨[], [], 0, 0, 0⟩
  | Input.vectors vecs => vecs.foldl addVector ⟨[], [], 0, 0, 0⟩

/-- Lines 157-160: `sum` and `sumsq` are scaled by `1.0 / count`, then
`sumsq.AddVec2(-1.0, sum)` centres the second moments.  The pair is the mean
(written out at line 237) and the matrix handed to `Eig`. -/
def finalizeStats (st : Stats) : List ℚ × List (List ℚ) :=
  let sum := st.sum.map (fun x => x * (1 / (st.count : ℚ)))
  let sumsq := st.sumsq.map (fun row => row.map (fun x => x * (1 / (st.count : ℚ))))
  (sum, AddVec2 (-1) sum sumsq)

/-- Fatal conditions: the two `KALDI_ERR` of lines 155-166 and the range
assertion of `SubMatrix`. -/
inductive Failure where
  | noDataAccumulated
  | finalDimension
  | subMatrixRange

/-- How a run ends: with a fatal condition, with the three tables written
(`return 0`), or in a way that exact arithmetic does not define (a zero
eigenvalue sum makes `100.0 / s.Sum()` infinite, and an empty eigenvalue vector
makes `cumsum(0) = s(0)` an access out of range). -/
inductive Outcome where
  | error (f : Failure)
  | written (out : List (List ℚ)) (mean : List ℚ) (bins : List ℕ)
  | undefined

/-- Kaldi `Matrix(M, kTrans)` for a matrix `M` of `numCols` columns. -/
def Transpose (numCols : ℕ) (M : List (List ℚ)) : List (List ℚ) :=
  (List.range numCols).map (fun j => M.map (fun row => row.getD j 0))

/-- Lines 199-225: the transform is the transpose of `P`, with row `i` scaled by
`1 / sqrt(s(i))` (the variance floored at `1.0e-15`) under `--normalize-variance`
and the offset column `-transform * sum` appended under `--normalize-mean`;
`pca_mat` is its transpose.  `sqrt` is the C library function. -/
def pca_mat (o : Options) (sqrt : ℚ → ℚ) (sum s : List ℚ) (P : List (List ℚ)) :
    List (List ℚ) :=
  let full_dim := sum.length
  let transform := Transpose full_dim P
  let scaled :=
    if o.normalize_variance then
      List.zipWith
        (fun row this_var =>
          row.map (fun x => x * (1 / sqrt (if this_var < 1 / 10 ^ 15 then 1 / 10 ^ 15
            else this_var))))
        transform s
    else transform
  let withOffset :=
    if o.normalize_mean then
      List.zipWith (fun row off => row ++ [off]) scaled
        (scaled.map (fun row => -1 * NnetPcaForward.dot row sum))
    else scaled
  Transpose (if o.normalize_mean then full_dim + 1 else full_dim) withOffset

/-- Lines 177-245, from the sorted eigenvalues `s` and eigenvectors `P` that
`Eig` and `SortSvd` return: the table `e` and the first `e[99]` columns of
`pca_mat` as the matrix written, with the mean and the table. -/
def finish (o : Options) (sqrt : ℚ → ℚ) (sum s : List ℚ) (P : List (List ℚ)) : Outcome :=
  if s = [] ∨ s.sum = 0 then Outcome.undefined
  else
    match NnetPcaForward.SubMatrix (pca_mat o sqrt sum s P) sum.length ((e s).getD 99 0) with
    | none => Outcome.error Failure.subMatrixRange
    | some out => Outcome.written out sum (e s)

/-- The program from the first pass to `return 0`; `eig` stands for
`sumsq.Eig(&s, &P)` followed by `SortSvd(&s, &P)`. -/
def main (o : Options) (sqrt : ℚ → ℚ)
    (eig : List (List ℚ) → List ℚ × List (List ℚ)) (input : Input) : Outcome :=
  if (accumulate input).num_done = 0 then Outcome.error Failure.noDataAccumulated
  else
    let full_dim := (finalizeStats (accumulate input)).1.length
    if (if o.dim ≤ 0 then (full_dim : ℤ) else o.dim) > (full_dim : ℤ) then
      Outcome.error Failure.finalDimension
    else
      finish o sqrt (finalizeStats (accumulate input)).1
        (eig (finalizeStats (accumulate input)).2).1
        (eig (finalizeStats (accumulate input)).2).2

/-- Exit status of a run that ends in `main`: `-1` from the handler of the fatal
errors, `0` after the tables are written. -/
def exitStatus : Outcome → Option ℤ
  | Outcome.error Failure.noDataAccumulated => some (-1)
  | Outcome.error Failure.finalDimension => some (-1)
  | Outcome.written _ _ _ => some 0
  | _ => none

/-- Specification: the dimension of the accepted items, the number of columns
of the first matrix with a row, or the length of the first non-empty vector
(0 when there is none). -/
def firstWidth : Input → ℕ
  | Input.features mats => NumCols ((mats.find? (fun m => decide (m.length ≠ 0))).getD [])
  | Input.vectors vecs => ((vecs.find? (fun v => decide (v.length ≠ 0))).getD []).length

/-- Specification: the accepted input vectors in the order of the input, that
is, the rows of the non-empty matrices whose width is the dimension, or the
non-empty vectors whose length is the dimension. -/
def acceptedVectors : Input → List (List ℚ)
  | Input.features mats =>
    (mats.filter (fun m =>
      decide (m.length ≠ 0 ∧ NumCols m = firstWidth (Input.features mats)))).flatMap
      (fun m => m)
  | Input.vectors vecs =>
    vecs.filter (fun v =>
      decide (v.length ≠ 0 ∧ v.length = firstWidth (Input.vectors vecs)))

/-- Specification: the vector of the sums of component `j` over `xs`, for
`j < d`.  A component is read with default 0; in a Kaldi matrix all rows have
one width and the default is never taken. -/
def colSums (d : ℕ) (xs : List (List ℚ)) : List ℚ :=
  (List.range d).map (fun j => (xs.map (fun x => x.getD j 0)).sum)

/-- Specification: the matrix of the sums of the products of components `j` and
`k` over `xs`, that is, the sum of the outer products `x x^T`. -/
def outerSums (d : ℕ) (xs : List (List ℚ)) : List (List ℚ) :=
  (List.range d).map (fun j => (List.range d).map (fun k =>
    (xs.map (fun x => x.getD j 0 * x.getD k 0)).sum))

/-- Specification: component `j` of the mean `(1/n) * sum of x_i`. -/
def meanEntry (xs : List (List ℚ)) (j : ℕ) : ℚ :=
  1 / (xs.length : ℚ) * (xs.map (fun x => x.getD j 0)).sum

/-- Specification: the mean `(1/n) * sum of x_i` of `n` vectors of dimension
`d`. -/
def sampleMean (d : ℕ) (xs : List (List ℚ)) : List ℚ :=
  (List.range d).map (meanEntry xs)

/-- Specification: the matrix `(1/n) * sum of x_i x_i^T - mean mean^T`. -/
def sampleCovariance (d : ℕ) (xs : List (List ℚ)) : List (List ℚ) :=
  (List.range d).map (fun j => (List.range d).map (fun k =>
    1 / (xs.length : ℚ) * (xs.map (fun x => x.getD j 0 * x.getD k 0)).sum
      - meanEntry xs j * meanEntry xs k))

/-- Specification: the accumulators hold the sums over the vectors `xs` of
dimension `d`. -/
def HoldsSums (d : ℕ) (xs : List (List ℚ)) (st : Stats) : Prop :=
  st.sum = colSums d xs ∧ st.sumsq = outerSums d xs ∧ st.count = xs.length

end EstPcaMeanEnergy

namespace CollectPosteriorsPerSenone

/-- Options of `collect-posteriors-per-senone` (lines 61-74); the defaults of
the source are `dataSize = 5000`, `senone = 0`, `correct_class = true`,
`no_softmax = false`, `apply_log = false`. -/
structure Options where
  dataSize : ℤ
  senone : ℤ
  correct_class : Bool
  no_softmax : Bool
  apply_log : Bool

/-- What a run leaves behind: the matrix `dataX` written under the key of the
senone, the counter `num_done` and the exit status. -/
structure Output where
  dataX : List (List ℚ)
  num_done : ℕ
  status : ℤ

/-- Kaldi `Max(&index)` from column `c` on, with the best value and its index so
far: a later column replaces the best only when its value is strictly
greater, so the index is that of the first maximum. -/
def maxFrom : ℕ → List ℚ → ℚ → ℕ → ℕ
  | _, [], _, index => index
  | c, x :: xs, best, index =>
    if x > best then maxFrom (c + 1) xs x c else maxFrom (c + 1) xs best index

/-- Kaldi `frame_data.Max(&max_element)`: the index of the first maximum; an
empty vector is an error (`none`). -/
def Max : List ℚ → Option ℕ
  | [] => none
  | x :: xs => some (maxFrom 1 xs x 0)

/-- Lines 207-211 and 215-219: `dataX` grows by one row, filled with the first
`dimension` columns of `frame_data`; a shorter frame is read out of range
(`none`). -/
def appendRow (dimension : ℕ) (frame_data : List ℚ) (dataX : List (List ℚ)) :
    Option (List (List ℚ)) :=
  if dimension ≤ frame_data.length then some (dataX ++ [frame_data.take dimension])
  else none

/-- Loop of lines 198-222 over the alignment `vec` from frame `r` on: a frame
whose label is the senone is appended, under `correct_class` only when the index
of its maximum is the senone.  A label beyond the last row of the network
output is an access out of range (`none`). -/
def collectRows (o : Options) (dimension : ℕ) (nnet_out_host : List (List ℚ)) :
    ℕ → List ℤ → List (List ℚ) → Option (List (List ℚ))
  | _, [], dataX => some dataX
  | r, label :: vec, dataX =>
    if o.senone = label then
      match nnet_out_host[r]? with
      | none => none
      | some frame_data =>
        if o.correct_class then
          match Max frame_data with
          | none => none
          | some max_element =>
            if o.senone = (max_element : ℤ) then
              (appendRow dimension frame_data dataX).bind
                (collectRows o dimension nnet_out_host (r + 1) vec)
            else collectRows o dimension nnet_out_host (r + 1) vec dataX
        else
          (appendRow dimension frame_data dataX).bind
            (collectRows o dimension nnet_out_host (r + 1) vec)
    else collectRows o dimension nnet_out_host (r + 1) vec dataX

/-- Body of the loop over utterances, lines 151-224: an utterance without an
alignment, or whose alignment does not contain the senone, adds nothing;
otherwise the network output (`nnet` is the forward pass of lines 177-178) is
scanned by `collectRows`. -/
def step (o : Options) (dimension : ℕ) (nnet : List (List ℚ) → List (List ℚ))
    (alignment_reader : String → Option (List ℤ)) (dataX : List (List ℚ))
    (item : String × List (List ℚ)) : Option (List (List ℚ)) :=
  match alignment_reader item.1 with
  | none => some dataX
  | some vec =>
    if o.senone ∈ vec then collectRows o dimension (nnet item.2) 0 vec dataX
    else some dataX

/-- Loop of line 149: it goes on while the reader has an utterance and
`currSize < dataSize`, where `currSize` is the number of rows of `dataX`;
`num_done` is incremented for every utterance visited (line 234). -/
def loop (o : Options) (dimension : ℕ) (nnet : List (List ℚ) → List (List ℚ))
    (alignment_reader : String → Option (List ℤ)) :
    List (String × List (List ℚ)) → List (List ℚ) → ℕ → Option (List (List ℚ) × ℕ)
  | [], dataX, num_done => some (dataX, num_done)
  | item :: rest, dataX, num_done =>
    if (dataX.length : ℤ) < o.dataSize then
      (step o dimension nnet alignment_reader dataX item).bind
        (fun grown => loop o dimension nnet alignment_reader rest grown (num_done + 1))
    else some (dataX, num_done)

/-- The program from the option checks of lines 116-124 to the `return` of
lines 259-260.  `softmax_last` tells whether the last component of the network
is a softmax, `log` is the function behind `ApplyLog`.  The option checks are
fatal (`none`); the matrix written is `dataX`, in log scale under `apply_log`;
the status is `-1` when `num_done == 0` and `0` otherwise. -/
def main (o : Options) (softmax_last : Bool) (log : ℚ → ℚ) (dimension : ℕ)
    (nnet : List (List ℚ) → List (List ℚ))
    (alignment_reader : String → Option (List ℤ))
    (stream : List (String × List (List ℚ))) : Option Output :=
  if o.apply_log = true ∧ o.no_softmax = true then none
  else if o.apply_log = true ∧ softmax_last = false then none
  else
    (loop o dimension nnet alignment_reader stream [] 0).map
      (fun r =>
        ⟨if o.apply_log then r.1.map (fun row => row.map log) else r.1, r.2,
          if r.2 = 0 then -1 else 0⟩)

end CollectPosteriorsPerSenone

/-! ## Part 2: theorems -/

namespace EstPcaMeanEnergy

theorem e_length (s : List ℚ) : (e s).length = 101 := by
  simp [e]

theorem e_getElem? (s : List ℚ) (p : ℕ) (hp : p ≤ 100) :
    (e s)[p]? = some (tableEntry s p) := by
  unfold e
  rw [List.getElem?_map, List.getElem?_range (by omega)]
  rfl

/-- What the scan returns on the running sums of `xs` started at `acc` and
scaled by `c`: either nothing exceeds `i` and the result is `0`, or the result
is `j + m` for the first prefix length `m` whose scaled sum exceeds `i`. -/
theorem firstAbove_scan (i : ℕ) (c : ℚ) (xs : List ℚ) :
    ∀ (acc : ℚ) (j : ℕ),
      (firstAbove i ((cumsumFrom acc xs).map (fun y => c * y)) j = 0 ∧
        ∀ m, 1 ≤ m → m ≤ xs.length → ¬ ((i : ℚ) < c * (acc + (xs.take m).sum))) ∨
      (∃ m, 1 ≤ m ∧ m ≤ xs.length ∧
        firstAbove i ((cumsumFrom acc xs).map (fun y => c * y)) j = j + m ∧
        (i : ℚ) < c * (acc + (xs.take m).sum) ∧
        ∀ m', 1 ≤ m' → m' < m → ¬ ((i : ℚ) < c * (acc + (xs.take m').sum))) := by
  induction xs with
  | nil =>
    intro acc j
    left
    refine ⟨rfl, ?_⟩
    intro m h1 h2
    simp at h2
    omega
  | cons x xs ih =>
    intro acc j
    by_cases hx : (i : ℚ) < c * (acc + x)
    · right
      refine ⟨1, le_refl 1, by simp, ?_, by simpa using hx, ?_⟩
      · simp [cumsumFrom, firstAbove, hx]
      · intro m' h1 h2
        omega
    · have hstep : firstAbove i ((cumsumFrom acc (x :: xs)).map (fun y => c * y)) j
          = firstAbove i ((cumsumFrom (acc + x) xs).map (fun y => c * y)) (j + 1) := by
        simp [cumsumFrom, firstAbove, hx]
      have hsum : ∀ m, acc + ((x :: xs).take (m + 1)).sum = acc + x + (xs.take m).sum := by
        intro m
        simp [List.take_succ_cons, add_assoc]
      rcases ih (acc + x) (j + 1) with ⟨h0, hnone⟩ | ⟨m, hm1, hm2, hval, hgt, hmin⟩
      · left
        refine ⟨by rw [hstep, h0], ?_⟩
        intro m h1 h2
        obtain ⟨n, rfl⟩ : ∃ n, m = n + 1 := ⟨m - 1, by omega⟩
        rw [hsum]
        rcases Nat.eq_zero_or_pos n with hn | hn
        · subst hn
          simpa using hx
        · exact hnone n hn (by simpa using h2)
      · right
        refine ⟨m + 1, by omega, by simpa using hm2, ?_, ?_, ?_⟩
        · rw [hstep, hval]
          omega
        · rw [hsum]
          exact hgt
        · intro m' h1 h2
          obtain ⟨n, rfl⟩ : ∃ n, m' = n + 1 := ⟨m' - 1, by omega⟩
          rw [hsum]
          rcases Nat.eq_zero_or_pos n with hn | hn
          · subst hn
            simpa using hx
          · exact hmin n hn (by omega)

/-- The scan lemma read on `tableEntry`. -/
theorem tableEntry_cases (s : List ℚ) (i : ℕ) :
    (tableEntry s i = 0 ∧
      ∀ m, 1 ≤ m → m ≤ s.length → ¬ ((i : ℚ) < 100 / s.sum * (s.take m).sum)) ∨
    (1 ≤ tableEntry s i ∧ tableEntry s i ≤ s.length ∧
      (i : ℚ) < 100 / s.sum * (s.take (tableEntry s i)).sum ∧
      ∀ m', 1 ≤ m' → m' < tableEntry s i →
        ¬ ((i : ℚ) < 100 / s.sum * (s.take m').sum)) := by
  have h := firstAbove_scan i (100 / s.sum) s 0 0
  simp only [zero_add] at h
  rcases h with ⟨h0, hnone⟩ | ⟨m, hm1, hm2, hval, hgt, hmin⟩
  · left
    exact ⟨h0, hnone⟩
  · right
    have hv : tableEntry s i = m := hval
    rw [hv]
    exact ⟨hm1, hm2, hgt, hmin⟩

/-- With a positive eigenvalue sum the last energy is exactly 100, so every
percentile below 100 finds a column. -/
theorem tableEntry_found (s : List ℚ) (hs : 0 < s.sum) (p : ℕ) (hp : p < 100) :
    1 ≤ tableEntry s p ∧ tableEntry s p ≤ s.length ∧
      (p : ℚ) < 100 / s.sum * (s.take (tableEntry s p)).sum ∧
      ∀ m', 1 ≤ m' → m' < tableEntry s p →
        ¬ ((p : ℚ) < 100 / s.sum * (s.take m').sum) := by
  rcases tableEntry_cases s p with ⟨_, hnone⟩ | h
  · exfalso
    have hlen : 1 ≤ s.length := by
      rcases s with _ | ⟨x, xs⟩
      · simp at hs
      · simp
    apply hnone s.length hlen (le_refl _)
    rw [List.take_length, div_mul_cancel₀ _ (ne_of_gt hs)]
    exact_mod_cast hp
  · exact h

/-- Below percentile 100 the table is non-decreasing. -/
theorem tableEntry_mono (s : List ℚ) (hs : 0 < s.sum) (p q : ℕ) (hpq : p ≤ q)
    (hq : q < 100) : tableEntry s p ≤ tableEntry s q := by
  obtain ⟨_, _, _, hmin⟩ := tableEntry_found s hs p (by omega)
  obtain ⟨hq1, _, hqgt, _⟩ := tableEntry_found s hs q hq
  by_contra hlt
  apply hmin (tableEntry s q) hq1 (by omega)
  have hcast : (p : ℚ) ≤ (q : ℚ) := by exact_mod_cast hpq
  exact lt_of_le_of_lt hcast hqgt

theorem sum_take_le_sum (s : List ℚ) (hnn : ∀ x ∈ s, 0 ≤ x) (m : ℕ) :
    (s.take m).sum ≤ s.sum := by
  conv_rhs => rw [← List.take_append_drop m s]
  rw [List.sum_append]
  have : 0 ≤ (s.drop m).sum :=
    List.sum_nonneg (fun x hx => hnn x (List.mem_of_mem_drop hx))
  linarith

/-- C2 (divergence of the code from the claim): for non-negative eigenvalues
with positive sum no energy exceeds 100, so the scan for percentile 100 never
stores anything and `e[100]` keeps its initial `0`, while `e[99]` is at least
`1`.  Hence `e[99] ≤ e[100]` fails and `e[100]` is not the number of
eigenvalues; below percentile 100 the table is non-decreasing. -/
theorem e_top_entry_never_set (s : List ℚ) (hnn : ∀ x ∈ s, 0 ≤ x) (hs : 0 < s.sum) :
    (e s)[100]? = some 0 ∧
    (∃ k, (e s)[99]? = some k ∧ 1 ≤ k) ∧
    (e s)[100]? ≠ some s.length ∧
    (∀ p, p < 99 → ∃ a b, (e s)[p]? = some a ∧ (e s)[p + 1]? = some b ∧ a ≤ b) := by
  have h100 : tableEntry s 100 = 0 := by
    rcases tableEntry_cases s 100 with ⟨h0, _⟩ | ⟨h1, _, hgt, _⟩
    · exact h0
    · exfalso
      have hle := sum_take_le_sum s hnn (tableEntry s 100)
      have hbound : 100 / s.sum * (s.take (tableEntry s 100)).sum ≤ 100 := by
        rw [div_mul_eq_mul_div, div_le_iff₀ hs]
        nlinarith
      have : ((100 : ℕ) : ℚ) = 100 := by norm_num
      rw [this] at hgt
      linarith
  have hlen : 1 ≤ s.length := by
    rcases s with _ | ⟨x, xs⟩
    · simp at hs
    · simp
  refine ⟨?_, ⟨tableEntry s 99, e_getElem? s 99 (by norm_num), ?_⟩, ?_, ?_⟩
  · rw [e_getElem? s 100 (le_refl _), h100]
  · exact (tableEntry_found s hs 99 (by norm_num)).1
  · rw [e_getElem? s 100 (le_refl _), h100]
    intro h
    have := Option.some.inj h
    omega
  · intro p hp
    exact ⟨tableEntry s p, tableEntry s (p + 1), e_getElem? s p (by omega),
      e_getElem? s (p + 1) (by omega), tableEntry_mono s hs p (p + 1) (by omega) (by omega)⟩

/-- Witness for `e_top_entry_never_set` at the eigenvalues `[1, 1]`: the energies
are `[50, 100]`, `e[99] = 2` and `e[100] = 0`. -/
theorem e_top_entry_never_set_witness :
    (∀ x ∈ ([1, 1] : List ℚ), 0 ≤ x) ∧ 0 < ([1, 1] : List ℚ).sum ∧
    (e [1, 1])[100]? = some 0 ∧ (e [1, 1])[99]? = some 2 ∧
    (e [1, 1])[100]? ≠ some ([1, 1] : List ℚ).length := by
  have hnn : ∀ x ∈ ([1, 1] : List ℚ), 0 ≤ x := by
    intro x hx
    simp at hx
    rw [hx]
    norm_num
  have hs : 0 < ([1, 1] : List ℚ).sum := by norm_num
  have h := e_top_entry_never_set [1, 1] hnn hs
  refine ⟨hnn, hs, h.1, ?_, h.2.2.1⟩
  rw [e_getElem? _ _ (by norm_num)]
  norm_num [tableEntry, energy, cumsum, cumsumFrom, firstAbove]

/-- C3 (counterexample): for the eigenvalues `[1, 1]` one component already
reaches 50 percent (`100 * 1 / 2 ≥ 50`), so the smallest `k` of the claim is
`1`, but the table stores `e[50] = 2` because the comparison is strict. -/
theorem e_entry_not_least_nonstrict :
    (e [1, 1])[50]? = some 2 ∧ (e [1, 1])[50]? ≠ some 1 ∧
    (50 : ℚ) ≤ 100 * (([1, 1] : List ℚ).take 1).sum / ([1, 1] : List ℚ).sum := by
  have h : (e [1, 1])[50]? = some 2 := by
    rw [e_getElem? _ _ (by norm_num)]
    norm_num [tableEntry, energy, cumsum, cumsumFrom, firstAbove]
  refine ⟨h, ?_, ?_⟩
  · rw [h]
    simp
  · norm_num

/-- C3 (amended): for eigenvalues with positive sum and a percentile `p` in
`0..99`, the entry `e[p]` is the smallest `k` such that
`100 * (sum of the first k eigenvalues) / (sum of all eigenvalues)` is strictly
greater than `p`; it lies in `1..n`. -/
theorem e_entry_least_strict (s : List ℚ) (hs : 0 < s.sum) (p : ℕ) (hp : p < 100) :
    ∃ k, (e s)[p]? = some k ∧ 1 ≤ k ∧ k ≤ s.length ∧
      (p : ℚ) < 100 * (s.take k).sum / s.sum ∧
      ∀ m, m < k → ¬ ((p : ℚ) < 100 * (s.take m).sum / s.sum) := by
  obtain ⟨h1, h2, hgt, hmin⟩ := tableEntry_found s hs p hp
  refine ⟨tableEntry s p, e_getElem? s p (by omega), h1, h2, ?_, ?_⟩
  · rw [mul_div_right_comm]
    exact hgt
  · intro m hm
    rcases Nat.eq_zero_or_pos m with h0 | hpos
    · subst h0
      simp
    · rw [mul_div_right_comm]
      exact hmin m hpos hm

/-- Witness for `e_entry_least_strict` at the eigenvalues `[1, 1]` and
percentile 50: the entry is `2`. -/
theorem e_entry_least_strict_witness :
    0 < ([1, 1] : List ℚ).sum ∧ 50 < 100 ∧
    ∃ k, (e [1, 1])[50]? = some k ∧ 1 ≤ k ∧ k ≤ ([1, 1] : List ℚ).length ∧
      ((50 : ℕ) : ℚ) < 100 * (([1, 1] : List ℚ).take k).sum / ([1, 1] : List ℚ).sum ∧
      ∀ m, m < k → ¬ (((50 : ℕ) : ℚ) < 100 * (([1, 1] : List ℚ).take m).sum /
        ([1, 1] : List ℚ).sum) :=
  ⟨by norm_num, by norm_num, e_entry_least_strict [1, 1] (by norm_num) 50 (by norm_num)⟩

/-- Reading the table with a default: entry `p` of `e` is `tableEntry s p`. -/
theorem e_getD (s : List ℚ) (p : ℕ) (hp : p ≤ 100) : (e s).getD p 0 = tableEntry s p := by
  rw [List.getD_eq_getElem?_getD, e_getElem? s p hp]
  rfl

/-- With a non-zero eigenvalue sum the last energy is exactly 100, so every
percentile below 100 finds a column. -/
theorem tableEntry_bounds (s : List ℚ) (hs : s.sum ≠ 0) (p : ℕ) (hp : p < 100) :
    1 ≤ tableEntry s p ∧ tableEntry s p ≤ s.length := by
  rcases tableEntry_cases s p with ⟨_, hnone⟩ | ⟨h1, h2, _, _⟩
  · exfalso
    have hlen : 1 ≤ s.length := by
      rcases s with _ | ⟨x, xs⟩
      · simp at hs
      · simp
    apply hnone s.length hlen (le_refl _)
    rw [List.take_length, div_mul_cancel₀ _ hs]
    exact_mod_cast hp
  · exact ⟨h1, h2⟩

/-- A pass over matrices keeps `num_done` and `count` zero together. -/
theorem addMatrix_count (st : Stats) (mat : List (List ℚ))
    (h : st.num_done = 0 ↔ st.count = 0) :
    (addMatrix st mat).num_done = 0 ↔ (addMatrix st mat).count = 0 := by
  unfold addMatrix
  by_cases hm : mat.length = 0
  · simpa [hm] using h
  · simp only [hm, if_false]
    split_ifs <;> first
      | exact h
      | (dsimp only
         constructor <;> intro hh <;> omega)

/-- A pass over vectors keeps `num_done` and `count` zero together. -/
theorem addVector_count (st : Stats) (vec : List ℚ)
    (h : st.num_done = 0 ↔ st.count = 0) :
    (addVector st vec).num_done = 0 ↔ (addVector st vec).count = 0 := by
  unfold addVector
  by_cases hm : vec.length = 0
  · simpa [hm] using h
  · simp only [hm, if_false]
    split_ifs <;> first
      | exact h
      | (dsimp only
         constructor <;> intro hh <;> omega)

theorem foldl_addMatrix_count (mats : List (List (List ℚ))) :
    ∀ st : Stats, (st.num_done = 0 ↔ st.count = 0) →
      ((mats.foldl addMatrix st).num_done = 0 ↔ (mats.foldl addMatrix st).count = 0) := by
  induction mats with
  | nil => intro st h; simpa using h
  | cons m ms ih =>
    intro st h
    rw [List.foldl_cons]
    exact ih _ (addMatrix_count st m h)

theorem foldl_addVector_count (vecs : List (List ℚ)) :
    ∀ st : Stats, (st.num_done = 0 ↔ st.count = 0) →
      ((vecs.foldl addVector st).num_done = 0 ↔ (vecs.foldl addVector st).count = 0) := by
  induction vecs with
  | nil => intro st h; simpa using h
  | cons m ms ih =>
    intro st h
    rw [List.foldl_cons]
    exact ih _ (addVector_count st m h)

/-- At the end of the pass no item was taken exactly when no frame was
counted. -/
theorem accumulate_count (input : Input) :
    (accumulate input).num_done = 0 ↔ (accumulate input).count = 0 := by
  cases input with
  | features mats => exact foldl_addMatrix_count mats _ (by simp)
  | vectors vecs => exact foldl_addVector_count vecs _ (by simp)

/-- The part of the program after the eigendecomposition never raises
'No data accumulated'. -/
theorem finish_ne_noData (o : Options) (sqrt : ℚ → ℚ) (sum s : List ℚ)
    (P : List (List ℚ)) :
    finish o sqrt sum s P ≠ Outcome.error Failure.noDataAccumulated := by
  unfold finish
  split_ifs
  · simp
  · split <;> simp

/-- The run raises 'No data accumulated' exactly when `num_done` is zero. -/
theorem main_noData_iff (o : Options) (sqrt : ℚ → ℚ)
    (eig : List (List ℚ) → List ℚ × List (List ℚ)) (input : Input) :
    main o sqrt eig input = Outcome.error Failure.noDataAccumulated ↔
      (accumulate input).num_done = 0 := by
  unfold main
  constructor
  · intro h
    by_contra hne
    rw [if_neg hne] at h
    dsimp only at h
    split_ifs at h <;> first
      | exact finish_ne_noData _ _ _ _ _ h
      | simp at h
  · intro h
    rw [if_pos h]

/-- C13: for every input stream (feature matrices or single vectors) and all
options, est-pca-mean-energy raises the fatal 'No data accumulated' error if
and only if the frame count accumulated by the pass is 0; and whenever it does
not raise it, so that it goes on to scale `sum` and `sumsq` by `1.0 / count`,
the count is strictly positive. -/
theorem no_data_iff_count_zero (o : Options) (sqrt : ℚ → ℚ)
    (eig : List (List ℚ) → List ℚ × List (List ℚ)) (input : Input) :
    (main o sqrt eig input = Outcome.error Failure.noDataAccumulated ↔
      (accumulate input).count = 0) ∧
    (main o sqrt eig input ≠ Outcome.error Failure.noDataAccumulated →
      0 < (accumulate input).count) := by
  have h1 := main_noData_iff o sqrt eig input
  have h2 := accumulate_count input
  refine ⟨h1.trans h2, ?_⟩
  intro hne
  rw [Nat.pos_iff_ne_zero]
  intro hc
  exact hne ((h1.trans h2).mpr hc)

theorem Transpose_length (n : ℕ) (M : List (List ℚ)) : (Transpose n M).length = n := by
  simp [Transpose]

theorem Transpose_row_length (n : ℕ) (M : List (List ℚ)) :
    ∀ row ∈ Transpose n M, row.length = M.length := by
  intro row hrow
  simp only [Transpose, List.mem_map] at hrow
  obtain ⟨j, _, rfl⟩ := hrow
  simp

/-- Shape of `pca_mat` when `s` has one eigenvalue per dimension: at least
`full_dim` rows (one more with the offset), each of `full_dim` columns. -/
theorem pca_mat_shape (o : Options) (sqrt : ℚ → ℚ) (sum s : List ℚ) (P : List (List ℚ))
    (hlen : s.length = sum.length) :
    sum.length ≤ (pca_mat o sqrt sum s P).length ∧
      ∀ row ∈ pca_mat o sqrt sum s P, row.length = sum.length := by
  unfold pca_mat
  dsimp only
  constructor
  · rw [Transpose_length]
    split_ifs <;> omega
  · intro row hrow
    rw [Transpose_row_length _ _ row hrow]
    split_ifs <;> simp [Transpose_length, hlen]

/-- With a non-zero eigenvalue sum and one eigenvalue per dimension the three
tables are written, the matrix being the first `e[99]` columns of the first
`full_dim` rows of `pca_mat`. -/
theorem finish_written (o : Options) (sqrt : ℚ → ℚ) (sum s : List ℚ) (P : List (List ℚ))
    (hlen : s.length = sum.length) (hs : s.sum ≠ 0) :
    finish o sqrt sum s P =
      Outcome.written
        (((pca_mat o sqrt sum s P).take sum.length).map
          (fun row => row.take ((e s).getD 99 0))) sum (e s) := by
  have hne : s ≠ [] := by
    rintro rfl
    simp at hs
  obtain ⟨hrows, hcols⟩ := pca_mat_shape o sqrt sum s P hlen
  have hk : (e s).getD 99 0 ≤ sum.length := by
    rw [e_getD s 99 (by norm_num), ← hlen]
    exact (tableEntry_bounds s hs 99 (by norm_num)).2
  unfold finish
  rw [if_neg (by simp [hne, hs])]
  unfold NnetPcaForward.SubMatrix
  rw [if_pos ⟨hrows, fun row hrow => by rw [hcols row hrow]; exact hk⟩]

/-- Rows and columns of the matrix written by `finish`. -/
theorem stored_shape (M : List (List ℚ)) (n k : ℕ) (hrows : n ≤ M.length)
    (hcols : ∀ row ∈ M, row.length = n) (hk : k ≤ n) :
    ((M.take n).map (fun row => row.take k)).length = n ∧
      ∀ row ∈ (M.take n).map (fun row => row.take k), row.length = k := by
  constructor
  · simp [hrows]
  · intro row hrow
    simp only [List.mem_map] at hrow
    obtain ⟨r, hr, rfl⟩ := hrow
    rw [List.length_take, hcols r (List.mem_of_mem_take hr)]
    omega

/-- C14 (counterexample): the eigenvalue list `[-1]` has sum `-1 <= 0`, yet the
run ends with the three tables written and status 0, not with an error:
`cumsum = [-1]`, `energy = [100]`, so `e[99] = 1` and the matrix written is the
one column of `pca_mat`. -/
theorem negative_sum_not_rejected :
    ([-1] : List ℚ).sum ≤ 0 ∧
    finish ⟨false, false, -1⟩ (fun x => x) [3] [-1] [[1]] =
      Outcome.written [[1]] [3] (e [-1]) ∧
    (e [-1]).getD 99 0 = 1 ∧
    exitStatus (finish ⟨false, false, -1⟩ (fun x => x) [3] [-1] [[1]]) = some 0 := by
  have h99 : (e [-1]).getD 99 0 = 1 := by
    rw [e_getD _ _ (by norm_num)]
    norm_num [tableEntry, energy, cumsum, cumsumFrom, firstAbove]
  have hfin : finish ⟨false, false, -1⟩ (fun x => x) [3] [-1] [[1]] =
      Outcome.written [[1]] [3] (e [-1]) := by
    rw [finish_written _ _ _ _ _ (by simp) (by norm_num), h99]
    simp [pca_mat, Transpose, List.range_succ]
  refine ⟨by norm_num, hfin, h99, ?_⟩
  rw [hfin]
  rfl

/-- C14 (amended): the program has no check on the eigenvalue sum: for all
options, every mean vector and every list of eigenvalues with one eigenvalue
per dimension whose sum is negative, the run ends with the matrix, the mean
and the table `e` written and exit status 0. -/
theorem negative_sum_is_written (o : Options) (sqrt : ℚ → ℚ) (sum s : List ℚ)
    (P : List (List ℚ)) (hlen : s.length = sum.length) (hneg : s.sum < 0) :
    (∃ out, finish o sqrt sum s P = Outcome.written out sum (e s)) ∧
      exitStatus (finish o sqrt sum s P) = some 0 := by
  have h := finish_written o sqrt sum s P hlen (ne_of_lt hneg)
  refine ⟨⟨_, h⟩, ?_⟩
  rw [h]
  rfl

theorem negative_sum_is_written_witness :
    ([1, -1, -1] : List ℚ).length = ([3, 4, 5] : List ℚ).length ∧
    ([1, -1, -1] : List ℚ).sum < 0 ∧
    (∃ out, finish ⟨true, true, 0⟩ (fun x => x) [3, 4, 5] [1, -1, -1]
        [[1, 0, 0], [0, 1, 0], [0, 0, 1]] =
      Outcome.written out [3, 4, 5] (e [1, -1, -1])) ∧
    exitStatus (finish ⟨true, true, 0⟩ (fun x => x) [3, 4, 5] [1, -1, -1]
      [[1, 0, 0], [0, 1, 0], [0, 0, 1]]) = some 0 :=
  ⟨by simp, by norm_num,
    negative_sum_is_written ⟨true, true, 0⟩ (fun x => x) [3, 4, 5] [1, -1, -1]
      [[1, 0, 0], [0, 1, 0], [0, 0, 1]] (by simp) (by norm_num)⟩

/-- For eigenvalues with positive sum, one per dimension, the matrix stored has
`full_dim` rows of exactly `e[99]` columns with `1 <= e[99] <= full_dim`, and
for every percentile `p` in `0..99` the entry `e[p]` is at most `e[99]`, so the
leading `e[p]` columns lie within the stored matrix. -/
theorem requests_below_top_in_range (o : Options) (sqrt : ℚ → ℚ) (sum s : List ℚ)
    (P : List (List ℚ)) (hlen : s.length = sum.length) (hpos : 0 < s.sum) :
    ∃ out, finish o sqrt sum s P = Outcome.written out sum (e s) ∧
      out.length = sum.length ∧ (∀ row ∈ out, row.length = (e s).getD 99 0) ∧
      1 ≤ (e s).getD 99 0 ∧ (e s).getD 99 0 ≤ sum.length ∧
      (∀ p, p ≤ 99 → (e s).getD p 0 ≤ (e s).getD 99 0 ∧
        (NnetPcaForward.SubMatrix out sum.length ((e s).getD p 0)).isSome = true) := by
  obtain ⟨hrows, hcols⟩ := pca_mat_shape o sqrt sum s P hlen
  obtain ⟨hk1, hk2⟩ := tableEntry_bounds s (ne_of_gt hpos) 99 (by norm_num)
  rw [← e_getD s 99 (by norm_num)] at hk1 hk2
  rw [hlen] at hk2
  obtain ⟨hsl, hsc⟩ := stored_shape (pca_mat o sqrt sum s P) sum.length ((e s).getD 99 0)
    hrows hcols hk2
  refine ⟨_, finish_written o sqrt sum s P hlen (ne_of_gt hpos), hsl, hsc, hk1, hk2, ?_⟩
  intro p hp
  have hle : (e s).getD p 0 ≤ (e s).getD 99 0 := by
    rw [e_getD s p (by omega), e_getD s 99 (by norm_num)]
    exact tableEntry_mono s hpos p 99 hp (by norm_num)
  refine ⟨hle, ?_⟩
  unfold NnetPcaForward.SubMatrix
  rw [if_pos ⟨le_of_eq hsl.symm, fun row hrow => by rw [hsc row hrow]; exact hle⟩]
  rfl

/-- C15 (divergence of the code from the claim): for eigenvalues with positive
sum, one per dimension, whose table has `e[100] > e[99]`, est-pca-mean-energy
stores a matrix of `e[99]` columns, so the `e[100]` columns that
nnet-pca-forward selects for percentile 100 (its default `energy`) are not
within the stored matrix: `SubMatrix` is out of range and the reconstruction of
every frame of the class fails. -/
theorem top_request_out_of_range (o : Options) (sqrt : ℚ → ℚ) (sum s : List ℚ)
    (P : List (List ℚ)) (hlen : s.length = sum.length) (hpos : 0 < s.sum)
    (htop : (e s).getD 99 0 < (e s).getD 100 0) :
    ∃ out, finish o sqrt sum s P = Outcome.written out sum (e s) ∧
      out.length = sum.length ∧ (∀ row ∈ out, row.length = (e s).getD 99 0) ∧
      NnetPcaForward.SubMatrix out sum.length ((e s).getD 100 0) = none ∧
      ∀ mean frame_data,
        NnetPcaForward.pcaReconstruct sum.length out mean (((e s).getD 100 0 : ℕ) : ℤ)
          frame_data = none := by
  obtain ⟨hrows, hcols⟩ := pca_mat_shape o sqrt sum s P hlen
  obtain ⟨_, hk2⟩ := tableEntry_bounds s (ne_of_gt hpos) 99 (by norm_num)
  rw [← e_getD s 99 (by norm_num), hlen] at hk2
  obtain ⟨hsl, hsc⟩ := stored_shape (pca_mat o sqrt sum s P) sum.length ((e s).getD 99 0)
    hrows hcols hk2
  have hsub : NnetPcaForward.SubMatrix
      (((pca_mat o sqrt sum s P).take sum.length).map
        (fun row => row.take ((e s).getD 99 0))) sum.length ((e s).getD 100 0) = none := by
    unfold NnetPcaForward.SubMatrix
    rw [if_neg]
    rintro ⟨_, hall⟩
    have hpos_len : 0 < (((pca_mat o sqrt sum s P).take sum.length).map
        (fun row => row.take ((e s).getD 99 0))).length := by
      rw [hsl, ← hlen]
      rcases s with _ | ⟨x, xs⟩
      · simp at hpos
      · simp
    obtain ⟨row, hrow⟩ := List.exists_mem_of_length_pos hpos_len
    have h1 := hall row hrow
    have h2 := hsc row hrow
    omega
  refine ⟨_, finish_written o sqrt sum s P hlen (ne_of_gt hpos), hsl, hsc, hsub, ?_⟩
  intro mean frame_data
  unfold NnetPcaForward.pcaReconstruct
  rw [if_neg (by omega), Int.toNat_ofNat, hsub]
  rfl

theorem top_request_out_of_range_witness :
    ([199 / 100, 1 / 50, -1 / 100] : List ℚ).length = ([0, 0, 0] : List ℚ).length ∧
    0 < ([199 / 100, 1 / 50, -1 / 100] : List ℚ).sum ∧
    (e [199 / 100, 1 / 50, -1 / 100]).getD 99 0 = 1 ∧
    (e [199 / 100, 1 / 50, -1 / 100]).getD 100 0 = 2 ∧
    finish ⟨false, false, -1⟩ (fun x => x) [0, 0, 0] [199 / 100, 1 / 50, -1 / 100]
        [[1, 0, 0], [0, 1, 0], [0, 0, 1]] =
      Outcome.written [[1], [0], [0]] [0, 0, 0] (e [199 / 100, 1 / 50, -1 / 100]) ∧
    NnetPcaForward.SubMatrix [[1], [0], [0]] 3 2 = none ∧
    ∃ out, finish ⟨false, false, -1⟩ (fun x => x) [0, 0, 0] [199 / 100, 1 / 50, -1 / 100]
        [[1, 0, 0], [0, 1, 0], [0, 0, 1]] =
        Outcome.written out [0, 0, 0] (e [199 / 100, 1 / 50, -1 / 100]) ∧
      out.length = ([0, 0, 0] : List ℚ).length ∧
      (∀ row ∈ out, row.length = (e [199 / 100, 1 / 50, -1 / 100]).getD 99 0) ∧
      NnetPcaForward.SubMatrix out ([0, 0, 0] : List ℚ).length
        ((e [199 / 100, 1 / 50, -1 / 100]).getD 100 0) = none ∧
      ∀ mean frame_data,
        NnetPcaForward.pcaReconstruct ([0, 0, 0] : List ℚ).length out mean
          (((e [199 / 100, 1 / 50, -1 / 100]).getD 100 0 : ℕ) : ℤ) frame_data = none := by
  have h99 : (e [199 / 100, 1 / 50, -1 / 100]).getD 99 0 = 1 := by
    rw [e_getD _ _ (by norm_num)]
    norm_num [tableEntry, energy, cumsum, cumsumFrom, firstAbove]
  have h100 : (e [199 / 100, 1 / 50, -1 / 100]).getD 100 0 = 2 := by
    rw [e_getD _ _ (by norm_num)]
    norm_num [tableEntry, energy, cumsum, cumsumFrom, firstAbove]
  refine ⟨by simp, by norm_num, h99, h100, ?_, by simp [NnetPcaForward.SubMatrix],
    top_request_out_of_range ⟨false, false, -1⟩ (fun x => x) [0, 0, 0]
      [199 / 100, 1 / 50, -1 / 100] [[1, 0, 0], [0, 1, 0], [0, 0, 1]] (by simp)
      (by norm_num) (by rw [h99, h100]; norm_num)⟩
  rw [finish_written _ _ _ _ _ (by simp) (by norm_num), h99]
  simp [pca_mat, Transpose, List.range_succ]

theorem zipWith_map_self {α β γ : Type} (f : α → β → γ) (g : α → β) (l : List α) :
    List.zipWith f l (l.map g) = l.map (fun a => f a (g a)) := by
  induction l with
  | nil => rfl
  | cons a l ih => simp [ih]

theorem colSums_nil (d : ℕ) : colSums d [] = List.replicate d 0 := by
  unfold colSums
  apply List.ext_getElem
  · simp
  · intro i h1 h2
    simp

theorem outerSums_nil (d : ℕ) : outerSums d [] = List.replicate d (List.replicate d 0) := by
  unfold outerSums
  apply List.ext_getElem
  · simp
  · intro i h1 h2
    simp only [List.getElem_map, List.getElem_replicate]
    apply List.ext_getElem
    · simp
    · intro k h3 h4
      simp

theorem colSums_length (d : ℕ) (xs : List (List ℚ)) : (colSums d xs).length = d := by
  simp [colSums]

/-- Adding the rows of `mat` to the column sums of `xs` gives the column sums of
`xs ++ mat`. -/
theorem AddRowSumMat_colSums (d : ℕ) (xs mat : List (List ℚ)) :
    AddRowSumMat 1 mat (colSums d xs) = colSums d (xs ++ mat) := by
  unfold AddRowSumMat
  rw [colSums_length]
  unfold colSums
  rw [zipWith_map_self]
  apply List.map_congr_left
  intro j _
  rw [List.map_append, List.sum_append, one_mul]

/-- Adding `mat^T * mat` to the outer-product sums of `xs` gives those of
`xs ++ mat`. -/
theorem AddMat2_outerSums (d : ℕ) (xs mat : List (List ℚ)) :
    AddMat2 1 mat (outerSums d xs) = outerSums d (xs ++ mat) := by
  unfold AddMat2
  have hl : (outerSums d xs).length = d := by simp [outerSums]
  rw [hl]
  unfold outerSums
  rw [zipWith_map_self]
  apply List.map_congr_left
  intro j _
  rw [List.length_map, List.length_range, zipWith_map_self]
  apply List.map_congr_left
  intro k _
  rw [List.map_append, List.sum_append, one_mul]

/-- Adding one vector of length `d` is adding the one-row matrix. -/
theorem AddVec_colSums (d : ℕ) (xs : List (List ℚ)) (vec : List ℚ) (hv : vec.length = d) :
    AddVec 1 vec (colSums d xs) = colSums d (xs ++ [vec]) := by
  unfold AddVec colSums
  apply List.ext_getElem
  · simp [hv]
  · intro i h1 h2
    have hi : i < vec.length := by
      simp at h1
      omega
    simp [List.getElem?_eq_getElem hi]

theorem AddVec2_outerSums (d : ℕ) (xs : List (List ℚ)) (vec : List ℚ)
    (hv : vec.length = d) :
    AddVec2 1 vec (outerSums d xs) = outerSums d (xs ++ [vec]) := by
  unfold AddVec2 outerSums
  apply List.ext_getElem
  · simp [hv]
  · intro j h1 h2
    have hj : j < vec.length := by
      simp at h1
      omega
    simp only [List.getElem_zipWith, List.getElem_map, List.getElem_range]
    apply List.ext_getElem
    · simp [hv]
    · intro k h3 h4
      have hk : k < vec.length := by
        simp at h3
        omega
      simp [List.getElem?_eq_getElem hj, List.getElem?_eq_getElem hk]

/-- One matrix, once the dimension `d` is settled: it is taken exactly when it
has a row and `d` columns. -/
theorem addMatrix_holds (d : ℕ) (hd : 0 < d) (xs : List (List ℚ)) (st : Stats)
    (h : HoldsSums d xs st) (mat : List (List ℚ)) :
    HoldsSums d (if mat.length ≠ 0 ∧ NumCols mat = d then xs ++ mat else xs)
      (addMatrix st mat) := by
  obtain ⟨hsum, hsq, hc⟩ := h
  have hlen : st.sum.length = d := by rw [hsum, colSums_length]
  have hne : ¬ st.sum.length = 0 := by omega
  unfold addMatrix
  by_cases hm : mat.length = 0
  · rw [if_neg (show ¬ (mat.length ≠ 0 ∧ NumCols mat = d) by simp [hm]), if_pos hm]
    exact ⟨hsum, hsq, hc⟩
  · rw [if_neg hm]
    simp only [if_neg hne]
    by_cases hw : NumCols mat = d
    · rw [if_pos (show mat.length ≠ 0 ∧ NumCols mat = d from ⟨hm, hw⟩),
        if_neg (show ¬ st.sum.length ≠ NumCols mat by rw [hlen, hw]; simp)]
      refine ⟨?_, ?_, ?_⟩
      · show AddRowSumMat 1 mat st.sum = _
        rw [hsum, AddRowSumMat_colSums]
      · show AddMat2 1 mat st.sumsq = _
        rw [hsq, AddMat2_outerSums]
      · show st.count + mat.length = _
        rw [hc, List.length_append]
    · rw [if_neg (show ¬ (mat.length ≠ 0 ∧ NumCols mat = d) by simp [hw]),
        if_pos (show st.sum.length ≠ NumCols mat by rw [hlen]; exact fun h => hw h.symm)]
      exact ⟨hsum, hsq, hc⟩

/-- One vector, once the dimension `d` is settled. -/
theorem addVector_holds (d : ℕ) (hd : 0 < d) (xs : List (List ℚ)) (st : Stats)
    (h : HoldsSums d xs st) (vec : List ℚ) :
    HoldsSums d (if vec.length ≠ 0 ∧ vec.length = d then xs ++ [vec] else xs)
      (addVector st vec) := by
  obtain ⟨hsum, hsq, hc⟩ := h
  have hlen : st.sum.length = d := by rw [hsum, colSums_length]
  have hne : ¬ st.sum.length = 0 := by omega
  unfold addVector
  by_cases hm : vec.length = 0
  · rw [if_neg (show ¬ (vec.length ≠ 0 ∧ vec.length = d) by simp [hm]), if_pos hm]
    exact ⟨hsum, hsq, hc⟩
  · rw [if_neg hm]
    simp only [if_neg hne]
    by_cases hw : vec.length = d
    · rw [if_pos (show vec.length ≠ 0 ∧ vec.length = d from ⟨hm, hw⟩),
        if_neg (show ¬ st.sum.length ≠ vec.length by rw [hlen, hw]; simp)]
      refine ⟨?_, ?_, ?_⟩
      · show AddVec 1 vec st.sum = _
        rw [hsum, AddVec_colSums d xs vec hw]
      · show AddVec2 1 vec st.sumsq = _
        rw [hsq, AddVec2_outerSums d xs vec hw]
      · show st.count + 1 = _
        rw [hc, List.length_append]
        rfl
    · rw [if_neg (show ¬ (vec.length ≠ 0 ∧ vec.length = d) by simp [hw]),
        if_pos (show st.sum.length ≠ vec.length by rw [hlen]; exact fun h => hw h.symm)]
      exact ⟨hsum, hsq, hc⟩

theorem foldl_addMatrix_holds (d : ℕ) (hd : 0 < d) (mats : List (List (List ℚ))) :
    ∀ (xs : List (List ℚ)) (st : Stats), HoldsSums d xs st →
      HoldsSums d
        (xs ++ (mats.filter (fun m => decide (m.length ≠ 0 ∧ NumCols m = d))).flatMap
          (fun m => m))
        (mats.foldl addMatrix st) := by
  induction mats with
  | nil => intro xs st h; simpa using h
  | cons m ms ih =>
    intro xs st h
    rw [List.foldl_cons]
    have h1 := ih _ _ (addMatrix_holds d hd xs st h m)
    by_cases hm : m.length ≠ 0 ∧ NumCols m = d
    · rw [if_pos hm] at h1
      rw [List.filter_cons_of_pos (by simpa using hm), List.flatMap_cons, ← List.append_assoc]
      exact h1
    · rw [if_neg hm] at h1
      rw [List.filter_cons_of_neg (by simpa using hm)]
      exact h1

theorem foldl_addVector_holds (d : ℕ) (hd : 0 < d) (vecs : List (List ℚ)) :
    ∀ (xs : List (List ℚ)) (st : Stats), HoldsSums d xs st →
      HoldsSums d
        (xs ++ vecs.filter (fun v => decide (v.length ≠ 0 ∧ v.length = d)))
        (vecs.foldl addVector st) := by
  induction vecs with
  | nil => intro xs st h; simpa using h
  | cons m ms ih =>
    intro xs st h
    rw [List.foldl_cons]
    have h1 := ih _ _ (addVector_holds d hd xs st h m)
    by_cases hm : m.length ≠ 0 ∧ m.length = d
    · rw [if_pos hm] at h1
      rw [List.filter_cons_of_pos (by simpa using hm)]
      simpa using h1
    · rw [if_neg hm] at h1
      rw [List.filter_cons_of_neg (by simpa using hm)]
      exact h1

/-- The pass over matrices from accumulators that are still empty: the first
matrix with a row settles the dimension. -/
theorem foldl_addMatrix_start (mats : List (List (List ℚ))) :
    ∀ st : Stats, st.sum = [] → st.count = 0 →
      0 < firstWidth (Input.features mats) →
      HoldsSums (firstWidth (Input.features mats)) (acceptedVectors (Input.features mats))
        (mats.foldl addMatrix st) ∧ acceptedVectors (Input.features mats) ≠ [] := by
  induction mats with
  | nil =>
    intro st _ _ hpos
    simp [firstWidth, NumCols] at hpos
  | cons m ms ih =>
    intro st hsum hc hpos
    rw [List.foldl_cons]
    by_cases hm : m.length = 0
    · have hfw : firstWidth (Input.features (m :: ms)) = firstWidth (Input.features ms) := by
        simp only [firstWidth]
        rw [List.find?_cons_of_neg ms (by rw [decide_eq_true_eq]; exact fun h => h hm)]
      have hacc : acceptedVectors (Input.features (m :: ms)) =
          acceptedVectors (Input.features ms) := by
        simp only [acceptedVectors]
        rw [hfw, List.filter_cons_of_neg
          (by rw [decide_eq_true_eq]; exact fun h => h.1 hm)]
      rw [hfw] at hpos ⊢
      rw [hacc]
      have hst : addMatrix st m = ⟨st.sum, st.sumsq, st.count, st.num_done, st.num_err + 1⟩ := by
        unfold addMatrix
        rw [if_pos hm]
      rw [hst]
      exact ih _ hsum hc hpos
    · have hfw : firstWidth (Input.features (m :: ms)) = NumCols m := by
        simp only [firstWidth]
        rw [List.find?_cons_of_pos ms (by rw [decide_eq_true_eq]; exact hm)]
        rfl
      rw [hfw] at hpos ⊢
      have hacc : acceptedVectors (Input.features (m :: ms)) =
          m ++ (ms.filter (fun m' => decide (m'.length ≠ 0 ∧ NumCols m' = NumCols m))).flatMap
            (fun m' => m') := by
        simp only [acceptedVectors]
        rw [hfw, List.filter_cons_of_pos (by rw [decide_eq_true_eq]; exact ⟨hm, rfl⟩),
          List.flatMap_cons]
      rw [hacc]
      refine ⟨?_, by
        intro h
        apply hm
        rw [(List.append_eq_nil.mp h).1]
        rfl⟩
      apply foldl_addMatrix_holds (NumCols m) hpos ms m
      have hz : st.sum.length = 0 := by rw [hsum]; rfl
      unfold addMatrix
      rw [if_neg hm]
      simp only [if_pos hz, List.length_replicate, ne_eq, not_true_eq_false, if_false]
      refine ⟨?_, ?_, ?_⟩
      · show AddRowSumMat 1 m (List.replicate (NumCols m) 0) = _
        rw [← colSums_nil, AddRowSumMat_colSums, List.nil_append]
      · show AddMat2 1 m (List.replicate (NumCols m) (List.replicate (NumCols m) 0)) = _
        rw [← outerSums_nil, AddMat2_outerSums, List.nil_append]
      · show st.count + m.length = _
        rw [hc]
        simp

/-- The pass over vectors from accumulators that are still empty. -/
theorem foldl_addVector_start (vecs : List (List ℚ)) :
    ∀ st : Stats, st.sum = [] → st.count = 0 →
      0 < firstWidth (Input.vectors vecs) →
      HoldsSums (firstWidth (Input.vectors vecs)) (acceptedVectors (Input.vectors vecs))
        (vecs.foldl addVector st) ∧ acceptedVectors (Input.vectors vecs) ≠ [] := by
  induction vecs with
  | nil =>
    intro st _ _ hpos
    simp [firstWidth] at hpos
  | cons m ms ih =>
    intro st hsum hc hpos
    rw [List.foldl_cons]
    by_cases hm : m.length = 0
    · have hfw : firstWidth (Input.vectors (m :: ms)) = firstWidth (Input.vectors ms) := by
        simp only [firstWidth]
        rw [List.find?_cons_of_neg ms (by rw [decide_eq_true_eq]; exact fun h => h hm)]
      have hacc : acceptedVectors (Input.vectors (m :: ms)) =
          acceptedVectors (Input.vectors ms) := by
        simp only [acceptedVectors]
        rw [hfw, List.filter_cons_of_neg
          (by rw [decide_eq_true_eq]; exact fun h => h.1 hm)]
      rw [hfw] at hpos ⊢
      rw [hacc]
      have hst : addVector st m = ⟨st.sum, st.sumsq, st.count, st.num_done, st.num_err + 1⟩ := by
        unfold addVector
        rw [if_pos hm]
      rw [hst]
      exact ih _ hsum hc hpos
    · have hfw : firstWidth (Input.vectors (m :: ms)) = m.length := by
        simp only [firstWidth]
        rw [List.find?_cons_of_pos ms (by rw [decide_eq_true_eq]; exact hm)]
        rfl
      rw [hfw] at hpos ⊢
      have hacc : acceptedVectors (Input.vectors (m :: ms)) =
          [m] ++ ms.filter (fun v => decide (v.length ≠ 0 ∧ v.length = m.length)) := by
        simp only [acceptedVectors]
        rw [hfw, List.filter_cons_of_pos (by rw [decide_eq_true_eq]; exact ⟨hm, rfl⟩)]
        rfl
      rw [hacc]
      refine ⟨?_, by simp⟩
      apply foldl_addVector_holds m.length hpos ms [m]
      have hz : st.sum.length = 0 := by rw [hsum]; rfl
      unfold addVector
      rw [if_neg hm]
      simp only [if_pos hz, List.length_replicate, ne_eq, not_true_eq_false, if_false]
      refine ⟨?_, ?_, ?_⟩
      · show AddVec 1 m (List.replicate m.length 0) = _
        rw [← colSums_nil, AddVec_colSums _ _ _ rfl, List.nil_append]
      · show AddVec2 1 m (List.replicate m.length (List.replicate m.length 0)) = _
        rw [← outerSums_nil, AddVec2_outerSums _ _ _ rfl, List.nil_append]
      · show st.count + 1 = _
        rw [hc]
        rfl

/-- At the end of the pass the accumulators hold the sums over the accepted
vectors. -/
theorem accumulate_holds (input : Input) (hpos : 0 < firstWidth input) :
    HoldsSums (firstWidth input) (acceptedVectors input) (accumulate input) ∧
      acceptedVectors input ≠ [] := by
  cases input with
  | features mats => exact foldl_addMatrix_start mats _ rfl rfl hpos
  | vectors vecs => exact foldl_addVector_start vecs _ rfl rfl hpos

/-- Scaling and centring accumulators that hold the sums over `xs`. -/
theorem finalizeStats_holds (d : ℕ) (xs : List (List ℚ)) (st : Stats)
    (h : HoldsSums d xs st) :
    finalizeStats st = (sampleMean d xs, sampleCovariance d xs) := by
  obtain ⟨hsum, hsq, hc⟩ := h
  have hmean : st.sum.map (fun x => x * (1 / (st.count : ℚ))) = sampleMean d xs := by
    rw [hsum, hc]
    unfold colSums sampleMean meanEntry
    rw [List.map_map]
    apply List.map_congr_left
    intro j _
    simp only [Function.comp]
    ring
  unfold finalizeStats
  dsimp only
  rw [hmean]
  congr 1
  rw [hsq, hc]
  unfold AddVec2 outerSums sampleCovariance sampleMean
  apply List.ext_getElem
  · simp
  · intro j h1 h2
    simp only [List.getElem_zipWith, List.getElem_map, List.getElem_range]
    apply List.ext_getElem
    · simp
    · intro k h3 h4
      simp only [List.getElem_zipWith, List.getElem_map, List.getElem_range]
      ring

/-- The mean that `finish` writes is the vector `sum` it is given. -/
theorem finish_written_mean (o : Options) (sqrt : ℚ → ℚ) (sum s : List ℚ)
    (P : List (List ℚ)) (out : List (List ℚ)) (mean : List ℚ) (bins : List ℕ)
    (h : finish o sqrt sum s P = Outcome.written out mean bins) : mean = sum := by
  unfold finish at h
  split_ifs at h
  split at h
  · simp at h
  · injection h with _ h2 _
    exact h2.symm

/-- C12: when the input holds an item of positive width (so that the sequence
`x_1..x_n` of accepted vectors, of that width `d`, is not empty): the pass
counts `n` frames; the mean, which is the vector written out, has the entries
`(1/n) * sum of x_i(j)`; the matrix handed to the eigendecomposition has the
entries `(1/n) * sum of x_i(j) x_i(k) - mean(j) mean(k)`; and the rest of the
run is computed from exactly these two. -/
theorem statistics_finalization (input : Input) (hpos : 0 < firstWidth input) :
    acceptedVectors input ≠ [] ∧
    (accumulate input).count = (acceptedVectors input).length ∧
    finalizeStats (accumulate input) =
      (sampleMean (firstWidth input) (acceptedVectors input),
        sampleCovariance (firstWidth input) (acceptedVectors input)) ∧
    ∀ (o : Options) (sqrt : ℚ → ℚ) (eig : List (List ℚ) → List ℚ × List (List ℚ)),
      (main o sqrt eig input =
        if (if o.dim ≤ 0 then (firstWidth input : ℤ) else o.dim) > (firstWidth input : ℤ) then
          Outcome.error Failure.finalDimension
        else
          finish o sqrt (sampleMean (firstWidth input) (acceptedVectors input))
            (eig (sampleCovariance (firstWidth input) (acceptedVectors input))).1
            (eig (sampleCovariance (firstWidth input) (acceptedVectors input))).2) ∧
      ∀ out mean bins, main o sqrt eig input = Outcome.written out mean bins →
        mean = sampleMean (firstWidth input) (acceptedVectors input) := by
  obtain ⟨hholds, hne⟩ := accumulate_holds input hpos
  have hfin := finalizeStats_holds _ _ _ hholds
  have hcount : (accumulate input).count = (acceptedVectors input).length := hholds.2.2
  have hdone : (accumulate input).num_done ≠ 0 := by
    intro h0
    have hc0 := (accumulate_count input).mp h0
    rw [hcount] at hc0
    exact hne (List.length_eq_zero.mp hc0)
  have hmain : ∀ (o : Options) (sqrt : ℚ → ℚ)
      (eig : List (List ℚ) → List ℚ × List (List ℚ)),
      main o sqrt eig input =
        if (if o.dim ≤ 0 then (firstWidth input : ℤ) else o.dim) > (firstWidth input : ℤ) then
          Outcome.error Failure.finalDimension
        else
          finish o sqrt (sampleMean (firstWidth input) (acceptedVectors input))
            (eig (sampleCovariance (firstWidth input) (acceptedVectors input))).1
            (eig (sampleCovariance (firstWidth input) (acceptedVectors input))).2 := by
    intro o sqrt eig
    unfold main
    rw [if_neg hdone, hfin]
    have hl : (sampleMean (firstWidth input) (acceptedVectors input)).length =
        firstWidth input := by simp [sampleMean]
    simp only [hl]
  refine ⟨hne, hcount, hfin, fun o sqrt eig => ⟨hmain o sqrt eig, ?_⟩⟩
  intro out mean bins hw
  rw [hmain] at hw
  split_ifs at hw <;> exact finish_written_mean _ _ _ _ _ _ _ _ hw

theorem statistics_finalization_witness :
    0 < firstWidth (Input.features [[], [[1, 2], [3, 4]], [[5]], [[5, 6]]]) ∧
    acceptedVectors (Input.features [[], [[1, 2], [3, 4]], [[5]], [[5, 6]]]) =
      [[1, 2], [3, 4], [5, 6]] ∧
    (accumulate (Input.features [[], [[1, 2], [3, 4]], [[5]], [[5, 6]]])).count = 3 ∧
    finalizeStats (accumulate (Input.features [[], [[1, 2], [3, 4]], [[5]], [[5, 6]]])) =
      ([3, 4], [[8 / 3, 8 / 3], [8 / 3, 8 / 3]]) := by
  have hw : firstWidth (Input.features [[], [[1, 2], [3, 4]], [[5]], [[5, 6]]]) = 2 := by
    decide
  have hacc : acceptedVectors (Input.features [[], [[1, 2], [3, 4]], [[5]], [[5, 6]]]) =
      [[1, 2], [3, 4], [5, 6]] := by
    simp [acceptedVectors, hw, NumCols]
  have h := statistics_finalization (Input.features [[], [[1, 2], [3, 4]], [[5]], [[5, 6]]])
    (by decide)
  refine ⟨by decide, hacc, ?_, ?_⟩
  · rw [h.2.1, hacc]
    rfl
  · rw [h.2.2.1, hw, hacc]
    norm_num [sampleMean, sampleCovariance, meanEntry, List.range_succ]

end EstPcaMeanEnergy

namespace PosteriorToPost

theorem eps_pos : 0 < eps := by
  unfold eps
  norm_num

/-- The reference queue meets the contract of the priority queue. -/
theorem heapPops_isPopOrder : IsPopOrder heapPops := by
  intro l
  refine ⟨List.perm_insertionSort _ l, ?_⟩
  have htot : IsTotal (ℚ × ℕ) (fun a b => b.1 ≤ a.1) := ⟨fun a b => le_total b.1 a.1⟩
  have htrans : IsTrans (ℚ × ℕ) (fun a b => b.1 ≤ a.1) :=
    ⟨fun a b c hab hbc => le_trans hbc hab⟩
  have hsorted := List.sorted_insertionSort (fun a b : ℚ × ℕ => b.1 ≤ a.1) l
  unfold heapPops
  refine List.Pairwise.imp ?_ hsorted
  intro a b hab
  unfold CompareByFirst
  exact not_lt.mpr hab

theorem pushAll_length (row : List ℚ) : ∀ c, (pushAll c row).length = row.length := by
  induction row with
  | nil => intro c; rfl
  | cons x xs ih => intro c; simp [pushAll, ih]

theorem pushAll_map_fst (row : List ℚ) : ∀ c, (pushAll c row).map Prod.fst = row := by
  induction row with
  | nil => intro c; rfl
  | cons x xs ih => intro c; simp [pushAll, ih]

/-- Every pushed pair carries the value of its own column. -/
theorem pushAll_mem (row : List ℚ) :
    ∀ c t, t ∈ pushAll c row → c ≤ t.2 ∧ row[t.2 - c]? = some t.1 := by
  induction row with
  | nil =>
    intro c t ht
    simp [pushAll] at ht
  | cons x xs ih =>
    intro c t ht
    simp only [pushAll, List.mem_cons] at ht
    rcases ht with rfl | ht
    · simp
    · obtain ⟨h1, h2⟩ := ih (c + 1) t ht
      refine ⟨by omega, ?_⟩
      have : t.2 - c = (t.2 - (c + 1)) + 1 := by omega
      rw [this, List.getElem?_cons_succ]
      exact h2

/-- Every popped pair carries the value of its own column. -/
theorem pops_mem (pq : List (ℚ × ℕ) → List (ℚ × ℕ)) (hpq : IsPopOrder pq)
    (row : List ℚ) (t : ℚ × ℕ) (ht : t ∈ pq (pushAll 0 row)) :
    row[t.2]? = some t.1 := by
  have hmem : t ∈ pushAll 0 row := ((hpq (pushAll 0 row)).1.mem_iff).mp ht
  have h := (pushAll_mem row 0 t hmem).2
  simpa using h

theorem pops_length (pq : List (ℚ × ℕ) → List (ℚ × ℕ)) (hpq : IsPopOrder pq)
    (row : List ℚ) : (pq (pushAll 0 row)).length = row.length := by
  rw [(hpq (pushAll 0 row)).1.length_eq, pushAll_length]

/-- Writing to a column the value it already holds changes nothing. -/
theorem set_same (frame : List ℚ) (i : ℕ) (v : ℚ) (h : frame[i]? = some v) :
    frame.set i v = frame := by
  apply List.ext_getElem?
  intro j
  rw [List.getElem?_set]
  by_cases hij : i = j
  · subst hij
    obtain ⟨hlt, _⟩ := List.getElem?_eq_some.mp h
    simp [hlt, h]
  · simp [hij]

/-- The loop of the topN branch writes back values that are already in place. -/
theorem topNLoop_same (frame : List ℚ) :
    ∀ (n : ℕ) (q : List (ℚ × ℕ)), n ≤ q.length →
      (∀ t ∈ q, frame[t.2]? = some t.1) → topNLoop n q frame = some frame := by
  intro n
  induction n with
  | zero =>
    intro q _ _
    cases q <;> rfl
  | succ n ih =>
    intro q hlen hq
    cases q with
    | nil => simp at hlen
    | cons t q =>
      simp only [topNLoop]
      rw [set_same frame t.2 t.1 (hq t (List.mem_cons_self _ _))]
      exact ih q (by simpa using hlen) (fun u hu => hq u (List.mem_cons_of_mem _ hu))

/-- With at most as many pops as columns the topN branch returns the row
unchanged. -/
theorem keepTopN_same (pq : List (ℚ × ℕ) → List (ℚ × ℕ)) (hpq : IsPopOrder pq)
    (K : ℤ) (row : List ℚ) (hK : K ≤ (row.length : ℤ)) :
    keepTopN pq K row = some row := by
  unfold keepTopN
  apply topNLoop_same
  · rw [pops_length pq hpq]
    omega
  · intro t ht
    exact pops_mem pq hpq row t ht

/-- C4 (divergence of the code from the claim): with the topN policy active
(`precision = 0`, `percentile = 0`, `topN = K` non-zero and at most the number
of columns) the truncation step returns every row unchanged.  The branch never
zeroes the row before writing the popped values back, so no class is removed,
whatever order the queue pops in. -/
theorem topN_policy_zeroes_nothing (pq : List (ℚ × ℕ) → List (ℚ × ℕ))
    (hpq : IsPopOrder pq) (o : Options) (hprec : o.precision = 0)
    (hperc : o.percentile = 0) (htop : o.topN ≠ 0) (row : List ℚ)
    (hK : o.topN ≤ (row.length : ℤ)) :
    truncateRow pq o row = some row := by
  unfold truncateRow
  simp only [hprec, hperc, htop, ne_eq, not_true_eq_false, not_false_eq_true, if_true,
    if_false]
  exact keepTopN_same pq hpq o.topN row hK

/-- Witness for `topN_policy_zeroes_nothing` at the matrix
`[[0.1, 0.2, 0.7], [0.5, 0.3, 0.2]]` with `topN = 1`: both rows survive
truncation whole, and the posteriors written have three entries per frame, with
weights `x / (1 + eps)`, where the claim expects the index sets `{2}` and `{0}`. -/
theorem topN_policy_zeroes_nothing_witness :
    truncateRow heapPops ⟨0, 0, 1, true⟩ [1 / 10, 1 / 5, 7 / 10]
      = some [1 / 10, 1 / 5, 7 / 10] ∧
    truncateRow heapPops ⟨0, 0, 1, true⟩ [1 / 2, 3 / 10, 1 / 5]
      = some [1 / 2, 3 / 10, 1 / 5] ∧
    processMatrix heapPops ⟨0, 0, 1, true⟩
        [[1 / 10, 1 / 5, 7 / 10], [1 / 2, 3 / 10, 1 / 5]]
      = some [[(0, 1 / 10 / (1 + eps)), (1, 1 / 5 / (1 + eps)), (2, 7 / 10 / (1 + eps))],
              [(0, 1 / 2 / (1 + eps)), (1, 3 / 10 / (1 + eps)), (2, 1 / 5 / (1 + eps))]] := by
  have h1 := topN_policy_zeroes_nothing heapPops heapPops_isPopOrder ⟨0, 0, 1, true⟩
    rfl rfl (by decide) [1 / 10, 1 / 5, 7 / 10] (by simp)
  have h2 := topN_policy_zeroes_nothing heapPops heapPops_isPopOrder ⟨0, 0, 1, true⟩
    rfl rfl (by decide) [1 / 2, 3 / 10, 1 / 5] (by simp)
  refine ⟨h1, h2, ?_⟩
  simp only [processMatrix, mapRows, processRow, h1, h2, if_true, Option.bind]
  norm_num [normalizeRow, emitFrom, eps]

/-- Columns written by the percentile loop: the `n` pairs popped first, where
`n` is the least count at which the running sum is no longer below the
threshold (all pairs when that never happens). -/
theorem percentileLoop_writes (maxprobsum : ℚ) (q : List (ℚ × ℕ)) :
    ∀ (probsum : ℚ) (frame : List ℚ), ∃ n, n ≤ q.length ∧
      percentileLoop maxprobsum q probsum frame
        = (q.take n).foldl (fun f t => f.set t.2 t.1) frame ∧
      (∀ m, m < n → probsum + ((q.take m).map Prod.fst).sum < maxprobsum) ∧
      (n < q.length → maxprobsum ≤ probsum + ((q.take n).map Prod.fst).sum) := by
  induction q with
  | nil =>
    intro probsum frame
    exact ⟨0, le_refl _, rfl, by intro m hm; omega, by intro h; simp at h⟩
  | cons t q ih =>
    intro probsum frame
    by_cases hlt : probsum < maxprobsum
    · obtain ⟨n, hn, heq, hbelow, hreach⟩ := ih (probsum + t.1) (frame.set t.2 t.1)
      refine ⟨n + 1, by simpa using hn, ?_, ?_, ?_⟩
      · simp only [percentileLoop, hlt, if_true, List.take_succ_cons, List.foldl_cons]
        exact heq
      · intro m hm
        rcases Nat.eq_zero_or_pos m with h0 | hpos
        · subst h0
          simpa using hlt
        · obtain ⟨k, rfl⟩ : ∃ k, m = k + 1 := ⟨m - 1, by omega⟩
          have := hbelow k (by omega)
          simpa [List.take_succ_cons, add_assoc] using this
      · intro hlen
        have := hreach (by simpa using hlen)
        simpa [List.take_succ_cons, add_assoc] using this
    · refine ⟨0, Nat.zero_le _, ?_, by intro m hm; omega, ?_⟩
      · simp [percentileLoop, hlt]
      · intro _
        simpa using not_lt.mp hlt

/-- Reading a column after a run of write-backs: a column named by one of the
pairs holds the value of `row` there, every other column is untouched. -/
theorem foldl_set_getElem? (row : List ℚ) (q : List (ℚ × ℕ))
    (hq : ∀ t ∈ q, row[t.2]? = some t.1) :
    ∀ (frame : List ℚ), frame.length = row.length → ∀ c,
      (q.foldl (fun f t => f.set t.2 t.1) frame)[c]?
        = if c ∈ q.map Prod.snd then row[c]? else frame[c]? := by
  induction q with
  | nil =>
    intro frame _ c
    simp
  | cons t q ih =>
    intro frame hlen c
    have hq' : ∀ u ∈ q, row[u.2]? = some u.1 :=
      fun u hu => hq u (List.mem_cons_of_mem _ hu)
    rw [List.foldl_cons, ih hq' (frame.set t.2 t.1) (by simpa using hlen) c]
    by_cases hc : c ∈ q.map Prod.snd
    · have : c ∈ (t :: q).map Prod.snd := by
        rw [List.map_cons]
        exact List.mem_cons_of_mem _ hc
      rw [if_pos hc, if_pos this]
    · rw [if_neg hc, List.getElem?_set]
      by_cases htc : t.2 = c
      · have hmem : c ∈ (t :: q).map Prod.snd := by
          rw [List.map_cons, ← htc]
          exact List.mem_cons_self _ _
        have hrow := hq t (List.mem_cons_self _ _)
        obtain ⟨hlt, _⟩ := List.getElem?_eq_some.mp hrow
        rw [if_pos htc, if_pos hmem, if_pos (by omega), ← htc, hrow]
      · have hmem : c ∉ (t :: q).map Prod.snd := by
          rw [List.map_cons, List.mem_cons]
          rintro (h | h)
          · exact htc h.symm
          · exact hc h
        rw [if_neg htc, if_neg hmem]

theorem foldl_set_length (q : List (ℚ × ℕ)) :
    ∀ (frame : List ℚ), (q.foldl (fun f t => f.set t.2 t.1) frame).length = frame.length := by
  induction q with
  | nil => intro frame; rfl
  | cons t q ih =>
    intro frame
    rw [List.foldl_cons, ih]
    simp

/-- Result of the percentile branch on one row, for any queue that meets the
contract: the first `n` popped classes keep their value, the others are zero,
and `n` is the least count whose popped mass reaches `percentile / 100`. -/
theorem keepPercentile_kept (pq : List (ℚ × ℕ) → List (ℚ × ℕ)) (hpq : IsPopOrder pq)
    (F : ℤ) (row : List ℚ) :
    ∃ n, n ≤ row.length ∧
      (keepPercentile pq F row).length = row.length ∧
      (∀ c, c < row.length → (keepPercentile pq F row).getD c 0 =
        if c ∈ ((pq (pushAll 0 row)).take n).map Prod.snd then row.getD c 0 else 0) ∧
      (∀ m, m < n → (((pq (pushAll 0 row)).take m).map Prod.fst).sum < (F : ℚ) / 100) ∧
      (n < row.length →
        (F : ℚ) / 100 ≤ (((pq (pushAll 0 row)).take n).map Prod.fst).sum) := by
  obtain ⟨n, hn, heq, hbelow, hreach⟩ :=
    percentileLoop_writes ((F : ℚ) / 100) (pq (pushAll 0 row)) 0
      (List.replicate row.length 0)
  rw [pops_length pq hpq] at hn hreach
  have hq : ∀ t ∈ (pq (pushAll 0 row)).take n, row[t.2]? = some t.1 :=
    fun t ht => pops_mem pq hpq row t (List.mem_of_mem_take ht)
  refine ⟨n, hn, ?_, ?_, ?_, ?_⟩
  · unfold keepPercentile
    rw [heq, foldl_set_length]
    simp
  · intro c hc
    unfold keepPercentile
    rw [heq, List.getD_eq_getElem?_getD,
      foldl_set_getElem? row _ hq _ (by simp) c, List.getD_eq_getElem?_getD]
    by_cases hmem : c ∈ ((pq (pushAll 0 row)).take n).map Prod.snd
    · rw [if_pos hmem, if_pos hmem]
    · rw [if_neg hmem, if_neg hmem, List.getElem?_replicate, if_pos hc]
      rfl
  · intro m hm
    simpa using hbelow m hm
  · intro hlt
    simpa using hreach hlt

/-- When the pushed values are strictly decreasing the pop order is forced:
every queue that meets the contract hands the pairs back as pushed. -/
theorem pops_of_strictly_descending (pq : List (ℚ × ℕ) → List (ℚ × ℕ))
    (hpq : IsPopOrder pq) (l : List (ℚ × ℕ))
    (hl : l.Pairwise (fun a b => b.1 < a.1)) : pq l = l := by
  have hperm := (hpq l).1
  have hsort := (hpq l).2
  have hnodup : (l.map Prod.fst).Nodup := by
    rw [List.Nodup, List.pairwise_map]
    exact hl.imp (fun h => (ne_of_lt h).symm)
  have hnodup' : ((pq l).map Prod.fst).Nodup := (hperm.map _).nodup_iff.mpr hnodup
  have hne : (pq l).Pairwise (fun a b => a.1 ≠ b.1) := List.pairwise_map.mp hnodup'
  have hstrict : (pq l).Pairwise (fun a b => b.1 < a.1) := by
    refine (hsort.and hne).imp ?_
    intro a b h
    exact lt_of_le_of_ne (not_lt.mp h.1) (Ne.symm h.2)
  haveI : IsAntisymm (ℚ × ℕ) (fun a b => b.1 < a.1) :=
    ⟨fun a b h1 h2 => absurd h1 (lt_asymm h2)⟩
  exact List.eq_of_perm_of_sorted hperm hstrict hl

/-- The frame `[0.5, 0.3, 0.2]` at percentile 70, for any queue that meets the
contract: classes 0 and 1 are kept and renormalised by `0.8 + eps`. -/
theorem processRow_percentile_example (pq : List (ℚ × ℕ) → List (ℚ × ℕ))
    (hpq : IsPopOrder pq) (K : ℤ) :
    processRow pq ⟨0, 70, K, true⟩ [1 / 2, 3 / 10, 1 / 5]
      = some [(0, 1 / 2 / (4 / 5 + eps)), (1, 3 / 10 / (4 / 5 + eps))] := by
  have hpops : pq (pushAll 0 [1 / 2, 3 / 10, 1 / 5])
      = [((1 / 2 : ℚ), 0), ((3 / 10 : ℚ), 1), ((1 / 5 : ℚ), 2)] := by
    have := pops_of_strictly_descending pq hpq
      [((1 / 2 : ℚ), 0), ((3 / 10 : ℚ), 1), ((1 / 5 : ℚ), 2)] (by norm_num)
    simpa [pushAll] using this
  have htrunc : truncateRow pq ⟨0, 70, K, true⟩ [1 / 2, 3 / 10, 1 / 5]
      = some [1 / 2, 3 / 10, 0] := by
    simp only [truncateRow, keepPercentile, hpops]
    norm_num [percentileLoop, List.replicate]
  simp only [processRow, htrunc, if_true, Option.bind]
  norm_num [normalizeRow, emitFrom, eps]

theorem pops_sum (pq : List (ℚ × ℕ) → List (ℚ × ℕ)) (hpq : IsPopOrder pq)
    (row : List ℚ) : ((pq (pushAll 0 row)).map Prod.fst).sum = row.sum := by
  rw [((hpq (pushAll 0 row)).1.map Prod.fst).sum_eq, pushAll_map_fst]

/-- C5: for a frame of non-negative entries and every percentile `F`, the
percentile branch keeps exactly the first `n` classes of a
descending-probability order of the frame (the pop order, a rearrangement of
the classes with non-increasing values) and zeroes every other class, where `n`
is the length of the shortest run of that order whose sum is at least `F / 100`,
and `n` is the number of classes when the frame total is below `F / 100`.  The
branch is the truncation that runs when `precision = 0` and `percentile = F` is
non-zero.  For the frame `[0.5, 0.3, 0.2]` and `F = 70` the emitted pairs are
class 0 with weight `0.5 / (0.8 + eps)` and class 1 with weight
`0.3 / (0.8 + eps)`, within `eps` of `0.625` and `0.375`. -/
theorem percentile_policy_keeps_shortest_run (pq : List (ℚ × ℕ) → List (ℚ × ℕ))
    (hpq : IsPopOrder pq) (F : ℤ) (row : List ℚ) (hnn : ∀ x ∈ row, 0 ≤ x) :
    (∃ n, n ≤ row.length ∧ (keepPercentile pq F row).length = row.length ∧
      (pq (pushAll 0 row)).Perm (pushAll 0 row) ∧
      (pq (pushAll 0 row)).Pairwise (fun a b => b.1 ≤ a.1) ∧
      (∀ c, c < row.length → (keepPercentile pq F row).getD c 0 =
        if c ∈ ((pq (pushAll 0 row)).take n).map Prod.snd then row.getD c 0 else 0) ∧
      (∀ m, m < n →
        (((pq (pushAll 0 row)).take m).map Prod.fst).sum < (F : ℚ) / 100) ∧
      (n < row.length →
        (F : ℚ) / 100 ≤ (((pq (pushAll 0 row)).take n).map Prod.fst).sum) ∧
      (row.sum < (F : ℚ) / 100 → n = row.length)) ∧
    (∀ o : Options, o.precision = 0 → o.percentile = F → F ≠ 0 →
      truncateRow pq o row = some (keepPercentile pq F row)) ∧
    (∀ K : ℤ, processRow pq ⟨0, 70, K, true⟩ [1 / 2, 3 / 10, 1 / 5]
        = some [(0, 1 / 2 / (4 / 5 + eps)), (1, 3 / 10 / (4 / 5 + eps))]) ∧
    |1 / 2 / (4 / 5 + eps) - 5 / 8| ≤ eps ∧ |3 / 10 / (4 / 5 + eps) - 3 / 8| ≤ eps := by
  refine ⟨?_, ?_, ?_, ?_, ?_⟩
  · obtain ⟨n, hn, hlen, hkept, hbelow, hreach⟩ := keepPercentile_kept pq hpq F row
    refine ⟨n, hn, hlen, (hpq _).1, ?_, hkept, hbelow, hreach, ?_⟩
    · refine ((hpq (pushAll 0 row)).2).imp ?_
      intro a b hab
      exact not_lt.mp hab
    · intro htotal
      by_contra hne
      have hlt : n < row.length := lt_of_le_of_ne hn hne
      have h1 := hreach hlt
      have hnn' : ∀ x ∈ (pq (pushAll 0 row)).map Prod.fst, 0 ≤ x := by
        intro x hx
        have hx' : x ∈ (pushAll 0 row).map Prod.fst :=
          (((hpq (pushAll 0 row)).1.map Prod.fst).mem_iff).mp hx
        rw [pushAll_map_fst] at hx'
        exact hnn x hx'
      have h2 := EstPcaMeanEnergy.sum_take_le_sum _ hnn' n
      rw [← List.map_take, pops_sum pq hpq] at h2
      linarith
  · intro o hprec hperc hF
    have hperc' : o.percentile ≠ 0 := by rw [hperc]; exact hF
    unfold truncateRow
    rw [if_neg (by simp [hprec]), if_pos hperc', hperc]
  · intro K
    exact processRow_percentile_example pq hpq K
  · rw [abs_le]
    constructor <;> norm_num [eps]
  · rw [abs_le]
    constructor <;> norm_num [eps]

/-- Witness for `percentile_policy_keeps_shortest_run` with the reference queue,
percentile 70 and the frame `[0.5, 0.3, 0.2]`: classes 0 and 1 are kept. -/
theorem percentile_policy_keeps_shortest_run_witness :
    IsPopOrder heapPops ∧
    (∀ x ∈ ([1 / 2, 3 / 10, 1 / 5] : List ℚ), 0 ≤ x) ∧
    (∃ n, n ≤ 3 ∧
      (∀ c, c < 3 → (keepPercentile heapPops 70 [1 / 2, 3 / 10, 1 / 5]).getD c 0 =
        if c ∈ ((heapPops (pushAll 0 [1 / 2, 3 / 10, 1 / 5])).take n).map Prod.snd
        then ([1 / 2, 3 / 10, 1 / 5] : List ℚ).getD c 0 else 0) ∧
      (n < 3 → (70 : ℚ) / 100 ≤
        (((heapPops (pushAll 0 [1 / 2, 3 / 10, 1 / 5])).take n).map Prod.fst).sum)) ∧
    truncateRow heapPops ⟨0, 70, 0, true⟩ [1 / 2, 3 / 10, 1 / 5]
      = some (keepPercentile heapPops 70 [1 / 2, 3 / 10, 1 / 5]) ∧
    processRow heapPops ⟨0, 70, 0, true⟩ [1 / 2, 3 / 10, 1 / 5]
      = some [(0, 1 / 2 / (4 / 5 + eps)), (1, 3 / 10 / (4 / 5 + eps))] := by
  have hnn : ∀ x ∈ ([1 / 2, 3 / 10, 1 / 5] : List ℚ), 0 ≤ x := by
    intro x hx
    simp only [List.mem_cons, List.mem_singleton, List.not_mem_nil, or_false] at hx
    rcases hx with rfl | rfl | rfl <;> norm_num
  have h := percentile_policy_keeps_shortest_run heapPops heapPops_isPopOrder 70
    [1 / 2, 3 / 10, 1 / 5] hnn
  obtain ⟨⟨n, hn, _, _, _, hkept, _, hreach, _⟩, htrunc, hex, _, _⟩ := h
  refine ⟨heapPops_isPopOrder, hnn, ⟨n, hn, hkept, ?_⟩,
    htrunc ⟨0, 70, 0, true⟩ rfl rfl (by decide), hex 0⟩
  intro hlt
  have := hreach hlt
  simpa using this

theorem roundf_nonneg (x : ℚ) (hx : 0 ≤ x) : 0 ≤ roundf x := by
  unfold roundf
  rw [if_pos hx]
  have : (0 : ℤ) ≤ ⌊x + 1 / 2⌋ := Int.floor_nonneg.mpr (by linarith)
  exact_mod_cast this

theorem roundRow_nonneg (precision : ℤ) (row : List ℚ) (hnn : ∀ x ∈ row, 0 ≤ x) :
    ∀ x ∈ roundRow precision row, 0 ≤ x := by
  intro x hx
  unfold roundRow at hx
  obtain ⟨y, hy, rfl⟩ := List.mem_map.mp hx
  have hd : (0 : ℚ) < 10 ^ precision := zpow_pos (by norm_num) precision
  exact div_nonneg (roundf_nonneg _ (mul_nonneg (hnn y hy) (le_of_lt hd))) (le_of_lt hd)

theorem keepPercentile_nonneg (pq : List (ℚ × ℕ) → List (ℚ × ℕ)) (hpq : IsPopOrder pq)
    (F : ℤ) (row : List ℚ) (hnn : ∀ x ∈ row, 0 ≤ x) :
    ∀ x ∈ keepPercentile pq F row, 0 ≤ x := by
  obtain ⟨n, _, hlen, hkept, _, _⟩ := keepPercentile_kept pq hpq F row
  intro x hx
  obtain ⟨c, hc, rfl⟩ := List.getElem_of_mem hx
  have hc' : c < row.length := by omega
  have h := hkept c hc'
  rw [List.getD_eq_getElem?_getD, List.getElem?_eq_getElem hc] at h
  simp only [Option.getD_some] at h
  rw [h]
  split
  · rw [List.getD_eq_getElem?_getD, List.getElem?_eq_getElem hc']
    exact hnn _ (List.getElem_mem _)
  · exact le_refl 0

/-- Whenever the loop of the topN branch returns, it returns the row it was
given. -/
theorem topNLoop_some (frame : List ℚ) :
    ∀ (n : ℕ) (q : List (ℚ × ℕ)) (t : List ℚ),
      (∀ u ∈ q, frame[u.2]? = some u.1) → topNLoop n q frame = some t → t = frame := by
  intro n
  induction n with
  | zero =>
    intro q t _ h
    cases q <;> simpa [topNLoop] using h.symm
  | succ n ih =>
    intro q t hq h
    cases q with
    | nil => simp [topNLoop] at h
    | cons u q =>
      simp only [topNLoop] at h
      rw [set_same frame u.2 u.1 (hq u (List.mem_cons_self _ _))] at h
      exact ih q t (fun v hv => hq v (List.mem_cons_of_mem _ hv)) h

theorem keepTopN_some (pq : List (ℚ × ℕ) → List (ℚ × ℕ)) (hpq : IsPopOrder pq)
    (K : ℤ) (row t : List ℚ) (h : keepTopN pq K row = some t) : t = row :=
  topNLoop_some row _ _ t (fun u hu => pops_mem pq hpq row u hu) h

/-- Truncation keeps a non-negative row non-negative, under every policy. -/
theorem truncateRow_nonneg (pq : List (ℚ × ℕ) → List (ℚ × ℕ)) (hpq : IsPopOrder pq)
    (o : Options) (row t : List ℚ) (hnn : ∀ x ∈ row, 0 ≤ x)
    (h : truncateRow pq o row = some t) : ∀ x ∈ t, 0 ≤ x := by
  unfold truncateRow at h
  split at h
  · rw [← Option.some.inj h]
    exact roundRow_nonneg _ row hnn
  · split at h
    · rw [← Option.some.inj h]
      exact keepPercentile_nonneg pq hpq _ row hnn
    · split at h
      · rw [keepTopN_some pq hpq _ row t h]
        exact hnn
      · rw [← Option.some.inj h]
        exact hnn

/-- Emission drops only zeros: the emitted weights are positive and add up to
the sum of the validated row. -/
theorem emitFrom_sum (l : List ℚ) :
    ∀ (c : ℕ) (post : List (ℕ × ℚ)), emitFrom c l = some post →
      (post.map Prod.snd).sum = l.sum ∧ (∀ p ∈ post, 0 < p.2) ∧
      (∀ x ∈ l, 0 ≤ x ∧ x ≤ 1) := by
  induction l with
  | nil =>
    intro c post h
    simp only [emitFrom, Option.some.injEq] at h
    subst h
    simp
  | cons v rest ih =>
    intro c post h
    simp only [emitFrom] at h
    split at h
    · exact absurd h (by simp)
    · rename_i hrange
      rw [not_or, not_lt, not_lt] at hrange
      obtain ⟨post', hpost', hmap⟩ := Option.map_eq_some'.mp h
      obtain ⟨hsum, hpos, hbounds⟩ := ih (c + 1) post' hpost'
      have hall : ∀ x ∈ v :: rest, 0 ≤ x ∧ x ≤ 1 := by
        intro x hx
        rcases List.mem_cons.mp hx with rfl | hx
        · exact hrange
        · exact hbounds x hx
      by_cases hv : v > 0
      · rw [if_pos hv] at hmap
        subst hmap
        refine ⟨by simp [hsum], ?_, hall⟩
        intro p hp
        rcases List.mem_cons.mp hp with rfl | hp
        · exact hv
        · exact hpos p hp
      · rw [if_neg hv] at hmap
        subst hmap
        have hv0 : v = 0 := le_antisymm (not_lt.mp hv) hrange.1
        refine ⟨by simp [hsum, hv0], hpos, hall⟩

theorem normalizeRow_sum (t nrm : List ℚ) (h : normalizeRow t = some nrm) :
    t.sum + eps ≠ 0 ∧ nrm = t.map (fun x => x * (t.sum + eps)⁻¹) ∧
      nrm.sum = t.sum / (t.sum + eps) := by
  unfold normalizeRow at h
  split at h
  · exact absurd h (by simp)
  · rename_i hne
    have hn := (Option.some.inj h).symm
    refine ⟨hne, hn, ?_⟩
    rw [hn, List.sum_map_mul_right, div_eq_mul_inv]
    simp

/-- The stages a row passed through when `processRow` returned with `roundOff`
set. -/
theorem processRow_stages (pq : List (ℚ × ℕ) → List (ℚ × ℕ)) (o : Options)
    (ho : o.roundOff = true) (row : List ℚ) (post : List (ℕ × ℚ))
    (h : processRow pq o row = some post) :
    ∃ t nrm, truncateRow pq o row = some t ∧ normalizeRow t = some nrm ∧
      emitFrom 0 nrm = some post := by
  unfold processRow at h
  rw [if_pos ho] at h
  obtain ⟨t, ht, h⟩ := Option.bind_eq_some.mp h
  obtain ⟨nrm, hnrm, h⟩ := Option.bind_eq_some.mp h
  exact ⟨t, nrm, ht, hnrm, h⟩

/-- C6 (counterexample): with the default options (`precision = 2`) the frame
`[0.334, 0.333, 0.333]` rounds to `[0.33, 0.33, 0.33]`, and the three emitted
weights `0.33 / (0.99 + eps)` add up to `0.99 / (0.99 + eps)`, which is further
than `eps` from 1. -/
theorem emitted_mass_off_by_more_than_eps :
    processRow heapPops ⟨2, 0, 0, true⟩ [167 / 500, 333 / 1000, 333 / 1000]
      = some [(0, 33 / 100 / (99 / 100 + eps)), (1, 33 / 100 / (99 / 100 + eps)),
              (2, 33 / 100 / (99 / 100 + eps))] ∧
    eps < |(([(0, 33 / 100 / (99 / 100 + eps)), (1, 33 / 100 / (99 / 100 + eps)),
              (2, 33 / 100 / (99 / 100 + eps))] : List (ℕ × ℚ)).map Prod.snd).sum - 1| := by
  constructor
  · have htrunc : truncateRow heapPops ⟨2, 0, 0, true⟩ [167 / 500, 333 / 1000, 333 / 1000]
        = some [33 / 100, 33 / 100, 33 / 100] := by
      norm_num [truncateRow, roundRow, roundf]
    simp only [processRow, htrunc, if_true, Option.bind]
    norm_num [normalizeRow, emitFrom, eps]
  · rw [lt_abs]
    right
    norm_num [eps]

/-- C6 (amended): for a frame of non-negative entries and every truncating
policy (`roundOff` on), if the emitted sparse posterior is non-empty then the
sum `S` of the truncated frame is positive, the emitted weights add up to
`S / (S + eps)`, and their distance to 1 is exactly `eps / (S + eps)`; that
distance is at most `eps` exactly when `S ≥ 1 - eps`. -/
theorem emitted_mass_eq (pq : List (ℚ × ℕ) → List (ℚ × ℕ)) (hpq : IsPopOrder pq)
    (o : Options) (ho : o.roundOff = true) (row : List ℚ) (hnn : ∀ x ∈ row, 0 ≤ x)
    (post : List (ℕ × ℚ)) (h : processRow pq o row = some post) (hne : post ≠ []) :
    ∃ t, truncateRow pq o row = some t ∧ 0 < t.sum ∧
      (post.map Prod.snd).sum = t.sum / (t.sum + eps) ∧
      |(post.map Prod.snd).sum - 1| = eps / (t.sum + eps) ∧
      (|(post.map Prod.snd).sum - 1| ≤ eps ↔ 1 - eps ≤ t.sum) := by
  obtain ⟨t, nrm, ht, hnrm, hemit⟩ := processRow_stages pq o ho row post h
  obtain ⟨_, _, hnsum⟩ := normalizeRow_sum t nrm hnrm
  obtain ⟨hpsum, hppos, _⟩ := emitFrom_sum nrm 0 post hemit
  have ht0 : 0 ≤ t.sum := List.sum_nonneg (truncateRow_nonneg pq hpq o row t hnn ht)
  have hden : 0 < t.sum + eps := by linarith [eps_pos]
  have hpost_pos : 0 < (post.map Prod.snd).sum := by
    apply List.sum_pos
    · intro x hx
      obtain ⟨p, hp, rfl⟩ := List.mem_map.mp hx
      exact hppos p hp
    · simpa using hne
  have hS : 0 < t.sum := by
    rw [hpsum, hnsum] at hpost_pos
    rcases lt_or_eq_of_le ht0 with hlt | heq
    · exact hlt
    · rw [← heq] at hpost_pos
      simp at hpost_pos
  have hdist : |(post.map Prod.snd).sum - 1| = eps / (t.sum + eps) := by
    rw [hpsum, hnsum]
    have : t.sum / (t.sum + eps) - 1 = -(eps / (t.sum + eps)) := by
      field_simp
    rw [this, abs_neg, abs_of_pos (div_pos eps_pos hden)]
  refine ⟨t, ht, hS, by rw [hpsum, hnsum], hdist, ?_⟩
  rw [hdist, div_le_iff₀ hden]
  constructor
  · intro hle
    have := eps_pos
    nlinarith
  · intro hle
    have := eps_pos
    nlinarith

/-- Witness for `emitted_mass_eq` with the reference queue, the default options
and the frame `[0.334, 0.333, 0.333]`. -/
theorem emitted_mass_eq_witness :
    IsPopOrder heapPops ∧
    (∀ x ∈ ([167 / 500, 333 / 1000, 333 / 1000] : List ℚ), 0 ≤ x) ∧
    processRow heapPops ⟨2, 0, 0, true⟩ [167 / 500, 333 / 1000, 333 / 1000]
      = some [(0, 33 / 100 / (99 / 100 + eps)), (1, 33 / 100 / (99 / 100 + eps)),
              (2, 33 / 100 / (99 / 100 + eps))] ∧
    ∃ t, truncateRow heapPops ⟨2, 0, 0, true⟩ [167 / 500, 333 / 1000, 333 / 1000] = some t ∧
      0 < t.sum ∧
      (([(0, 33 / 100 / (99 / 100 + eps)), (1, 33 / 100 / (99 / 100 + eps)),
          (2, 33 / 100 / (99 / 100 + eps))] : List (ℕ × ℚ)).map Prod.snd).sum
        = t.sum / (t.sum + eps) := by
  have hnn : ∀ x ∈ ([167 / 500, 333 / 1000, 333 / 1000] : List ℚ), 0 ≤ x := by
    intro x hx
    simp only [List.mem_cons, List.mem_singleton, List.not_mem_nil, or_false] at hx
    rcases hx with rfl | rfl | rfl <;> norm_num
  have hrun : processRow heapPops ⟨2, 0, 0, true⟩ [167 / 500, 333 / 1000, 333 / 1000]
      = some [(0, 33 / 100 / (99 / 100 + eps)), (1, 33 / 100 / (99 / 100 + eps)),
              (2, 33 / 100 / (99 / 100 + eps))] := by
    have htrunc : truncateRow heapPops ⟨2, 0, 0, true⟩ [167 / 500, 333 / 1000, 333 / 1000]
        = some [33 / 100, 33 / 100, 33 / 100] := by
      norm_num [truncateRow, roundRow, roundf]
    simp only [processRow, htrunc, if_true, Option.bind]
    norm_num [normalizeRow, emitFrom, eps]
  obtain ⟨t, ht, hpos, hsum, _, _⟩ :=
    emitted_mass_eq heapPops heapPops_isPopOrder ⟨2, 0, 0, true⟩ rfl _ hnn _ hrun (by simp)
  exact ⟨heapPops_isPopOrder, hnn, hrun, t, ht, hpos, hsum⟩

/-- Which pairs are emitted: the strictly positive entries, each with its
column. -/
theorem emitFrom_mem (l : List ℚ) :
    ∀ (c : ℕ) (post : List (ℕ × ℚ)), emitFrom c l = some post →
      ∀ p, p ∈ post ↔ (c ≤ p.1 ∧ l[p.1 - c]? = some p.2 ∧ 0 < p.2) := by
  induction l with
  | nil =>
    intro c post h p
    simp only [emitFrom, Option.some.injEq] at h
    subst h
    simp
  | cons v rest ih =>
    intro c post h p
    simp only [emitFrom] at h
    split at h
    · exact absurd h (by simp)
    · obtain ⟨post', hpost', hmap⟩ := Option.map_eq_some'.mp h
      have ih' := ih (c + 1) post' hpost' p
      have htail : (c + 1 ≤ p.1 ∧ rest[p.1 - (c + 1)]? = some p.2 ∧ 0 < p.2) ↔
          (c < p.1 ∧ (v :: rest)[p.1 - c]? = some p.2 ∧ 0 < p.2) := by
        constructor
        · rintro ⟨h1, h2, h3⟩
          refine ⟨h1, ?_, h3⟩
          have : p.1 - c = (p.1 - (c + 1)) + 1 := by omega
          rw [this, List.getElem?_cons_succ]
          exact h2
        · rintro ⟨h1, h2, h3⟩
          refine ⟨h1, ?_, h3⟩
          have : p.1 - c = (p.1 - (c + 1)) + 1 := by omega
          rw [this, List.getElem?_cons_succ] at h2
          exact h2
      have hhead : (p.1 = c ∧ (v :: rest)[p.1 - c]? = some p.2 ∧ 0 < p.2) ↔
          (p = (c, v) ∧ 0 < v) := by
        constructor
        · rintro ⟨h1, h2, h3⟩
          rw [h1] at h2
          simp only [Nat.sub_self, List.getElem?_cons_zero, Option.some.injEq] at h2
          exact ⟨Prod.ext h1 h2.symm, by rw [h2]; exact h3⟩
        · rintro ⟨h1, h2⟩
          subst h1
          simp [h2]
      have hsplit : (c ≤ p.1 ∧ (v :: rest)[p.1 - c]? = some p.2 ∧ 0 < p.2) ↔
          ((p = (c, v) ∧ 0 < v) ∨ p ∈ post') := by
        rw [ih', htail, ← hhead]
        constructor
        · rintro ⟨h1, h2⟩
          rcases Nat.eq_or_lt_of_le h1 with heq | hlt
          · exact Or.inl ⟨heq.symm, h2⟩
          · exact Or.inr ⟨hlt, h2⟩
        · rintro (⟨h1, h2⟩ | ⟨h1, h2⟩)
          · exact ⟨by omega, h2⟩
          · exact ⟨by omega, h2⟩
      rw [hsplit]
      by_cases hv : v > 0
      · rw [if_pos hv] at hmap
        subst hmap
        rw [List.mem_cons]
        constructor
        · rintro (h1 | h1)
          · exact Or.inl ⟨h1, hv⟩
          · exact Or.inr h1
        · rintro (⟨h1, _⟩ | h1)
          · exact Or.inl h1
          · exact Or.inr h1
      · rw [if_neg hv] at hmap
        subst hmap
        constructor
        · exact fun h1 => Or.inr h1
        · rintro (⟨_, h2⟩ | h1)
          · exact absurd h2 hv
          · exact h1

/-- A row whose entries all lie in `[0, 1]` passes validation. -/
theorem emitFrom_isSome (l : List ℚ) (hl : ∀ x ∈ l, 0 ≤ x ∧ x ≤ 1) :
    ∀ c, ∃ post, emitFrom c l = some post := by
  induction l with
  | nil => intro c; exact ⟨[], rfl⟩
  | cons v rest ih =>
    intro c
    obtain ⟨post', hpost'⟩ := ih (fun x hx => hl x (List.mem_cons_of_mem _ hx)) (c + 1)
    have hv := hl v (List.mem_cons_self _ _)
    have hrange : ¬ (v < 0 ∨ v > 1) := by
      rw [not_or, not_lt, not_lt]
      exact hv
    simp only [emitFrom, if_neg hrange, hpost', Option.map_some']
    exact ⟨_, rfl⟩

/-- Emission commutes with multiplying the row by a positive factor that keeps
it within `[0, 1]`. -/
theorem emitFrom_scale (k : ℚ) (hk : 0 < k) (l : List ℚ) :
    ∀ (c : ℕ) (post : List (ℕ × ℚ)), emitFrom c l = some post →
      (∀ x ∈ l, x * k ≤ 1) →
      emitFrom c (l.map (fun x => x * k)) = some (post.map (fun p => (p.1, p.2 * k))) := by
  induction l with
  | nil =>
    intro c post h _
    simp only [emitFrom, Option.some.injEq] at h
    subst h
    rfl
  | cons v rest ih =>
    intro c post h hle
    simp only [emitFrom] at h
    split at h
    · exact absurd h (by simp)
    · rename_i hrange
      rw [not_or, not_lt, not_lt] at hrange
      obtain ⟨post', hpost', hmap⟩ := Option.map_eq_some'.mp h
      have ih' := ih (c + 1) post' hpost' (fun x hx => hle x (List.mem_cons_of_mem _ hx))
      have hvk := hle v (List.mem_cons_self _ _)
      have hrange' : ¬ (v * k < 0 ∨ v * k > 1) := by
        rw [not_or, not_lt, not_lt]
        exact ⟨mul_nonneg hrange.1 (le_of_lt hk), hvk⟩
      simp only [List.map_cons, emitFrom, if_neg hrange', ih', Option.map_some']
      by_cases hv : v > 0
      · have hv' : v * k > 0 := mul_pos hv hk
        rw [if_pos hv] at hmap
        subst hmap
        rw [if_pos hv']
        rfl
      · have hv' : ¬ v * k > 0 := by
          have hv0 : v = 0 := le_antisymm (not_lt.mp hv) hrange.1
          rw [hv0]
          simp
        rw [if_neg hv] at hmap
        subst hmap
        rw [if_neg hv']

/-- Reading a column after the write-backs of `densify`. -/
theorem foldl_set_post (row : List ℚ) (post : List (ℕ × ℚ))
    (hq : ∀ p ∈ post, row[p.1]? = some p.2) :
    ∀ (frame : List ℚ), frame.length = row.length → ∀ c,
      (post.foldl (fun f p => f.set p.1 p.2) frame)[c]?
        = if c ∈ post.map Prod.fst then row[c]? else frame[c]? := by
  induction post with
  | nil =>
    intro frame _ c
    simp
  | cons t q ih =>
    intro frame hlen c
    have hq' : ∀ u ∈ q, row[u.1]? = some u.2 :=
      fun u hu => hq u (List.mem_cons_of_mem _ hu)
    rw [List.foldl_cons, ih hq' (frame.set t.1 t.2) (by simpa using hlen) c]
    by_cases hc : c ∈ q.map Prod.fst
    · have : c ∈ (t :: q).map Prod.fst := by
        rw [List.map_cons]
        exact List.mem_cons_of_mem _ hc
      rw [if_pos hc, if_pos this]
    · rw [if_neg hc, List.getElem?_set]
      by_cases htc : t.1 = c
      · have hmem : c ∈ (t :: q).map Prod.fst := by
          rw [List.map_cons, ← htc]
          exact List.mem_cons_self _ _
        have hrow := hq t (List.mem_cons_self _ _)
        obtain ⟨hlt, _⟩ := List.getElem?_eq_some.mp hrow
        rw [if_pos htc, if_pos hmem, if_pos (by omega), ← htc, hrow]
      · have hmem : c ∉ (t :: q).map Prod.fst := by
          rw [List.map_cons, List.mem_cons]
          rintro (h | h)
          · exact htc h.symm
          · exact hc h
        rw [if_neg htc, if_neg hmem]

/-- Reading the emitted posterior back into a dense row gives the validated
row again. -/
theorem densify_emit (l : List ℚ) (post : List (ℕ × ℚ)) (h : emitFrom 0 l = some post) :
    densify l.length post = l := by
  have hmem := emitFrom_mem l 0 post h
  have hbounds := (emitFrom_sum l 0 post h).2.2
  have hq : ∀ p ∈ post, l[p.1]? = some p.2 := by
    intro p hp
    have := ((hmem p).mp hp).2.1
    simpa using this
  apply List.ext_getElem?
  intro c
  unfold densify
  rw [foldl_set_post l post hq _ (by simp) c]
  by_cases hc : c ∈ post.map Prod.fst
  · rw [if_pos hc]
  · rw [if_neg hc, List.getElem?_replicate]
    by_cases hlt : c < l.length
    · rw [if_pos hlt, List.getElem?_eq_getElem hlt]
      congr 1
      have hnot : ¬ 0 < l[c] := by
        intro hpos
        apply hc
        have : (c, l[c]) ∈ post := by
          rw [hmem]
          refine ⟨Nat.zero_le _, ?_, hpos⟩
          simp [List.getElem?_eq_getElem hlt]
        exact List.mem_map.mpr ⟨(c, l[c]), this, rfl⟩
      exact le_antisymm (hbounds _ (List.getElem_mem _)).1 (not_lt.mp hnot)
    · rw [if_neg hlt]
      exact (List.getElem?_eq_none (by omega)).symm

/-- A non-negative row is renormalised into `[0, 1]`. -/
theorem normalizeRow_nonneg (t : List ℚ) (hnn : ∀ x ∈ t, 0 ≤ x) :
    normalizeRow t = some (t.map (fun x => x * (t.sum + eps)⁻¹)) ∧
      ∀ x ∈ t.map (fun x => x * (t.sum + eps)⁻¹), 0 ≤ x ∧ x ≤ 1 := by
  have hS : 0 ≤ t.sum := List.sum_nonneg hnn
  have hden : 0 < t.sum + eps := by linarith [eps_pos]
  constructor
  · unfold normalizeRow
    rw [if_neg (ne_of_gt hden)]
  · intro x hx
    obtain ⟨y, hy, rfl⟩ := List.mem_map.mp hx
    have hy0 := hnn y hy
    have hyS : y ≤ t.sum := List.single_le_sum hnn y hy
    constructor
    · exact mul_nonneg hy0 (le_of_lt (inv_pos.mpr hden))
    · rw [← div_eq_mul_inv, div_le_one hden]
      linarith [eps_pos]

/-- First run of the fixed-decimal example: `precision = 1` on
`[0.54, 0.34, 0.04, 0.04, 0.04]`. -/
theorem processRow_round_first :
    processRow heapPops ⟨1, 0, 0, true⟩ [27 / 50, 17 / 50, 1 / 25, 1 / 25, 1 / 25]
      = some [(0, 1 / 2 / (4 / 5 + eps)), (1, 3 / 10 / (4 / 5 + eps))] := by
  have htrunc : truncateRow heapPops ⟨1, 0, 0, true⟩
      [27 / 50, 17 / 50, 1 / 25, 1 / 25, 1 / 25] = some [1 / 2, 3 / 10, 0, 0, 0] := by
    norm_num [truncateRow, roundRow, roundf]
  simp only [processRow, htrunc, if_true, Option.bind]
  norm_num [normalizeRow, emitFrom, eps]

/-- Second run of the fixed-decimal example, on the output of the first read
back as a dense row. -/
theorem processRow_round_second :
    processRow heapPops ⟨1, 0, 0, true⟩
        (densify 5 [(0, 1 / 2 / (4 / 5 + eps)), (1, 3 / 10 / (4 / 5 + eps))])
      = some [(0, 3 / 5 / (1 + eps)), (1, 2 / 5 / (1 + eps))] := by
  have hdense : densify 5 [(0, 1 / 2 / (4 / 5 + eps)), (1, 3 / 10 / (4 / 5 + eps))]
      = [1 / 2 / (4 / 5 + eps), 3 / 10 / (4 / 5 + eps), 0, 0, 0] := by
    simp [densify, List.replicate]
  have htrunc : truncateRow heapPops ⟨1, 0, 0, true⟩
      [1 / 2 / (4 / 5 + eps), 3 / 10 / (4 / 5 + eps), 0, 0, 0]
      = some [3 / 5, 2 / 5, 0, 0, 0] := by
    norm_num [truncateRow, roundRow, roundf, eps]
  simp only [hdense, processRow, htrunc, if_true, Option.bind]
  norm_num [normalizeRow, emitFrom, eps]

/-- C7 (counterexample): with `precision = 1` the one-row matrix
`[[0.54, 0.34, 0.04, 0.04, 0.04]]` rounds to `[0.5, 0.3, 0, 0, 0]` and is emitted
as classes 0 and 1 with weights `0.5 / (0.8 + eps)` and `0.3 / (0.8 + eps)`
(about 0.625 and 0.375).  Run again on that output, the weights round to 0.6 and
0.4 and the second output, `0.6 / (1 + eps)` and `0.4 / (1 + eps)`, differs from
the first. -/
theorem sparsify_rerun_differs :
    processMatrix heapPops ⟨1, 0, 0, true⟩ [[27 / 50, 17 / 50, 1 / 25, 1 / 25, 1 / 25]]
      = some [[(0, 1 / 2 / (4 / 5 + eps)), (1, 3 / 10 / (4 / 5 + eps))]] ∧
    processMatrix heapPops ⟨1, 0, 0, true⟩
        (densifyAll [[27 / 50, 17 / 50, 1 / 25, 1 / 25, 1 / 25]]
          [[(0, 1 / 2 / (4 / 5 + eps)), (1, 3 / 10 / (4 / 5 + eps))]])
      = some [[(0, 3 / 5 / (1 + eps)), (1, 2 / 5 / (1 + eps))]] ∧
    ([[(0, 1 / 2 / (4 / 5 + eps)), (1, 3 / 10 / (4 / 5 + eps))]] : List (List (ℕ × ℚ)))
      ≠ [[(0, 3 / 5 / (1 + eps)), (1, 2 / 5 / (1 + eps))]] := by
  refine ⟨?_, ?_, ?_⟩
  · simp only [processMatrix, mapRows, processRow_round_first, Option.map]
  · have hdense : densifyAll [[27 / 50, 17 / 50, 1 / 25, 1 / 25, 1 / 25]]
        [[(0, 1 / 2 / (4 / 5 + eps)), (1, 3 / 10 / (4 / 5 + eps))]]
        = [densify 5 [(0, 1 / 2 / (4 / 5 + eps)), (1, 3 / 10 / (4 / 5 + eps))]] := by
      simp [densifyAll]
    rw [hdense]
    simp only [processMatrix, mapRows, processRow_round_second, Option.map]
  · norm_num [eps]

/-- The percentile policy is no fixed point either: at percentile 50 the frame
`[0.4, 0.35, 0.25]` keeps classes 0 and 1, and the second run, on weights of
about 0.533 and 0.467, keeps class 0 alone. -/
theorem processRow_percentile_rerun :
    processRow heapPops ⟨0, 50, 0, true⟩ [2 / 5, 7 / 20, 1 / 4]
      = some [(0, 2 / 5 / (3 / 4 + eps)), (1, 7 / 20 / (3 / 4 + eps))] ∧
    processRow heapPops ⟨0, 50, 0, true⟩
        (densify 3 [(0, 2 / 5 / (3 / 4 + eps)), (1, 7 / 20 / (3 / 4 + eps))])
      = some [(0, 2 / 5 / (3 / 4 + eps) / (2 / 5 / (3 / 4 + eps) + eps))] := by
  constructor
  · have hpops : heapPops (pushAll 0 [2 / 5, 7 / 20, 1 / 4])
        = [((2 / 5 : ℚ), 0), ((7 / 20 : ℚ), 1), ((1 / 4 : ℚ), 2)] := by
      have := pops_of_strictly_descending heapPops heapPops_isPopOrder
        [((2 / 5 : ℚ), 0), ((7 / 20 : ℚ), 1), ((1 / 4 : ℚ), 2)] (by norm_num)
      simpa [pushAll] using this
    have htrunc : truncateRow heapPops ⟨0, 50, 0, true⟩ [2 / 5, 7 / 20, 1 / 4]
        = some [2 / 5, 7 / 20, 0] := by
      simp only [truncateRow, keepPercentile, hpops]
      norm_num [percentileLoop, List.replicate]
    simp only [processRow, htrunc, if_true, Option.bind]
    norm_num [normalizeRow, emitFrom, eps]
  · have hdense : densify 3 [(0, 2 / 5 / (3 / 4 + eps)), (1, 7 / 20 / (3 / 4 + eps))]
        = [2 / 5 / (3 / 4 + eps), 7 / 20 / (3 / 4 + eps), 0] := by
      simp [densify, List.replicate]
    have hpops : heapPops (pushAll 0 [2 / 5 / (3 / 4 + eps), 7 / 20 / (3 / 4 + eps), 0])
        = [((2 / 5 / (3 / 4 + eps) : ℚ), 0), ((7 / 20 / (3 / 4 + eps) : ℚ), 1),
            ((0 : ℚ), 2)] := by
      have := pops_of_strictly_descending heapPops heapPops_isPopOrder
        [((2 / 5 / (3 / 4 + eps) : ℚ), 0), ((7 / 20 / (3 / 4 + eps) : ℚ), 1),
          ((0 : ℚ), 2)] (by norm_num [eps])
      simpa [pushAll] using this
    have htrunc : truncateRow heapPops ⟨0, 50, 0, true⟩
        [2 / 5 / (3 / 4 + eps), 7 / 20 / (3 / 4 + eps), 0]
        = some [2 / 5 / (3 / 4 + eps), 0, 0] := by
      simp only [truncateRow, keepPercentile, hpops]
      norm_num [percentileLoop, List.replicate, eps]
    simp only [hdense, processRow, htrunc, if_true, Option.bind]
    norm_num [normalizeRow, emitFrom, eps]

/-- One row under the topN policy: the run succeeds, and the run on its output
read back as a dense row emits the same classes with every weight divided by
`T + eps`, `T` the sum of the first weights. -/
theorem processRow_topN_rerun (pq : List (ℚ × ℕ) → List (ℚ × ℕ)) (hpq : IsPopOrder pq)
    (o : Options) (ho : o.roundOff = true) (hprec : o.precision = 0)
    (hperc : o.percentile = 0) (htop : o.topN ≠ 0) (row : List ℚ)
    (hnn : ∀ x ∈ row, 0 ≤ x) (hK : o.topN ≤ (row.length : ℤ)) :
    ∃ post, processRow pq o row = some post ∧
      processRow pq o (densify row.length post)
        = some (post.map (fun p => (p.1, p.2 / ((post.map Prod.snd).sum + eps)))) := by
  have htrunc : ∀ r : List ℚ, r.length = row.length → truncateRow pq o r = some r := by
    intro r hr
    unfold truncateRow
    simp only [hprec, hperc, htop, ne_eq, not_true_eq_false, not_false_eq_true, if_true,
      if_false]
    exact keepTopN_same pq hpq o.topN r (by rw [hr]; exact hK)
  obtain ⟨hnorm, hbounds⟩ := normalizeRow_nonneg row hnn
  obtain ⟨post, hpost⟩ := emitFrom_isSome _ hbounds 0
  have hfirst : processRow pq o row = some post := by
    simp only [processRow, ho, if_true, htrunc row rfl, hnorm, Option.bind, hpost]
  refine ⟨post, hfirst, ?_⟩
  have hdense := densify_emit _ post hpost
  rw [List.length_map] at hdense
  rw [hdense]
  have hnn' : ∀ x ∈ row.map (fun x => x * (row.sum + eps)⁻¹), 0 ≤ x :=
    fun x hx => (hbounds x hx).1
  obtain ⟨hnorm', hbounds'⟩ := normalizeRow_nonneg _ hnn'
  have hT : (post.map Prod.snd).sum = (row.map (fun x => x * (row.sum + eps)⁻¹)).sum :=
    (emitFrom_sum _ 0 post hpost).1
  have hT0 : 0 ≤ (row.map (fun x => x * (row.sum + eps)⁻¹)).sum := List.sum_nonneg hnn'
  have hscale := emitFrom_scale
    ((row.map (fun x => x * (row.sum + eps)⁻¹)).sum + eps)⁻¹
    (inv_pos.mpr (by linarith [eps_pos])) _ 0 post hpost
    (fun x hx => (hbounds' _ (List.mem_map.mpr ⟨x, hx, rfl⟩)).2)
  simp only [processRow, ho, if_true, htrunc _ (List.length_map _ _), hnorm', Option.bind,
    hscale, hT, div_eq_mul_inv]

/-- C7 (amended): with the topN policy active (`precision = 0`,
`percentile = 0`, `topN` non-zero and at most the number of columns) and a
matrix of non-negative entries, the run succeeds, and running again on its
output read back as a dense matrix emits, frame by frame, the same class
indices with each weight divided by `T + eps`, where `T` is the sum of the
weights the first run emitted for that frame. -/
theorem topN_rerun_rescales (pq : List (ℚ × ℕ) → List (ℚ × ℕ)) (hpq : IsPopOrder pq)
    (o : Options) (ho : o.roundOff = true) (hprec : o.precision = 0)
    (hperc : o.percentile = 0) (htop : o.topN ≠ 0) (mat : List (List ℚ))
    (hnn : ∀ row ∈ mat, ∀ x ∈ row, 0 ≤ x)
    (hK : ∀ row ∈ mat, o.topN ≤ (row.length : ℤ)) :
    ∃ utt_post, processMatrix pq o mat = some utt_post ∧
      processMatrix pq o (densifyAll mat utt_post)
        = some (utt_post.map (fun post =>
            post.map (fun p => (p.1, p.2 / ((post.map Prod.snd).sum + eps))))) := by
  induction mat with
  | nil => exact ⟨[], rfl, rfl⟩
  | cons row mat ih =>
    obtain ⟨post, hfirst, hsecond⟩ := processRow_topN_rerun pq hpq o ho hprec hperc htop row
      (hnn row (List.mem_cons_self _ _)) (hK row (List.mem_cons_self _ _))
    obtain ⟨rest, hrest1, hrest2⟩ := ih
      (fun r hr => hnn r (List.mem_cons_of_mem _ hr))
      (fun r hr => hK r (List.mem_cons_of_mem _ hr))
    unfold processMatrix at hrest1 hrest2
    refine ⟨post :: rest, ?_, ?_⟩
    · simp only [processMatrix, mapRows, hfirst, hrest1, Option.map]
    · unfold densifyAll at hrest2
      simp only [processMatrix, densifyAll, List.zipWith_cons_cons, mapRows, hsecond, hrest2,
        Option.map, List.map_cons]

/-- Witness for `topN_rerun_rescales` with the reference queue, `topN = 1` and
the matrix `[[0.1, 0.2, 0.7], [0.5, 0.3, 0.2]]`. -/
theorem topN_rerun_rescales_witness :
    IsPopOrder heapPops ∧
    (∀ row ∈ ([[1 / 10, 1 / 5, 7 / 10], [1 / 2, 3 / 10, 1 / 5]] : List (List ℚ)),
      ∀ x ∈ row, 0 ≤ x) ∧
    (∀ row ∈ ([[1 / 10, 1 / 5, 7 / 10], [1 / 2, 3 / 10, 1 / 5]] : List (List ℚ)),
      (1 : ℤ) ≤ (row.length : ℤ)) ∧
    ∃ utt_post, processMatrix heapPops ⟨0, 0, 1, true⟩
        [[1 / 10, 1 / 5, 7 / 10], [1 / 2, 3 / 10, 1 / 5]] = some utt_post ∧
      processMatrix heapPops ⟨0, 0, 1, true⟩
          (densifyAll [[1 / 10, 1 / 5, 7 / 10], [1 / 2, 3 / 10, 1 / 5]] utt_post)
        = some (utt_post.map (fun post =>
            post.map (fun p => (p.1, p.2 / ((post.map Prod.snd).sum + eps))))) := by
  have hnn : ∀ row ∈ ([[1 / 10, 1 / 5, 7 / 10], [1 / 2, 3 / 10, 1 / 5]] : List (List ℚ)),
      ∀ x ∈ row, 0 ≤ x := by
    intro row hrow x hx
    simp only [List.mem_cons, List.mem_singleton, List.not_mem_nil, or_false] at hrow
    rcases hrow with rfl | rfl
    · simp only [List.mem_cons, List.mem_singleton, List.not_mem_nil, or_false] at hx
      rcases hx with rfl | rfl | rfl <;> norm_num
    · simp only [List.mem_cons, List.mem_singleton, List.not_mem_nil, or_false] at hx
      rcases hx with rfl | rfl | rfl <;> norm_num
  have hK : ∀ row ∈ ([[1 / 10, 1 / 5, 7 / 10], [1 / 2, 3 / 10, 1 / 5]] : List (List ℚ)),
      (1 : ℤ) ≤ (row.length : ℤ) := by
    intro row hrow
    simp only [List.mem_cons, List.mem_singleton, List.not_mem_nil, or_false] at hrow
    rcases hrow with rfl | rfl <;> simp
  exact ⟨heapPops_isPopOrder, hnn, hK,
    topN_rerun_rescales heapPops heapPops_isPopOrder ⟨0, 0, 1, true⟩ rfl rfl rfl
      (by decide) _ hnn hK⟩


/-- Under rounding with a non-zero `precision` a row goes through decimal
rounding and renormalisation, whatever `percentile` and `topN` are. -/
theorem processRow_precision (pq : List (ℚ × ℕ) → List (ℚ × ℕ))
    (precision percentile topN : ℤ) (hprec : precision ≠ 0) (row : List ℚ) :
    processRow pq ⟨precision, percentile, topN, true⟩ row =
      (normalizeRow (roundRow precision row)).bind (emitFrom 0) := by
  simp [processRow, truncateRow, hprec]

/-- Under rounding with `precision = 0` and a non-zero `percentile` a row goes
through the percentile branch and renormalisation, whatever `topN` is. -/
theorem processRow_percentile (pq : List (ℚ × ℕ) → List (ℚ × ℕ))
    (percentile topN : ℤ) (hperc : percentile ≠ 0) (row : List ℚ) :
    processRow pq ⟨0, percentile, topN, true⟩ row =
      (normalizeRow (keepPercentile pq percentile row)).bind (emitFrom 0) := by
  simp [processRow, truncateRow, hperc]

/-- Two option sets that treat every row alike give the same run, provided
neither stops at the usage check. -/
theorem main_congr (pq : List (ℚ × ℕ) → List (ℚ × ℕ)) (o1 o2 : Options)
    (apply_exp : Bool) (exp : ℚ → ℚ) (stream : List (String × List (List ℚ)))
    (h1 : ¬ (o1.precision = 0 ∧ o1.percentile = 0 ∧ o1.topN = 0 ∧ o1.roundOff = true))
    (h2 : ¬ (o2.precision = 0 ∧ o2.percentile = 0 ∧ o2.topN = 0 ∧ o2.roundOff = true))
    (hrow : ∀ row, processRow pq o1 row = processRow pq o2 row) :
    main pq o1 apply_exp exp stream = main pq o2 apply_exp exp stream := by
  have hf : processRow pq o1 = processRow pq o2 := funext hrow
  have hloop : ∀ (items : List (String × List (List ℚ))) (n : ℕ),
      loop pq o1 apply_exp exp items n = loop pq o2 apply_exp exp items n := by
    intro items
    induction items with
    | nil => intro n; rfl
    | cons item rest ih =>
      intro n
      simp only [loop, processMatrix, hf, ih]
  unfold main
  rw [if_neg h1, if_neg h2, hloop]

/-- C19: with `roundOff` on and a non-zero `precision`, two runs on the same
input that differ only in `percentile` and `topN` end alike (same posteriors
written, same status), every row being rounded to `precision` decimals and
renormalised; and with `precision = 0` and a non-zero `percentile`, two runs
that differ only in `topN` end alike, every row going through the percentile
branch and renormalisation. -/
theorem policy_precedence (pq : List (ℚ × ℕ) → List (ℚ × ℕ)) (apply_exp : Bool)
    (exp : ℚ → ℚ) (stream : List (String × List (List ℚ)))
    (precision percentile pc1 pc2 tn1 tn2 : ℤ)
    (hprec : precision ≠ 0) (hperc : percentile ≠ 0) :
    (main pq ⟨precision, pc1, tn1, true⟩ apply_exp exp stream =
        main pq ⟨precision, pc2, tn2, true⟩ apply_exp exp stream ∧
      ∀ row, processRow pq ⟨precision, pc1, tn1, true⟩ row =
        (normalizeRow (roundRow precision row)).bind (emitFrom 0)) ∧
    (main pq ⟨0, percentile, tn1, true⟩ apply_exp exp stream =
        main pq ⟨0, percentile, tn2, true⟩ apply_exp exp stream ∧
      ∀ row, processRow pq ⟨0, percentile, tn1, true⟩ row =
        (normalizeRow (keepPercentile pq percentile row)).bind (emitFrom 0)) := by
  refine ⟨⟨?_, fun row => processRow_precision pq precision pc1 tn1 hprec row⟩,
    ⟨?_, fun row => processRow_percentile pq percentile tn1 hperc row⟩⟩
  · apply main_congr
    · exact fun h => hprec h.1
    · exact fun h => hprec h.1
    · intro row
      rw [processRow_precision pq precision pc1 tn1 hprec,
        processRow_precision pq precision pc2 tn2 hprec]
  · apply main_congr
    · exact fun h => hperc h.2.1
    · exact fun h => hperc h.2.1
    · intro row
      rw [processRow_percentile pq percentile tn1 hperc,
        processRow_percentile pq percentile tn2 hperc]

theorem policy_precedence_witness :
    (2 : ℤ) ≠ 0 ∧ (98 : ℤ) ≠ 0 ∧
    (main heapPops ⟨2, 0, 0, true⟩ false (fun x => x) [("utt1", [[1 / 10, 1 / 5, 7 / 10]])] =
        main heapPops ⟨2, 98, 3, true⟩ false (fun x => x)
          [("utt1", [[1 / 10, 1 / 5, 7 / 10]])] ∧
      ∀ row, processRow heapPops ⟨2, 0, 0, true⟩ row =
        (normalizeRow (roundRow 2 row)).bind (emitFrom 0)) ∧
    (main heapPops ⟨0, 98, 0, true⟩ false (fun x => x) [("utt1", [[1 / 10, 1 / 5, 7 / 10]])] =
        main heapPops ⟨0, 98, 3, true⟩ false (fun x => x)
          [("utt1", [[1 / 10, 1 / 5, 7 / 10]])] ∧
      ∀ row, processRow heapPops ⟨0, 98, 0, true⟩ row =
        (normalizeRow (keepPercentile heapPops 98 row)).bind (emitFrom 0)) :=
  ⟨by decide, by decide,
    policy_precedence heapPops false (fun x => x) [("utt1", [[1 / 10, 1 / 5, 7 / 10]])]
      2 98 0 98 0 3 (by decide) (by decide)⟩


end PosteriorToPost

namespace AnalyzePostCounts

/-- Which labels are warned about: those whose count is exactly zero. -/
theorem zeroLabelsFrom_mem (counts : List ℚ) :
    ∀ (i n : ℕ), n ∈ zeroLabelsFrom i counts ↔ (i ≤ n ∧ counts[n - i]? = some 0) := by
  induction counts with
  | nil =>
    intro i n
    simp [zeroLabelsFrom]
  | cons x xs ih =>
    intro i n
    have htail : (i + 1 ≤ n ∧ xs[n - (i + 1)]? = some 0) ↔
        (i < n ∧ (x :: xs)[n - i]? = some 0) := by
      constructor
      · rintro ⟨h1, h2⟩
        refine ⟨h1, ?_⟩
        have : n - i = (n - (i + 1)) + 1 := by omega
        rw [this, List.getElem?_cons_succ]
        exact h2
      · rintro ⟨h1, h2⟩
        refine ⟨h1, ?_⟩
        have : n - i = (n - (i + 1)) + 1 := by omega
        rw [this, List.getElem?_cons_succ] at h2
        exact h2
    have hhead : (i = n ∧ (x :: xs)[n - i]? = some 0) ↔ (i = n ∧ 0 = x) := by
      constructor
      · rintro ⟨h1, h2⟩
        subst h1
        simp only [Nat.sub_self, List.getElem?_cons_zero, Option.some.injEq] at h2
        exact ⟨rfl, h2.symm⟩
      · rintro ⟨h1, h2⟩
        subst h1
        simp [h2]
    have hsplit : (i ≤ n ∧ (x :: xs)[n - i]? = some 0) ↔
        ((i = n ∧ 0 = x) ∨ n ∈ zeroLabelsFrom (i + 1) xs) := by
      rw [ih (i + 1) n, htail, ← hhead]
      constructor
      · rintro ⟨h1, h2⟩
        rcases Nat.eq_or_lt_of_le h1 with heq | hlt
        · exact Or.inl ⟨heq, h2⟩
        · exact Or.inr ⟨hlt, h2⟩
      · rintro (⟨h1, h2⟩ | ⟨h1, h2⟩)
        · exact ⟨by omega, h2⟩
        · exact ⟨by omega, h2⟩
    rw [hsplit]
    simp only [zeroLabelsFrom]
    by_cases hx : 0 = x
    · rw [if_pos hx, List.mem_cons]
      constructor
      · rintro (h | h)
        · exact Or.inl ⟨h.symm, hx⟩
        · exact Or.inr h
      · rintro (⟨h, _⟩ | h)
        · exact Or.inl h.symm
        · exact Or.inr h
    · rw [if_neg hx]
      constructor
      · exact fun h => Or.inr h
      · rintro (⟨_, h⟩ | h)
        · exact absurd h hx
        · exact h

/-- What `main` writes is the smoothing of the counts the loop ends with. -/
theorem main_eq_some (cfg : Config) (stream : List (String × List (List (ℤ × ℚ))))
    (out : Output) (h : main cfg stream = some out) :
    ∃ st, loop cfg stream ⟨List.replicate cfg.counts_dim.toNat 0, 0, 0⟩ = some st ∧
      out.counts_nozero = counts_nozero st.counts ∧
      out.zero_labels = zeroLabelsFrom 0 st.counts := by
  unfold main at h
  split at h
  · exact absurd h (by simp)
  · obtain ⟨st, hst, hout⟩ := Option.map_eq_some'.mp h
    refine ⟨st, hst, ?_, ?_⟩
    · rw [← hout]
    · rw [← hout]

/-- C9: for every accumulated count vector `counts`, the vector written has the
length of `counts` and entry `counts[i] + 0.5` at every index `i`, and the
labels reported as suspicious are exactly the indices `i` with `counts[i] = 0`,
read on the unsmoothed counts; for the counts `[10, 0, 5]` the vector written
is `[10.5, 0.5, 5.5]` and only label 1 is reported.  The vector and the labels
are those that `main` returns for the counts its loop ends with. -/
theorem smoothing_adds_half (counts : List ℚ) :
    (counts_nozero counts).length = counts.length ∧
    (∀ i : ℕ, (counts_nozero counts)[i]? = Option.map (fun x => x + 1 / 2) counts[i]?) ∧
    (∀ i : ℕ, i ∈ zeroLabelsFrom 0 counts ↔ counts[i]? = some 0) ∧
    (counts_nozero [10, 0, 5] = [21 / 2, 1 / 2, 11 / 2] ∧
      zeroLabelsFrom 0 [10, 0, 5] = [1]) ∧
    (∀ cfg stream out, main cfg stream = some out →
      ∃ st, loop cfg stream ⟨List.replicate cfg.counts_dim.toNat 0, 0, 0⟩ = some st ∧
        out.counts_nozero = counts_nozero st.counts ∧
        out.zero_labels = zeroLabelsFrom 0 st.counts) := by
  refine ⟨by simp [counts_nozero], ?_, ?_, ?_, ?_⟩
  · intro i
    simp [counts_nozero]
  · intro i
    simpa using zeroLabelsFrom_mem counts 0 i
  · constructor
    · norm_num [counts_nozero]
    · norm_num [zeroLabelsFrom]
  · intro cfg stream out h
    exact main_eq_some cfg stream out h

theorem resize_nonneg (counts : List ℚ) (dim : ℕ) (h : ∀ x ∈ counts, 0 ≤ x) :
    ∀ x ∈ resize counts dim, 0 ≤ x := by
  intro x hx
  unfold resize at hx
  rcases List.mem_append.mp hx with h1 | h1
  · exact h x (List.mem_of_mem_take h1)
  · rw [(List.mem_replicate.mp h1).2]

theorem set_nonneg (counts : List ℚ) (i : ℕ) (v : ℚ) (h : ∀ x ∈ counts, 0 ≤ x)
    (hv : 0 ≤ v) : ∀ x ∈ counts.set i v, 0 ≤ x := by
  intro x hx
  rcases List.mem_or_eq_of_mem_set hx with h1 | h1
  · exact h x h1
  · rw [h1]
    exact hv

theorem getD_nonneg (counts : List ℚ) (i : ℕ) (h : ∀ x ∈ counts, 0 ≤ x) :
    0 ≤ counts.getD i 0 := by
  rw [List.getD_eq_getElem?_getD]
  rcases hget : counts[i]? with _ | v
  · simp
  · obtain ⟨hlt, hv⟩ := List.getElem?_eq_some.mp hget
    simp only [Option.getD_some]
    rw [← hv]
    exact h _ (List.getElem_mem _)

/-- Non-negative increments keep the counts non-negative, pair by pair. -/
theorem accumulatePairs_nonneg (utt_w : ℚ) (hu : 0 ≤ utt_w) (frame_w : Option (List ℚ))
    (hf : ∀ fw, frame_w = some fw → ∀ x ∈ fw, 0 ≤ x) (i : ℕ) (ps : List (ℤ × ℚ)) :
    ∀ (counts out : List ℚ), (∀ p ∈ ps, 0 ≤ p.2) → (∀ x ∈ counts, 0 ≤ x) →
      accumulatePairs utt_w frame_w i ps counts = some out → ∀ x ∈ out, 0 ≤ x := by
  induction ps with
  | nil =>
    intro counts out _ hc h
    simp only [accumulatePairs, Option.some.injEq] at h
    rw [← h]
    exact hc
  | cons p ps ih =>
    intro counts out hps hc h
    have hp : 0 ≤ p.2 := hps p (List.mem_cons_self _ _)
    have hps' : ∀ q ∈ ps, 0 ≤ q.2 := fun q hq => hps q (List.mem_cons_of_mem _ hq)
    have hgrown : ∀ x ∈ (if p.1 ≥ (counts.length : ℤ) then resize counts (p.1.toNat + 1)
        else counts), 0 ≤ x := by
      split
      · exact resize_nonneg counts _ hc
      · exact hc
    simp only [accumulatePairs] at h
    split at h
    · exact absurd h (by simp)
    · cases frame_w with
      | none =>
        simp only at h
        refine ih _ out hps' ?_ h
        exact set_nonneg _ _ _ hgrown
          (add_nonneg (getD_nonneg _ _ hgrown) (mul_nonneg hp hu))
      | some fw =>
        simp only at h
        split at h
        · exact absurd h (by simp)
        · rename_i f hget
          have hf0 : 0 ≤ f := by
            obtain ⟨hlt, hv⟩ := List.getElem?_eq_some.mp hget
            rw [← hv]
            exact hf fw rfl _ (List.getElem_mem _)
          refine ih _ out hps' ?_ h
          exact set_nonneg _ _ _ hgrown
            (add_nonneg (getD_nonneg _ _ hgrown) (mul_nonneg (mul_nonneg hp hu) hf0))

theorem accumulateFrames_nonneg (utt_w : ℚ) (hu : 0 ≤ utt_w) (frame_w : Option (List ℚ))
    (hf : ∀ fw, frame_w = some fw → ∀ x ∈ fw, 0 ≤ x) (frs : List (List (ℤ × ℚ))) :
    ∀ (i : ℕ) (counts out : List ℚ), (∀ fr ∈ frs, ∀ p ∈ fr, 0 ≤ p.2) →
      (∀ x ∈ counts, 0 ≤ x) →
      accumulateFrames utt_w frame_w i frs counts = some out → ∀ x ∈ out, 0 ≤ x := by
  induction frs with
  | nil =>
    intro i counts out _ hc h
    simp only [accumulateFrames, Option.some.injEq] at h
    rw [← h]
    exact hc
  | cons fr frs ih =>
    intro i counts out hfrs hc h
    simp only [accumulateFrames] at h
    obtain ⟨mid, hmid, hrest⟩ := Option.bind_eq_some.mp h
    have hmid0 := accumulatePairs_nonneg utt_w hu frame_w hf i fr counts mid
      (hfrs fr (List.mem_cons_self _ _)) hc hmid
    exact ih (i + 1) mid out (fun g hg => hfrs g (List.mem_cons_of_mem _ hg)) hmid0 hrest

theorem step_nonneg (cfg : Config)
    (hutt : ∀ table, cfg.utt_weights = some table → ∀ utt w, table utt = some w → 0 ≤ w)
    (hfr : ∀ table, cfg.frame_weights = some table →
      ∀ utt v, table utt = some v → ∀ x ∈ v, 0 ≤ x)
    (st st' : State) (item : String × List (List (ℤ × ℚ)))
    (hitem : ∀ fr ∈ item.2, ∀ p ∈ fr, 0 ≤ p.2) (hc : ∀ x ∈ st.counts, 0 ≤ x)
    (h : step cfg st item = some st') : ∀ x ∈ st'.counts, 0 ≤ x := by
  unfold step at h
  split at h
  · rw [← Option.some.inj h]
    exact hc
  · rename_i utt_w hw
    have hu : 0 ≤ utt_w := by
      unfold uttWeight at hw
      split at hw
      · rw [← Option.some.inj hw]
        norm_num
      · rename_i table htable
        exact hutt table htable _ _ hw
    split at h
    · rw [← Option.some.inj h]
      exact hc
    · rename_i frame_w hfw
      have hf : ∀ fw, frame_w = some fw → ∀ x ∈ fw, 0 ≤ x := by
        intro fw hfw_eq
        unfold frameWeights at hfw
        split at hfw
        · rw [hfw_eq] at hfw
          exact absurd (Option.some.inj hfw) (by simp)
        · rename_i table htable
          obtain ⟨v, hv, hsome⟩ := Option.map_eq_some'.mp hfw
          rw [hfw_eq] at hsome
          rw [← Option.some.inj hsome]
          exact hfr table htable _ v hv
      obtain ⟨counts, hcounts, hst⟩ := Option.map_eq_some'.mp h
      rw [← hst]
      exact accumulateFrames_nonneg utt_w hu frame_w hf item.2 0 st.counts counts hitem hc
        hcounts

theorem loop_nonneg (cfg : Config)
    (hutt : ∀ table, cfg.utt_weights = some table → ∀ utt w, table utt = some w → 0 ≤ w)
    (hfr : ∀ table, cfg.frame_weights = some table →
      ∀ utt v, table utt = some v → ∀ x ∈ v, 0 ≤ x)
    (stream : List (String × List (List (ℤ × ℚ)))) :
    ∀ (st st' : State), (∀ item ∈ stream, ∀ fr ∈ item.2, ∀ p ∈ fr, 0 ≤ p.2) →
      (∀ x ∈ st.counts, 0 ≤ x) → loop cfg stream st = some st' →
      ∀ x ∈ st'.counts, 0 ≤ x := by
  induction stream with
  | nil =>
    intro st st' _ hc h
    simp only [loop, Option.some.injEq] at h
    rw [← h]
    exact hc
  | cons item items ih =>
    intro st st' hs hc h
    simp only [loop] at h
    obtain ⟨mid, hmid, hrest⟩ := Option.bind_eq_some.mp h
    have hmid0 := step_nonneg cfg hutt hfr st mid item
      (hs item (List.mem_cons_self _ _)) hc hmid
    exact ih mid st' (fun it hit => hs it (List.mem_cons_of_mem _ hit)) hmid0 hrest

/-- C10 (counterexample): one utterance with the single frame `{0: 1.0}` and the
per-utterance weight `-1` accumulates the count `-1`; the vector written is
`[-0.5]`, whose entry is not positive. -/
theorem smoothed_count_negative :
    Option.map Output.counts_nozero
        (main ⟨0, some (fun _ => some (-1)), none⟩ [("utt1", [[(0, 1)]])])
      = some [-1 / 2] ∧
    ¬ (0 : ℚ) < -1 / 2 := by
  constructor
  · norm_num [main, loop, step, uttWeight, frameWeights, accumulateFrames, accumulatePairs,
      resize, counts_nozero]
  · norm_num

/-- C10 (amended): when the posterior weights, the per-utterance weights and
the per-frame weights are all non-negative, every entry of the count vector
written by a run is at least `0.5`, hence strictly positive. -/
theorem smoothed_counts_positive (cfg : Config)
    (stream : List (String × List (List (ℤ × ℚ)))) (out : Output)
    (hpost : ∀ item ∈ stream, ∀ fr ∈ item.2, ∀ p ∈ fr, 0 ≤ p.2)
    (hutt : ∀ table, cfg.utt_weights = some table → ∀ utt w, table utt = some w → 0 ≤ w)
    (hfr : ∀ table, cfg.frame_weights = some table →
      ∀ utt v, table utt = some v → ∀ x ∈ v, 0 ≤ x)
    (h : main cfg stream = some out) :
    ∀ x ∈ out.counts_nozero, 1 / 2 ≤ x ∧ 0 < x := by
  obtain ⟨st, hst, hout, _⟩ := main_eq_some cfg stream out h
  have hc := loop_nonneg cfg hutt hfr stream _ st hpost
    (by intro x hx; rw [(List.mem_replicate.mp hx).2]) hst
  intro x hx
  rw [hout] at hx
  unfold counts_nozero at hx
  obtain ⟨y, hy, rfl⟩ := List.mem_map.mp hx
  have := hc y hy
  constructor <;> linarith

/-- Witness for `smoothed_counts_positive`: one utterance of two frames,
`{0: 1.0}` and `{2: 0.5}`, with utterance weight 2 and frame weights `[1, 0.5]`;
the counts are `[2, 0, 0.5]` and the vector written is `[2.5, 0.5, 1]`. -/
theorem smoothed_counts_positive_witness :
    main ⟨0, some (fun _ => some 2), some (fun _ => some [1, 1 / 2])⟩
        [("utt1", [[(0, 1)], [(2, 1 / 2)]])]
      = some ⟨[5 / 2, 1 / 2, 1], [1], 1, 0, 0⟩ ∧
    ∀ x ∈ ([5 / 2, 1 / 2, 1] : List ℚ), 1 / 2 ≤ x ∧ 0 < x := by
  have hrun : main ⟨0, some (fun _ => some 2), some (fun _ => some [1, 1 / 2])⟩
      [("utt1", [[(0, 1)], [(2, 1 / 2)]])] = some ⟨[5 / 2, 1 / 2, 1], [1], 1, 0, 0⟩ := by
    have h2 : Int.toNat 2 = 2 := rfl
    norm_num [main, loop, step, uttWeight, frameWeights, accumulateFrames, accumulatePairs,
      resize, counts_nozero, zeroLabelsFrom, List.replicate, h2]
  refine ⟨hrun, ?_⟩
  refine smoothed_counts_positive _ _ _ ?_ ?_ ?_ hrun
  · intro item hitem fr hfr p hp
    simp only [List.mem_singleton] at hitem
    subst hitem
    simp only [List.mem_cons, List.mem_singleton, List.not_mem_nil, or_false] at hfr
    rcases hfr with rfl | rfl
    · simp only [List.mem_singleton] at hp
      subst hp
      norm_num
    · simp only [List.mem_singleton] at hp
      subst hp
      norm_num
  · intro table htable utt w hw
    have ht := Option.some.inj htable
    rw [← ht] at hw
    rw [← Option.some.inj hw]
    norm_num
  · intro table htable utt v hv x hx
    have ht := Option.some.inj htable
    rw [← ht] at hv
    rw [← Option.some.inj hv] at hx
    simp only [List.mem_cons, List.mem_singleton, List.not_mem_nil, or_false] at hx
    rcases hx with rfl | rfl <;> norm_num

/-- Growing keeps every entry: beyond the old length the new entries are zero,
which is what reading beyond the length gives. -/
theorem resize_getD (counts : List ℚ) (dim : ℕ) (hdim : counts.length ≤ dim) (n : ℕ) :
    (resize counts dim).getD n 0 = counts.getD n 0 := by
  unfold resize
  rw [List.take_of_length_le hdim]
  simp only [List.getD_eq_getElem?_getD]
  by_cases hn : n < counts.length
  · rw [List.getElem?_append_left hn]
  · rw [List.getElem?_append_right (by omega), List.getElem?_replicate,
      List.getElem?_eq_none (by omega)]
    split <;> rfl

theorem resize_length (counts : List ℚ) (dim : ℕ) (hdim : counts.length ≤ dim) :
    (resize counts dim).length = dim := by
  unfold resize
  rw [List.take_of_length_le hdim]
  simp
  omega

/-- One `counts(first) += w` with the growth that precedes it: the entry at
`first` gains `w`, every other entry is as before, and the length is the larger
of the old length and `first + 1`. -/
theorem addAt_getD (counts : List ℚ) (first : ℤ) (h0 : 0 ≤ first) (w : ℚ) :
    (∀ n : ℕ, ((if first ≥ (counts.length : ℤ) then resize counts (first.toNat + 1)
          else counts).set first.toNat
        ((if first ≥ (counts.length : ℤ) then resize counts (first.toNat + 1)
          else counts).getD first.toNat 0 + w)).getD n 0
      = counts.getD n 0 + if first = (n : ℤ) then w else 0) ∧
    ((if first ≥ (counts.length : ℤ) then resize counts (first.toNat + 1)
          else counts).set first.toNat
        ((if first ≥ (counts.length : ℤ) then resize counts (first.toNat + 1)
          else counts).getD first.toNat 0 + w)).length
      = max counts.length (first.toNat + 1) := by
  have hg : ∀ n, (if first ≥ (counts.length : ℤ) then resize counts (first.toNat + 1)
      else counts).getD n 0 = counts.getD n 0 := by
    intro n
    split
    · exact resize_getD counts (first.toNat + 1) (by omega) n
    · rfl
  have hl : (if first ≥ (counts.length : ℤ) then resize counts (first.toNat + 1)
      else counts).length = max counts.length (first.toNat + 1) := by
    split
    · rw [resize_length counts (first.toNat + 1) (by omega)]
      omega
    · omega
  constructor
  · intro n
    rw [List.getD_eq_getElem?_getD, List.getElem?_set, hl, hg]
    by_cases hn : first.toNat = n
    · have hfn : first = (n : ℤ) := by omega
      rw [if_pos hn, if_pos (by omega), if_pos hfn, ← hn]
      rfl
    · have hfn : ¬ first = (n : ℤ) := by omega
      rw [if_neg hn, if_neg hfn, ← List.getD_eq_getElem?_getD, hg]
      simp
  · rw [List.length_set, hl]

/-- The pairs of one frame: the run succeeds when the indices are non-negative
and the frame has a weight, and every entry gains the mass of its own pairs. -/
theorem accumulatePairs_getD (utt_w : ℚ) (frame_w : Option (List ℚ)) (i : ℕ)
    (hfw : ∀ fw, frame_w = some fw → i < fw.length) (ps : List (ℤ × ℚ)) :
    ∀ counts : List ℚ, (∀ p ∈ ps, 0 ≤ p.1) →
      ∃ out, accumulatePairs utt_w frame_w i ps counts = some out ∧
        ∀ n : ℕ, out.getD n 0 = counts.getD n 0 +
          ((ps.filter (fun p => p.1 = (n : ℤ))).map
            (fun p => p.2 * utt_w * frameWeightAt frame_w i)).sum := by
  induction ps with
  | nil =>
    intro counts _
    exact ⟨counts, rfl, by simp⟩
  | cons p ps ih =>
    intro counts hps
    have hp : 0 ≤ p.1 := hps p (List.mem_cons_self _ _)
    have hps' : ∀ q ∈ ps, 0 ≤ q.1 := fun q hq => hps q (List.mem_cons_of_mem _ hq)
    cases frame_w with
    | none =>
      obtain ⟨out, hout, hget⟩ := ih
        ((if p.1 ≥ (counts.length : ℤ) then resize counts (p.1.toNat + 1)
          else counts).set p.1.toNat
          ((if p.1 ≥ (counts.length : ℤ) then resize counts (p.1.toNat + 1)
            else counts).getD p.1.toNat 0 + p.2 * utt_w)) hps'
      refine ⟨out, ?_, ?_⟩
      · simp only [accumulatePairs, if_neg (not_lt.mpr hp)]
        exact hout
      · intro n
        rw [hget n, (addAt_getD counts p.1 hp (p.2 * utt_w)).1 n, List.filter_cons]
        by_cases hpn : p.1 = (n : ℤ)
        · simp [hpn, add_assoc, frameWeightAt]
        · simp [hpn]
    | some fw =>
      have hi := hfw fw rfl
      obtain ⟨out, hout, hget⟩ := ih
        ((if p.1 ≥ (counts.length : ℤ) then resize counts (p.1.toNat + 1)
          else counts).set p.1.toNat
          ((if p.1 ≥ (counts.length : ℤ) then resize counts (p.1.toNat + 1)
            else counts).getD p.1.toNat 0 + p.2 * utt_w * fw[i])) hps'
      refine ⟨out, ?_, ?_⟩
      · simp only [accumulatePairs, if_neg (not_lt.mpr hp), List.getElem?_eq_getElem hi]
        exact hout
      · intro n
        rw [hget n, (addAt_getD counts p.1 hp (p.2 * utt_w * fw[i])).1 n, List.filter_cons]
        have hgd : frameWeightAt (some fw) i = fw[i] := List.getD_eq_getElem fw 1 hi
        by_cases hpn : p.1 = (n : ℤ)
        · rw [if_pos hpn, if_pos (by simpa using hpn), List.map_cons, List.sum_cons, hgd]
          ring
        · rw [if_neg hpn, if_neg (by simpa using hpn), add_zero]

/-- The frames of one posterior: the run succeeds, and every entry gains the
mass that the specification `addedMass` gives it. -/
theorem accumulateFrames_getD (utt_w : ℚ) (frame_w : Option (List ℚ))
    (frs : List (List (ℤ × ℚ))) :
    ∀ (i : ℕ) (counts : List ℚ), (∀ fr ∈ frs, ∀ p ∈ fr, 0 ≤ p.1) →
      (∀ fw, frame_w = some fw → i + frs.length ≤ fw.length) →
      ∃ out, accumulateFrames utt_w frame_w i frs counts = some out ∧
        ∀ n : ℕ, out.getD n 0 = counts.getD n 0 + addedMass utt_w frame_w n i frs := by
  induction frs with
  | nil =>
    intro i counts _ _
    exact ⟨counts, rfl, by simp [addedMass]⟩
  | cons fr frs ih =>
    intro i counts hfrs hfw
    obtain ⟨mid, hmid, hgetmid⟩ := accumulatePairs_getD utt_w frame_w i
      (fun fw h => by have := hfw fw h; simp at this; omega) fr counts
      (hfrs fr (List.mem_cons_self _ _))
    obtain ⟨out, hout, hget⟩ := ih (i + 1) mid
      (fun g hg => hfrs g (List.mem_cons_of_mem _ hg))
      (fun fw h => by have := hfw fw h; simp at this; omega)
    refine ⟨out, ?_, ?_⟩
    · simp only [accumulateFrames, hmid, Option.bind]
      exact hout
    · intro n
      rw [hget n, hgetmid n]
      simp only [addedMass]
      ring

/-- A class without a pair in the utterance gains nothing. -/
theorem addedMass_absent (utt_w : ℚ) (frame_w : Option (List ℚ)) (n : ℕ)
    (frs : List (List (ℤ × ℚ))) :
    ∀ i, (∀ fr ∈ frs, ∀ p ∈ fr, p.1 ≠ (n : ℤ)) → addedMass utt_w frame_w n i frs = 0 := by
  induction frs with
  | nil => intro i _; rfl
  | cons fr frs ih =>
    intro i h
    have hfilter : fr.filter (fun p => p.1 = (n : ℤ)) = [] := by
      rw [List.filter_eq_nil_iff]
      intro p hp
      simpa using h fr (List.mem_cons_self _ _) p hp
    simp only [addedMass, hfilter, List.map_nil, List.sum_nil, zero_add]
    exact ih (i + 1) (fun g hg => h g (List.mem_cons_of_mem _ hg))

/-- C11: for an utterance that is not skipped (its weights are found), whose
class indices are non-negative and whose per-frame weight vector, when
supplied, has one entry per frame, the loop body succeeds, counts the utterance
as done, and leaves every count entry at its previous value (0 beyond the
previous length) plus the sum over the frames `i` and the pairs `(n, w)` of
frame `i` of `w * utt_w * frame_w(i)`, the weights being 1 when not supplied;
the entries of classes that do not occur in the utterance are unchanged. -/
theorem count_accumulation (cfg : Config) (st : State)
    (item : String × List (List (ℤ × ℚ))) (utt_w : ℚ) (frame_w : Option (List ℚ))
    (hutt : uttWeight cfg item.1 = some utt_w)
    (hframe : frameWeights cfg item.1 = some frame_w)
    (hidx : ∀ fr ∈ item.2, ∀ p ∈ fr, 0 ≤ p.1)
    (hlen : ∀ fw, frame_w = some fw → fw.length = item.2.length) :
    ∃ counts, step cfg st item = some ⟨counts, st.num_done + 1, st.num_other_error⟩ ∧
      (∀ n : ℕ, counts.getD n 0
        = st.counts.getD n 0 + addedMass utt_w frame_w n 0 item.2) ∧
      (∀ n : ℕ, (∀ fr ∈ item.2, ∀ p ∈ fr, p.1 ≠ (n : ℤ)) →
        counts.getD n 0 = st.counts.getD n 0) ∧
      (cfg.utt_weights = none → utt_w = 1) ∧
      (cfg.frame_weights = none → frame_w = none) := by
  obtain ⟨counts, hacc, hget⟩ := accumulateFrames_getD utt_w frame_w item.2 0 st.counts hidx
    (fun fw h => by rw [hlen fw h]; omega)
  refine ⟨counts, ?_, hget, ?_, ?_, ?_⟩
  · simp only [step, hutt, hframe, hacc, Option.map]
  · intro n habsent
    rw [hget n, addedMass_absent utt_w frame_w n item.2 0 habsent, add_zero]
  · intro hnone
    unfold uttWeight at hutt
    rw [hnone] at hutt
    exact (Option.some.inj hutt).symm
  · intro hnone
    unfold frameWeights at hframe
    rw [hnone] at hframe
    exact (Option.some.inj hframe).symm

/-- Witness for `count_accumulation`: counts `[1]`, utterance weight 2, frame
weights `[1, 0.5]` and the two frames `{0: 1.0}` and `{2: 0.5}`; class 0 gains
`1 * 2 * 1 = 2` and class 2 gains `0.5 * 2 * 0.5 = 0.5`. -/
theorem count_accumulation_witness :
    addedMass 2 (some [1, 1 / 2]) 0 0 [[(0, 1)], [(2, 1 / 2)]] = 2 ∧
    addedMass 2 (some [1, 1 / 2]) 2 0 [[(0, 1)], [(2, 1 / 2)]] = 1 / 2 ∧
    ∃ counts, step ⟨0, some (fun _ => some 2), some (fun _ => some [1, 1 / 2])⟩ ⟨[1], 0, 0⟩
        ("utt1", [[(0, 1)], [(2, 1 / 2)]]) = some ⟨counts, 1, 0⟩ ∧
      ∀ n : ℕ, counts.getD n 0
        = ([1] : List ℚ).getD n 0
          + addedMass 2 (some [1, 1 / 2]) n 0 [[(0, 1)], [(2, 1 / 2)]] := by
  refine ⟨by norm_num [addedMass, frameWeightAt], by norm_num [addedMass, frameWeightAt], ?_⟩
  obtain ⟨counts, hstep, hget, _, _, _⟩ :=
    count_accumulation ⟨0, some (fun _ => some 2), some (fun _ => some [1, 1 / 2])⟩
      ⟨[1], 0, 0⟩ ("utt1", [[(0, 1)], [(2, 1 / 2)]]) 2 (some [1, 1 / 2]) rfl rfl
      (by
        intro fr hfr p hp
        simp only [List.mem_cons, List.mem_singleton, List.not_mem_nil, or_false] at hfr
        rcases hfr with rfl | rfl
        · simp only [List.mem_singleton] at hp
          subst hp
          norm_num
        · simp only [List.mem_singleton] at hp
          subst hp
          norm_num)
      (by
        intro fw hfw
        rw [← Option.some.inj hfw]
        rfl)
  exact ⟨counts, hstep, hget⟩

theorem isGrownLength_nil (len0 : ℕ) : IsGrownLength len0 [] len0 :=
  ⟨le_refl _, by intro x hx; simp at hx, Or.inl rfl⟩

theorem isGrownLength_append (a b d : ℕ) (xs ys : List ℤ)
    (h1 : IsGrownLength a xs b) (h2 : IsGrownLength b ys d) :
    IsGrownLength a (xs ++ ys) d := by
  obtain ⟨h1a, h1b, h1c⟩ := h1
  obtain ⟨h2a, h2b, h2c⟩ := h2
  refine ⟨le_trans h1a h2a, ?_, ?_⟩
  · intro x hx
    rcases List.mem_append.mp hx with hx | hx
    · have := h1b x hx
      omega
    · exact h2b x hx
  · rcases h2c with h2c | ⟨y, hy, hyd⟩
    · rcases h1c with h1c | ⟨x, hx, hxb⟩
      · left
        omega
      · right
        exact ⟨x, List.mem_append_left _ hx, by omega⟩
    · right
      exact ⟨y, List.mem_append_right _ hy, hyd⟩

/-- The length after the pairs of one frame. -/
theorem accumulatePairs_length (utt_w : ℚ) (frame_w : Option (List ℚ)) (i : ℕ)
    (ps : List (ℤ × ℚ)) :
    ∀ counts out : List ℚ, accumulatePairs utt_w frame_w i ps counts = some out →
      IsGrownLength counts.length (ps.map Prod.fst) out.length := by
  induction ps with
  | nil =>
    intro counts out h
    simp only [accumulatePairs, Option.some.injEq] at h
    rw [← h]
    exact isGrownLength_nil _
  | cons p ps ih =>
    intro counts out h
    simp only [accumulatePairs] at h
    split at h
    · exact absurd h (by simp)
    · rename_i hneg
      have hp : 0 ≤ p.1 := not_lt.mp hneg
      have hone : ∀ w : ℚ, IsGrownLength counts.length [p.1]
          ((if p.1 ≥ (counts.length : ℤ) then resize counts (p.1.toNat + 1)
            else counts).set p.1.toNat
            ((if p.1 ≥ (counts.length : ℤ) then resize counts (p.1.toNat + 1)
              else counts).getD p.1.toNat 0 + w)).length := by
        intro w
        rw [(addAt_getD counts p.1 hp w).2]
        refine ⟨le_max_left _ _, ?_, ?_⟩
        · intro x hx
          simp only [List.mem_singleton] at hx
          subst hx
          have : p.1.toNat + 1 ≤ max counts.length (p.1.toNat + 1) := le_max_right _ _
          omega
        · by_cases hlt : p.1.toNat + 1 ≤ counts.length
          · left
            exact max_eq_left hlt
          · right
            refine ⟨p.1, List.mem_singleton_self _, ?_⟩
            rw [max_eq_right (by omega)]
            omega
      cases frame_w with
      | none =>
        simp only at h
        exact isGrownLength_append _ _ _ [p.1] _ (hone _) (ih _ out h)
      | some fw =>
        simp only at h
        split at h
        · exact absurd h (by simp)
        · exact isGrownLength_append _ _ _ [p.1] _ (hone _) (ih _ out h)

/-- The length after the frames of one posterior. -/
theorem accumulateFrames_length (utt_w : ℚ) (frame_w : Option (List ℚ))
    (frs : List (List (ℤ × ℚ))) :
    ∀ (i : ℕ) (counts out : List ℚ),
      accumulateFrames utt_w frame_w i frs counts = some out →
      IsGrownLength counts.length (frs.flatMap (fun fr => fr.map Prod.fst)) out.length := by
  induction frs with
  | nil =>
    intro i counts out h
    simp only [accumulateFrames, Option.some.injEq] at h
    rw [← h]
    exact isGrownLength_nil _
  | cons fr frs ih =>
    intro i counts out h
    simp only [accumulateFrames] at h
    obtain ⟨mid, hmid, hrest⟩ := Option.bind_eq_some.mp h
    rw [List.flatMap_cons]
    exact isGrownLength_append _ _ _ _ _
      (accumulatePairs_length utt_w frame_w i fr counts mid hmid) (ih (i + 1) mid out hrest)

/-- The length after the whole stream. -/
theorem loop_length (cfg : Config) (stream : List (String × List (List (ℤ × ℚ)))) :
    ∀ st st' : State, loop cfg stream st = some st' →
      IsGrownLength st.counts.length (observedIndices cfg stream) st'.counts.length := by
  induction stream with
  | nil =>
    intro st st' h
    simp only [loop, Option.some.injEq] at h
    rw [← h]
    exact isGrownLength_nil _
  | cons item items ih =>
    intro st st' h
    simp only [loop] at h
    obtain ⟨mid, hmid, hrest⟩ := Option.bind_eq_some.mp h
    have hrec := ih mid st' hrest
    unfold step at hmid
    unfold observedIndices
    rw [List.filter_cons]
    split at hmid
    · rename_i hw
      rw [hw]
      simp only [Option.isSome_none, Bool.false_and, Bool.false_eq_true, if_false]
      rw [← Option.some.inj hmid] at hrec
      exact hrec
    · rename_i utt_w hw
      split at hmid
      · rename_i hf
        rw [hw, hf]
        simp only [Option.isSome_none, Bool.and_false, Bool.false_eq_true, if_false]
        rw [← Option.some.inj hmid] at hrec
        exact hrec
      · rename_i frame_w hf
        rw [hw, hf]
        simp only [Option.isSome_some, Bool.and_self, if_true, List.flatMap_cons]
        obtain ⟨counts, hcounts, hst⟩ := Option.map_eq_some'.mp hmid
        have hfr := accumulateFrames_length utt_w frame_w item.2 0 st.counts counts hcounts
        rw [← hst] at hrec
        exact isGrownLength_append _ _ _ _ _ hfr hrec

/-- C16 (counterexample): with `counts_dim = 5` and one utterance whose only
pair names class 2, the vector written has length 5, not `2 + 1`. -/
theorem count_vector_longer_than_observed :
    Option.map Output.counts_nozero (main ⟨5, none, none⟩ [("utt1", [[(2, 1)]])])
      = some [1 / 2, 1 / 2, 3 / 2, 1 / 2, 1 / 2] ∧
    observedIndices ⟨5, none, none⟩ [("utt1", [[(2, 1)]])] = [2] ∧
    ([1 / 2, 1 / 2, 3 / 2, 1 / 2, 1 / 2] : List ℚ).length ≠ 2 + 1 := by
  refine ⟨?_, ?_, by simp⟩
  · have h2 : Int.toNat 2 = 2 := rfl
    have h5 : Int.toNat 5 = 5 := rfl
    norm_num [main, loop, step, uttWeight, frameWeights, accumulateFrames, accumulatePairs,
      counts_nozero, List.replicate, h2, h5]
  · simp [observedIndices, uttWeight, frameWeights]

/-- C16 (amended): the count vector written has the length that is the larger
of `counts_dim` and the largest class index observed in the processed
posteriors plus one: it is at least `counts_dim`, it exceeds every observed
index, and it equals `counts_dim` or an observed index plus one. -/
theorem count_vector_length (cfg : Config)
    (stream : List (String × List (List (ℤ × ℚ)))) (out : Output)
    (h : main cfg stream = some out) :
    cfg.counts_dim.toNat ≤ out.counts_nozero.length ∧
    (∀ x ∈ observedIndices cfg stream, x < (out.counts_nozero.length : ℤ)) ∧
    (out.counts_nozero.length = cfg.counts_dim.toNat ∨
      ∃ x ∈ observedIndices cfg stream, x + 1 = (out.counts_nozero.length : ℤ)) := by
  obtain ⟨st, hst, hout, _⟩ := main_eq_some cfg stream out h
  have hlen := loop_length cfg stream _ st hst
  have hl : out.counts_nozero.length = st.counts.length := by
    rw [hout]
    simp [counts_nozero]
  rw [hl]
  simpa [IsGrownLength] using hlen

/-- Witness for `count_vector_length`: `counts_dim = 2` and one utterance whose
only pair names class 3; the vector written has length 4. -/
theorem count_vector_length_witness :
    main ⟨2, none, none⟩ [("utt1", [[(3, 1)]])]
      = some ⟨[1 / 2, 1 / 2, 1 / 2, 3 / 2], [0, 1, 2], 1, 0, 0⟩ ∧
    observedIndices ⟨2, none, none⟩ [("utt1", [[(3, 1)]])] = [3] ∧
    Int.toNat 2 ≤ ([1 / 2, 1 / 2, 1 / 2, 3 / 2] : List ℚ).length ∧
    (∀ x ∈ observedIndices ⟨2, none, none⟩ [("utt1", [[(3, 1)]])],
      x < (([1 / 2, 1 / 2, 1 / 2, 3 / 2] : List ℚ).length : ℤ)) := by
  have hrun : main ⟨2, none, none⟩ [("utt1", [[(3, 1)]])]
      = some ⟨[1 / 2, 1 / 2, 1 / 2, 3 / 2], [0, 1, 2], 1, 0, 0⟩ := by
    have h2 : Int.toNat 2 = 2 := rfl
    have h3 : Int.toNat 3 = 3 := rfl
    norm_num [main, loop, step, uttWeight, frameWeights, accumulateFrames, accumulatePairs,
      resize, counts_nozero, zeroLabelsFrom, List.replicate, h2, h3]
  have h := count_vector_length _ _ _ hrun
  exact ⟨hrun, by simp [observedIndices, uttWeight, frameWeights], h.1, h.2.1⟩

end AnalyzePostCounts

namespace NnetPcaForward

/-- Row `r` of what `mapRows` returns is `f` applied to row `r` of its input. -/
theorem mapRows_getElem? {α β : Type} (f : α → Option β) (l : List α) :
    ∀ (l' : List β), PosteriorToPost.mapRows f l = some l' →
      ∀ (r : ℕ) (x : α), l[r]? = some x → ∃ y, l'[r]? = some y ∧ f x = some y := by
  induction l with
  | nil =>
    intro l' _ r x hx
    simp at hx
  | cons a l ih =>
    intro l' h r x hx
    simp only [PosteriorToPost.mapRows] at h
    split at h
    · exact absurd h (by simp)
    · rename_i y hy
      obtain ⟨ys, hys, hl'⟩ := Option.map_eq_some'.mp h
      subst hl'
      cases r with
      | zero =>
        simp only [List.getElem?_cons_zero, Option.some.injEq] at hx
        subst hx
        exact ⟨y, by simp, hy⟩
      | succ r =>
        simp only [List.getElem?_cons_succ] at hx
        obtain ⟨z, hz, hfz⟩ := ih ys hys r x hx
        exact ⟨z, by simpa using hz, hfz⟩

/-- The optional logarithm and prior subtraction keep the width of every row. -/
theorem logPosteriors_getElem? (m : Libm) (o : Options) (nnet_out host : List (List ℚ))
    (h : logPosteriors m o nnet_out = some host) (r : ℕ) (frame : List ℚ)
    (hframe : nnet_out[r]? = some frame) :
    ∃ frame_data, host[r]? = some frame_data ∧ frame_data.length = frame.length := by
  have hlogged : ∃ lf, (if o.apply_log then nnet_out.map (fun row => row.map m.log)
      else nnet_out)[r]? = some lf ∧ lf.length = frame.length := by
    split
    · exact ⟨frame.map m.log, by simp [hframe], by simp⟩
    · exact ⟨frame, hframe, rfl⟩
  obtain ⟨lf, hlf, hlen⟩ := hlogged
  unfold logPosteriors at h
  simp only at h
  split at h
  · rename_i priors _
    split at h
    · obtain ⟨y, hy, hadd⟩ := mapRows_getElem? _ _ host h r lf hlf
      refine ⟨y, hy, ?_⟩
      unfold AddVec at hadd
      split at hadd
      · rename_i hdim
        rw [← Option.some.inj hadd, List.length_zipWith, hdim, Nat.min_self, hlen]
      · exact absurd hadd (by simp)
    · rw [← Option.some.inj h]
      exact ⟨lf, hlf, hlen⟩
  · rw [← Option.some.inj h]
    exact ⟨lf, hlf, hlen⟩

/-- Row `r` of the output is the reconstruction of row `r` with label `vec[r]`. -/
theorem reconstructRows_getElem? (logEps : ℚ) (dimension : ℕ)
    (transform_reader : ℤ → Option (List (List ℚ))) (mean_reader : ℤ → Option (List ℚ))
    (energies : List ℤ) (frames : List (List ℚ)) :
    ∀ (vec : List ℤ) (output : List (List ℚ)),
      reconstructRows logEps dimension transform_reader mean_reader energies frames vec
        = some output →
      ∀ (r : ℕ) (frame_data : List ℚ) (senone : ℤ), frames[r]? = some frame_data →
        vec[r]? = some senone →
        ∃ row, output[r]? = some row ∧
          reconstructFrame logEps dimension transform_reader mean_reader energies senone
            frame_data = some row := by
  induction frames with
  | nil =>
    intro vec output _ r frame_data senone hf _
    simp at hf
  | cons f frames ih =>
    intro vec output h r frame_data senone hf hl
    cases vec with
    | nil => simp at hl
    | cons l vec =>
      simp only [reconstructRows] at h
      obtain ⟨row, hrow, hrest⟩ := Option.bind_eq_some.mp h
      obtain ⟨rows, hrows, hout⟩ := Option.map_eq_some'.mp hrest
      subst hout
      cases r with
      | zero =>
        simp only [List.getElem?_cons_zero, Option.some.injEq] at hf hl
        subst hf
        subst hl
        exact ⟨row, by simp, hrow⟩
      | succ r =>
        simp only [List.getElem?_cons_succ] at hf hl
        obtain ⟨row', hrow', hrec⟩ := ih vec rows hrows r frame_data senone hf hl
        exact ⟨row', by simpa using hrow', hrec⟩

/-- Without a transform or without a mean the frame takes the fallback branch. -/
theorem reconstructFrame_absent (logEps : ℚ) (dimension : ℕ)
    (transform_reader : ℤ → Option (List (List ℚ))) (mean_reader : ℤ → Option (List ℚ))
    (energies : List ℤ) (senone : ℤ) (frame_data : List ℚ)
    (habsent : transform_reader senone = none ∨ mean_reader senone = none) :
    reconstructFrame logEps dimension transform_reader mean_reader energies senone frame_data
      = fallbackRow logEps frame_data.length senone := by
  unfold reconstructFrame
  split
  · rename_i htr hmr
    rcases habsent with h | h
    · rw [h] at htr
      exact absurd htr (by simp)
    · rw [h] at hmr
      exact absurd hmr (by simp)
  · rfl

/-- The entries of the fallback row: `0` at the label, `logEps` elsewhere. -/
theorem fallbackRow_entries (logEps : ℚ) (n i : ℕ) (hi : i < n) :
    ((List.replicate n logEps).set i 0)[i]? = some 0 ∧
    (∀ c, c < n → c ≠ i → ((List.replicate n logEps).set i 0)[c]? = some logEps) ∧
    (logEps ≠ 0 → ((List.replicate n logEps).set i 0).count 0 = 1) := by
  refine ⟨?_, ?_, ?_⟩
  · rw [List.getElem?_set]
    simp [hi]
  · intro c hc hne
    rw [List.getElem?_set, if_neg (Ne.symm hne), List.getElem?_replicate, if_pos hc]
  · intro hlog
    rw [List.set_eq_take_append_cons_drop, if_pos (by simpa using hi)]
    rw [List.count_append, List.count_cons_self]
    have h1 : List.count 0 (List.take i (List.replicate n logEps)) = 0 := by
      rw [List.count_eq_zero]
      intro hmem
      have := (List.mem_replicate.mp (List.mem_of_mem_take hmem)).2
      exact hlog this.symm
    have h2 : List.count 0 (List.drop (i + 1) (List.replicate n logEps)) = 0 := by
      rw [List.count_eq_zero]
      intro hmem
      have := (List.mem_replicate.mp (List.mem_of_mem_drop hmem)).2
      exact hlog this.symm
    rw [h1, h2]

/-- C8 (counterexample): with `apply_log` off, one frame `[0.3, 0.7]` labelled
with class 0 and no transform registered, the row before exponentiation is
`[0, log(eps)]` for every `log`, never the row `[1, eps]` that the claim gives
for the probability domain. -/
theorem fallback_not_probability_domain :
    (∀ m : Libm, reconstructUtterance m ⟨100, false, false, false, none⟩ 2
        (fun _ => none) (fun _ => none) [0, 0] [[3 / 10, 7 / 10]] (some [0])
      = some [[0, m.log eps]]) ∧
    ¬ ∃ m : Libm, reconstructUtterance m ⟨100, false, false, false, none⟩ 2
        (fun _ => none) (fun _ => none) [0, 0] [[3 / 10, 7 / 10]] (some [0])
      = some [[1, eps]] := by
  have hrun : ∀ m : Libm, reconstructUtterance m ⟨100, false, false, false, none⟩ 2
      (fun _ => none) (fun _ => none) [0, 0] [[3 / 10, 7 / 10]] (some [0])
      = some [[0, m.log eps]] := by
    intro m
    simp [reconstructUtterance, logPosteriors, reconstructRows, reconstructFrame,
      fallbackRow, List.replicate]
  refine ⟨hrun, ?_⟩
  rintro ⟨m, hm⟩
  rw [hrun m] at hm
  simp at hm

/-- C8 (amended): for every frame whose class label is a valid column index and
has no registered transform or no registered mean, the row of the output
before the optional final exponentiation has `0` at the label and `log(eps)`
at every other index, whether `apply_log` is on or off; when `log(eps)` is not
zero exactly one entry is `0`. -/
theorem fallback_row_log_domain (m : Libm) (o : Options) (dimension : ℕ)
    (transform_reader : ℤ → Option (List (List ℚ))) (mean_reader : ℤ → Option (List ℚ))
    (energies : List ℤ) (nnet_out : List (List ℚ)) (vec : List ℤ)
    (output : List (List ℚ))
    (h : reconstructUtterance m o dimension transform_reader mean_reader energies nnet_out
      (some vec) = some output)
    (r : ℕ) (frame : List ℚ) (senone : ℤ) (hframe : nnet_out[r]? = some frame)
    (hlabel : vec[r]? = some senone)
    (habsent : transform_reader senone = none ∨ mean_reader senone = none)
    (h0 : 0 ≤ senone) (hlt : senone < (frame.length : ℤ)) :
    ∃ row, output[r]? = some row ∧
      row = (List.replicate frame.length (m.log eps)).set senone.toNat 0 ∧
      row[senone.toNat]? = some 0 ∧
      (∀ c, c < frame.length → c ≠ senone.toNat → row[c]? = some (m.log eps)) ∧
      (m.log eps ≠ 0 → row.count 0 = 1) := by
  unfold reconstructUtterance at h
  obtain ⟨host, hhost, hrows⟩ := Option.bind_eq_some.mp h
  simp only at hrows
  obtain ⟨frame_data, hfd, hlen⟩ :=
    logPosteriors_getElem? m o nnet_out host hhost r frame hframe
  obtain ⟨row, hrow, hrec⟩ := reconstructRows_getElem? _ _ _ _ _ host vec output hrows r
    frame_data senone hfd hlabel
  rw [reconstructFrame_absent _ _ _ _ _ _ _ habsent, hlen] at hrec
  unfold fallbackRow at hrec
  rw [if_pos ⟨h0, hlt⟩] at hrec
  have hrow_eq := (Option.some.inj hrec).symm
  have hi : senone.toNat < frame.length := by omega
  obtain ⟨e1, e2, e3⟩ := fallbackRow_entries (m.log eps) frame.length senone.toNat hi
  refine ⟨row, hrow, hrow_eq, ?_, ?_, ?_⟩
  · rw [hrow_eq]
    exact e1
  · rw [hrow_eq]
    exact e2
  · rw [hrow_eq]
    exact e3

/-- Witness for `fallback_row_log_domain`: `apply_log` off, the frame
`[0.3, 0.7]` labelled with class 0, no transform registered; the constant `-36`
stands in for the logarithm (`log(eps)` is about `-36.04`). -/
theorem fallback_row_log_domain_witness :
    reconstructUtterance ⟨fun _ => -36, fun _ => 0⟩ ⟨100, false, false, false, none⟩ 2
        (fun _ => none) (fun _ => none) [0, 0] [[3 / 10, 7 / 10]] (some [0])
      = some [[0, -36]] ∧
    ∃ row, ([[0, -36]] : List (List ℚ))[0]? = some row ∧
      row = (List.replicate 2 (-36 : ℚ)).set 0 0 ∧ row[0]? = some 0 := by
  have hrun : reconstructUtterance ⟨fun _ => -36, fun _ => 0⟩
      ⟨100, false, false, false, none⟩ 2 (fun _ => none) (fun _ => none) [0, 0]
      [[3 / 10, 7 / 10]] (some [0]) = some [[0, -36]] := by
    simp [reconstructUtterance, logPosteriors, reconstructRows, reconstructFrame,
      fallbackRow, List.replicate]
  obtain ⟨row, h1, h2, h3, _, _⟩ :=
    fallback_row_log_domain ⟨fun _ => -36, fun _ => 0⟩ ⟨100, false, false, false, none⟩ 2
      (fun _ => none) (fun _ => none) [0, 0] [[3 / 10, 7 / 10]] [0] [[0, -36]] hrun
      0 [3 / 10, 7 / 10] 0 rfl rfl (Or.inl rfl) (le_refl 0) (by simp)
  exact ⟨hrun, row, h1, h2, h3⟩

/-- The inner product of two vectors of dimension `n` as a finite sum. -/
theorem dot_eq_sum (n : ℕ) :
    ∀ (a b : List ℚ), a.length = n → b.length = n →
      dot a b = ∑ i ∈ Finset.range n, a.getD i 0 * b.getD i 0 := by
  induction n with
  | zero =>
    intro a b ha hb
    rw [List.length_eq_zero] at ha hb
    subst ha
    subst hb
    simp [dot]
  | succ n ih =>
    intro a b ha hb
    cases a with
    | nil => simp at ha
    | cons x a =>
      cases b with
      | nil => simp at hb
      | cons y b =>
        have ih' := ih a b (by simpa using ha) (by simpa using hb)
        rw [Finset.sum_range_succ']
        simp only [List.getD_cons_succ, List.getD_cons_zero]
        rw [← ih']
        simp [dot, add_comm]

theorem getD_eq_of_getElem? (l : List ℚ) (i : ℕ) (x : ℚ) (h : l[i]? = some x) :
    l.getD i 0 = x := by
  rw [List.getD_eq_getElem?_getD, h]
  rfl

/-- For a square matrix, orthonormal columns make the rows orthonormal too. -/
theorem rows_orthonormal_of_columns (d : ℕ) (A : ℕ → ℕ → ℚ)
    (horth : ∀ i j, i < d → j < d →
      (∑ r ∈ Finset.range d, A r i * A r j) = if i = j then 1 else 0) :
    ∀ c r, c < d → r < d →
      (∑ j ∈ Finset.range d, A c j * A r j) = if c = r then 1 else 0 := by
  let M : Matrix (Fin d) (Fin d) ℚ := fun i j => A i j
  have hleft : M.transpose * M = 1 := by
    ext i j
    rw [Matrix.mul_apply, Matrix.one_apply]
    have := horth i j i.isLt j.isLt
    rw [Finset.sum_range] at this
    simp only [Matrix.transpose_apply, M]
    rw [this]
    simp [Fin.ext_iff]
  have hright : M * M.transpose = 1 := Matrix.mul_eq_one_comm.mp hleft
  intro c r hc hr
  have := congrFun (congrFun hright ⟨c, hc⟩) ⟨r, hr⟩
  rw [Matrix.mul_apply, Matrix.one_apply] at this
  rw [Finset.sum_range]
  simp only [Matrix.transpose_apply, M] at this
  rw [this]
  simp [Fin.ext_iff]

/-- With a square basis of orthonormal columns and all of its columns in use,
the transform branch maps every frame to itself. -/
theorem pcaReconstruct_full_rank (d : ℕ) (P : List (List ℚ)) (mean v : List ℚ)
    (hrows : P.length = d) (hcols : ∀ row ∈ P, row.length = d)
    (hmean : mean.length = d) (hv : v.length = d)
    (horth : ∀ i j, i < d → j < d →
      dot (P.map (fun row => row.getD i 0)) (P.map (fun row => row.getD j 0))
        = if i = j then 1 else 0) :
    pcaReconstruct d P mean (d : ℤ) v = some v := by
  -- the entries of the basis as a function of the two indices
  let A : ℕ → ℕ → ℚ := fun r j => (P.getD r []).getD j 0
  have hcolumn : ∀ j r, r < d → (P.map (fun row => row.getD j 0)).getD r 0 = A r j := by
    intro j r hr
    have hr' : r < P.length := by omega
    rw [List.getD_eq_getElem _ _ (by simpa using hr'), List.getElem_map]
    simp only [A]
    rw [List.getD_eq_getElem _ _ hr']
  have hA : ∀ i j, i < d → j < d →
      (∑ r ∈ Finset.range d, A r i * A r j) = if i = j then 1 else 0 := by
    intro i j hi hj
    rw [← horth i j hi hj, dot_eq_sum d _ _ (by simpa using hrows) (by simpa using hrows)]
    apply Finset.sum_congr rfl
    intro r hr
    rw [hcolumn i r (Finset.mem_range.mp hr), hcolumn j r (Finset.mem_range.mp hr)]
  have hrowsOrth := rows_orthonormal_of_columns d A hA
  -- the four library calls
  have hsub : SubMatrix P d d = some P := by
    unfold SubMatrix
    rw [if_pos ⟨by omega, fun row hrow => by rw [hcols row hrow]⟩]
    congr 1
    rw [List.take_of_length_le (by omega)]
    conv_rhs => rw [← List.map_id P]
    apply List.map_congr_left
    intro row hrow
    rw [List.take_of_length_le (le_of_eq (hcols row hrow))]
    rfl
  have hadd : AddVec (-1) mean v
      = some (List.zipWith (fun yi vi => yi + -1 * vi) v mean) := by
    unfold AddVec
    rw [if_pos (by omega)]
  have hclen : (List.zipWith (fun yi vi => yi + -1 * vi) v mean).length = d := by
    simp [hv, hmean]
  have htemp : AddMatVec 1 P true (List.zipWith (fun yi vi => yi + -1 * vi) v mean) 0
      (List.replicate d 0)
      = some (List.zipWith
          (fun j yj => 1 * dot (P.map (fun row => row.getD j 0))
            (List.zipWith (fun yi vi => yi + -1 * vi) v mean) + 0 * yj)
          (List.range d) (List.replicate d 0)) := by
    unfold AddMatVec
    rw [if_pos rfl, if_pos ⟨by omega, fun row hrow => by simp [hcols row hrow]⟩]
    simp
  have htlen : (List.zipWith
      (fun j yj => 1 * dot (P.map (fun row => row.getD j 0))
        (List.zipWith (fun yi vi => yi + -1 * vi) v mean) + 0 * yj)
      (List.range d) (List.replicate d (0 : ℚ))).length = d := by
    simp
  have hpure : ∀ temp : List ℚ, temp.length = d →
      AddMatVec 1 P false temp 1 mean
        = some (List.zipWith (fun row mi => 1 * dot row temp + 1 * mi) P mean) := by
    intro temp htl
    unfold AddMatVec
    rw [if_neg (by simp), if_pos ⟨by omega, fun row hrow => by rw [hcols row hrow, htl]⟩]
  unfold pcaReconstruct
  rw [if_neg (by omega)]
  simp only [Int.toNat_ofNat, hsub, hadd, htemp, Option.bind, hpure _ htlen]
  congr 1
  apply List.ext_getElem
  · simp [hrows, hmean, hv]
  · intro c h1 h2
    have hc : c < d := by omega
    rw [List.getElem_zipWith]
    rw [dot_eq_sum d _ _ (hcols _ (List.getElem_mem _)) htlen]
    have hc' : c < P.length := by omega
    have hw : ∀ r, r < d →
        (List.zipWith (fun yi vi => yi + -1 * vi) v mean).getD r 0
          = v.getD r 0 - mean.getD r 0 := by
      intro r hr
      rw [List.getD_eq_getElem _ _ (by omega), List.getElem_zipWith,
        List.getD_eq_getElem _ _ (by omega), List.getD_eq_getElem _ _ (by omega)]
      ring
    have hte : ∀ j, j < d →
        (List.zipWith
          (fun j yj => 1 * dot (P.map (fun row => row.getD j 0))
            (List.zipWith (fun yi vi => yi + -1 * vi) v mean) + 0 * yj)
          (List.range d) (List.replicate d (0 : ℚ))).getD j 0
          = ∑ r ∈ Finset.range d, A r j * (v.getD r 0 - mean.getD r 0) := by
      intro j hj
      rw [List.getD_eq_getElem _ _ (by omega), List.getElem_zipWith, List.getElem_range,
        dot_eq_sum d _ _ (by simpa using hrows) hclen, one_mul, zero_mul, add_zero]
      apply Finset.sum_congr rfl
      intro r hr
      rw [hcolumn j r (Finset.mem_range.mp hr), hw r (Finset.mem_range.mp hr)]
    have hPc : ∀ i, P[c].getD i 0 = A c i := by
      intro i
      simp only [A]
      rw [List.getD_eq_getElem P [] hc']
    rw [Finset.sum_congr rfl (fun i hi => by rw [hPc i, hte i (Finset.mem_range.mp hi)])]
    have hsum : (∑ i ∈ Finset.range d,
        A c i * ∑ r ∈ Finset.range d, A r i * (v.getD r 0 - mean.getD r 0))
        = v.getD c 0 - mean.getD c 0 := by
      simp_rw [Finset.mul_sum]
      rw [Finset.sum_comm]
      have hinner : ∀ r ∈ Finset.range d,
          (∑ i ∈ Finset.range d, A c i * (A r i * (v.getD r 0 - mean.getD r 0)))
            = (if c = r then 1 else 0) * (v.getD r 0 - mean.getD r 0) := by
        intro r hr
        rw [← hrowsOrth c r hc (Finset.mem_range.mp hr), Finset.sum_mul]
        apply Finset.sum_congr rfl
        intro i _
        ring
      rw [Finset.sum_congr rfl hinner]
      simp [hc]
    rw [hsum, List.getD_eq_getElem _ _ (by omega), List.getD_eq_getElem _ _ (by omega)]
    ring

/-- C1: in exact arithmetic, for a frame `v` of dimension `d` and a class whose
registered basis `P` is a `d`-by-`d` matrix with orthonormal columns, whose
registered mean has dimension `d` and whose entry in `energies` (the number of
columns in use) is `d`, the transform branch (subtract the mean, project onto
the first `d` columns, map back through them, add the mean) returns `v`. -/
theorem round_trip_exact_full_rank (logEps : ℚ) (d : ℕ)
    (transform_reader : ℤ → Option (List (List ℚ))) (mean_reader : ℤ → Option (List ℚ))
    (energies : List ℤ) (senone : ℤ) (P : List (List ℚ)) (mean v : List ℚ)
    (htr : transform_reader senone = some P) (hmr : mean_reader senone = some mean)
    (hsen : 0 ≤ senone) (hk : energies[senone.toNat]? = some (d : ℤ))
    (hrows : P.length = d) (hcols : ∀ row ∈ P, row.length = d)
    (hmean : mean.length = d) (hv : v.length = d)
    (horth : ∀ i j, i < d → j < d →
      dot (P.map (fun row => row.getD i 0)) (P.map (fun row => row.getD j 0))
        = if i = j then 1 else 0) :
    reconstructFrame logEps d transform_reader mean_reader energies senone v = some v := by
  unfold reconstructFrame
  rw [htr, hmr]
  simp only
  rw [if_neg (by omega), hk]
  exact pcaReconstruct_full_rank d P mean v hrows hcols hmean hv horth

/-- Witness for `round_trip_exact_full_rank`: dimension 2, the rotation with
columns `(3/5, 4/5)` and `(-4/5, 3/5)` as basis of class 0, mean `[1, 2]`,
both columns in use, frame `[7, -3]`. -/
theorem round_trip_exact_full_rank_witness :
    dot [3 / 5, 4 / 5] [3 / 5, 4 / 5] = 1 ∧ dot [3 / 5, 4 / 5] [-4 / 5, 3 / 5] = 0 ∧
    dot [-4 / 5, 3 / 5] [-4 / 5, 3 / 5] = 1 ∧
    reconstructFrame (-36) 2 (fun _ => some [[3 / 5, -4 / 5], [4 / 5, 3 / 5]])
        (fun _ => some [1, 2]) [2] 0 [7, -3]
      = some [7, -3] := by
  refine ⟨by norm_num [dot], by norm_num [dot], by norm_num [dot], ?_⟩
  refine round_trip_exact_full_rank (-36) 2 _ _ [2] 0 [[3 / 5, -4 / 5], [4 / 5, 3 / 5]]
    [1, 2] [7, -3] rfl rfl (le_refl 0) rfl rfl ?_ rfl rfl ?_
  · intro row hrow
    simp only [List.mem_cons, List.mem_singleton, List.not_mem_nil, or_false] at hrow
    rcases hrow with rfl | rfl <;> rfl
  · intro i j hi hj
    interval_cases i <;> interval_cases j <;> norm_num [dot]

end NnetPcaForward

namespace PosteriorToPostFloat

end PosteriorToPostFloat

namespace CollectPosteriorsPerSenone

/-- The scan of an utterance whose frames are all `[1, 0]` and all aligned to
senone 0 appends every frame: nothing in the scan looks at `dataSize`. -/
theorem collectRows_replicate (dataSize : ℤ) (N : ℕ) :
    ∀ (k r : ℕ) (dataX : List (List ℚ)), r + k ≤ N →
      collectRows ⟨dataSize, 0, true, false, false⟩ 2 (List.replicate N [1, 0]) r
          (List.replicate k 0) dataX =
        some (dataX ++ List.replicate k [1, 0]) := by
  intro k
  induction k with
  | zero =>
    intro r dataX _
    simp [collectRows]
  | succ k ih =>
    intro r dataX hr
    have hget : (List.replicate N ([1, 0] : List ℚ))[r]? = some [1, 0] := by
      rw [List.getElem?_replicate]
      simp
      omega
    have hmax : Max ([1, 0] : List ℚ) = some 0 := by
      norm_num [Max, maxFrom]
    rw [List.replicate_succ, collectRows]
    simp only [if_true, hget, hmax]
    have happ : appendRow 2 ([1, 0] : List ℚ) dataX = some (dataX ++ [[1, 0]]) := by
      simp [appendRow]
    simp only [Nat.cast_zero, if_true, happ, Option.some_bind]
    rw [ih (r + 1) _ (by omega), List.replicate_succ, List.append_assoc]
    rfl

/-- C18 (divergence of the code from the claim): for every `dataSize >= 1` and
every `n`, with the other options at their defaults, a single utterance of
`n + 1` frames, all aligned to senone 0 and all with their maximum at class 0,
makes the program write all `n + 1` frames: `currSize < dataSize` is tested only
between utterances (line 149), so the matrix written has more than `dataSize`
rows as soon as `n + 1 > dataSize`. -/
theorem dataSize_not_a_maximum (dataSize : ℤ) (hpos : 0 < dataSize) (n : ℕ)
    (log : ℚ → ℚ) :
    main ⟨dataSize, 0, true, false, false⟩ true log 2 (fun mat => mat)
        (fun _ => some (List.replicate (n + 1) 0))
        [("utt1", List.replicate (n + 1) [1, 0])] =
      some ⟨List.replicate (n + 1) [1, 0], 1, 0⟩ := by
  have hscan := collectRows_replicate dataSize (n + 1) (n + 1) 0 [] (by omega)
  have hmem : (0 : ℤ) ∈ List.replicate (n + 1) (0 : ℤ) := by
    simp [List.replicate_succ]
  simp only [main, loop, step, List.length_nil, Nat.cast_zero, hpos, if_true, hmem, hscan,
    Option.some_bind, Option.map_some', List.nil_append]
  simp

theorem dataSize_not_a_maximum_witness :
    (0 : ℤ) < 1 ∧
    main ⟨1, 0, true, false, false⟩ true (fun x => x) 2 (fun mat => mat)
        (fun _ => some (List.replicate (1 + 1) 0))
        [("utt1", List.replicate (1 + 1) [1, 0])] =
      some ⟨List.replicate (1 + 1) [1, 0], 1, 0⟩ ∧
    ¬ (((List.replicate (1 + 1) ([1, 0] : List ℚ)).length : ℤ) ≤ 1) :=
  ⟨by decide, dataSize_not_a_maximum 1 (by decide) 1 (fun x => x), by simp⟩

/-- The same divergence on frames with distinct values: `dataSize = 1`, two
frames aligned to senone 0 with their maximum at class 0, two rows written. -/
theorem two_rows_for_dataSize_one :
    main ⟨1, 0, true, false, false⟩ true (fun x => x) 2 (fun mat => mat)
        (fun _ => some [0, 0]) [("utt1", [[9 / 10, 1 / 10], [4 / 5, 1 / 5]])] =
      some ⟨[[9 / 10, 1 / 10], [4 / 5, 1 / 5]], 1, 0⟩ := by
  norm_num [main, loop, step, collectRows, Max, maxFrom, appendRow]

end CollectPosteriorsPerSenone

namespace PcaBin

/-- The run of posterior-to-post on an empty input returns 1, with or without
the usage exit of line 79. -/
theorem posterior_to_post_empty (pq : List (ℚ × ℕ) → List (ℚ × ℕ))
    (o : PosteriorToPost.Options) (apply_exp : Bool) (exp : ℚ → ℚ) :
    PosteriorToPost.main pq o apply_exp exp [] = some ⟨[], 1⟩ := by
  unfold PosteriorToPost.main
  split_ifs
  · rfl
  · simp [PosteriorToPost.loop]

/-- A run of nnet-pca-forward on an empty feature input that returns, returns
`-1` and has written nothing. -/
theorem nnet_pca_forward_empty (m : NnetPcaForward.Libm) (o : NnetPcaForward.Options)
    (softmax_last : Bool) (dimension : ℕ) (nnet : List (List ℚ) → List (List ℚ))
    (alignment_reader : String → Option (List ℤ))
    (transform_reader : ℤ → Option (List (List ℚ))) (mean_reader : ℤ → Option (List ℚ))
    (energy_reader : List (ℤ × List ℤ)) (out : NnetPcaForward.Output)
    (h : NnetPcaForward.main m o softmax_last dimension nnet alignment_reader
      transform_reader mean_reader energy_reader [] = some out) :
    out = ⟨[], -1⟩ := by
  unfold NnetPcaForward.main at h
  split_ifs at h
  rcases hfill : NnetPcaForward.fillEnergies o.energy energy_reader
      (List.replicate dimension 0) with _ | energies
  · rw [hfill] at h
    simp at h
  · rw [hfill] at h
    simp only [Option.some_bind, NnetPcaForward.loop, Option.map_some', if_true,
      Option.some.injEq] at h
    exact h.symm

/-- A run of nnet-pca-forward on an empty feature input whose option checks pass
and whose energy tables load returns `-1`. -/
theorem nnet_pca_forward_empty_returns (m : NnetPcaForward.Libm)
    (o : NnetPcaForward.Options)
    (softmax_last : Bool) (dimension : ℕ) (nnet : List (List ℚ) → List (List ℚ))
    (alignment_reader : String → Option (List ℤ))
    (transform_reader : ℤ → Option (List (List ℚ))) (mean_reader : ℤ → Option (List ℚ))
    (energy_reader : List (ℤ × List ℤ)) (energies : List ℤ)
    (h1 : ¬ (o.apply_log = true ∧ o.no_softmax = true))
    (h2 : ¬ (o.apply_log = true ∧ softmax_last = false))
    (h3 : ¬ (o.log_priors.isSome = true ∧ o.no_softmax = false ∧ o.apply_log = false))
    (hfill : NnetPcaForward.fillEnergies o.energy energy_reader
      (List.replicate dimension 0) = some energies) :
    NnetPcaForward.main m o softmax_last dimension nnet alignment_reader
      transform_reader mean_reader energy_reader [] = some ⟨[], -1⟩ := by
  unfold NnetPcaForward.main
  rw [if_neg h1, if_neg h2, if_neg h3, hfill]
  simp [NnetPcaForward.loop]

/-- A run of analyze-post-counts that completes has status 0. -/
theorem analyze_post_counts_status (cfg : AnalyzePostCounts.Config)
    (stream : List (String × List (List (ℤ × ℚ)))) (out : AnalyzePostCounts.Output)
    (h : AnalyzePostCounts.main cfg stream = some out) : out.status = 0 := by
  unfold AnalyzePostCounts.main at h
  split_ifs at h
  rcases hloop : AnalyzePostCounts.loop cfg stream
      ⟨List.replicate cfg.counts_dim.toNat 0, 0, 0⟩ with _ | st
  · rw [hloop] at h
    simp at h
  · rw [hloop] at h
    simp only [Option.map_some', Option.some.injEq] at h
    rw [← h]

/-- C17 (counterexample): analyze-post-counts on an empty input stream, and on
a stream whose only utterance is skipped for a missing per-utterance weight,
sums no utterance into the counts (`num_done = 0`) and still writes the counts
and returns status 0. -/
theorem analyze_post_counts_zero_items_status_zero :
    AnalyzePostCounts.main ⟨0, none, none⟩ [] = some ⟨[], [], 0, 0, 0⟩ ∧
    AnalyzePostCounts.main ⟨2, some (fun _ => none), none⟩ [("utt1", [[(0, 1)]])] =
      some ⟨[1 / 2, 1 / 2], [0, 1], 0, 1, 0⟩ := by
  constructor
  · rfl
  · have h2 : Int.toNat 2 = 2 := rfl
    norm_num [AnalyzePostCounts.main, AnalyzePostCounts.loop, AnalyzePostCounts.step,
      AnalyzePostCounts.uttWeight, AnalyzePostCounts.counts_nozero,
      AnalyzePostCounts.zeroLabelsFrom, h2, List.replicate]

/-- C17 (amended): when no item is processed, posterior-to-post returns 1 (on
an empty input, for all options), nnet-pca-forward returns `-1` (on an empty
feature input, whenever it returns, and it does return when the option checks
pass and the energy tables load) and est-pca-mean-energy ends in the fatal
'No data accumulated' error with status `-1` (whenever `num_done` is 0 after the
pass, in particular on an empty input); analyze-post-counts returns 0 in
every run that completes, whether or not an utterance was summed. -/
theorem exit_status_on_zero_items :
    (∀ (pq : List (ℚ × ℕ) → List (ℚ × ℕ)) (o : PosteriorToPost.Options)
        (apply_exp : Bool) (exp : ℚ → ℚ),
      ∃ out, PosteriorToPost.main pq o apply_exp exp [] = some out ∧ out.status = 1) ∧
    (∀ (m : NnetPcaForward.Libm) (o : NnetPcaForward.Options) (softmax_last : Bool)
        (dimension : ℕ) (nnet : List (List ℚ) → List (List ℚ))
        (alignment_reader : String → Option (List ℤ))
        (transform_reader : ℤ → Option (List (List ℚ)))
        (mean_reader : ℤ → Option (List ℚ)) (energy_reader : List (ℤ × List ℤ)),
      (∀ out, NnetPcaForward.main m o softmax_last dimension nnet alignment_reader
          transform_reader mean_reader energy_reader [] = some out →
        out.status = -1 ∧ out.written = []) ∧
      (¬ (o.apply_log = true ∧ o.no_softmax = true) →
        ¬ (o.apply_log = true ∧ softmax_last = false) →
        ¬ (o.log_priors.isSome = true ∧ o.no_softmax = false ∧ o.apply_log = false) →
        (NnetPcaForward.fillEnergies o.energy energy_reader
          (List.replicate dimension 0)).isSome = true →
        ∃ out, NnetPcaForward.main m o softmax_last dimension nnet alignment_reader
          transform_reader mean_reader energy_reader [] = some out ∧ out.status = -1)) ∧
    (∀ (o : EstPcaMeanEnergy.Options) (sqrt : ℚ → ℚ)
        (eig : List (List ℚ) → List ℚ × List (List ℚ)) (input : EstPcaMeanEnergy.Input),
      (EstPcaMeanEnergy.accumulate input).num_done = 0 →
        EstPcaMeanEnergy.main o sqrt eig input =
          EstPcaMeanEnergy.Outcome.error EstPcaMeanEnergy.Failure.noDataAccumulated ∧
        EstPcaMeanEnergy.exitStatus (EstPcaMeanEnergy.main o sqrt eig input) = some (-1)) ∧
    (∀ (o : EstPcaMeanEnergy.Options) (sqrt : ℚ → ℚ)
        (eig : List (List ℚ) → List ℚ × List (List ℚ)),
      EstPcaMeanEnergy.exitStatus
          (EstPcaMeanEnergy.main o sqrt eig (EstPcaMeanEnergy.Input.features [])) =
        some (-1) ∧
      EstPcaMeanEnergy.exitStatus
          (EstPcaMeanEnergy.main o sqrt eig (EstPcaMeanEnergy.Input.vectors [])) =
        some (-1)) ∧
    (∀ (cfg : AnalyzePostCounts.Config) (stream : List (String × List (List (ℤ × ℚ))))
        (out : AnalyzePostCounts.Output),
      AnalyzePostCounts.main cfg stream = some out → out.status = 0) := by
  have hest : ∀ (o : EstPcaMeanEnergy.Options) (sqrt : ℚ → ℚ)
      (eig : List (List ℚ) → List ℚ × List (List ℚ)) (input : EstPcaMeanEnergy.Input),
      (EstPcaMeanEnergy.accumulate input).num_done = 0 →
        EstPcaMeanEnergy.main o sqrt eig input =
          EstPcaMeanEnergy.Outcome.error EstPcaMeanEnergy.Failure.noDataAccumulated ∧
        EstPcaMeanEnergy.exitStatus (EstPcaMeanEnergy.main o sqrt eig input) =
          some (-1) := by
    intro o sqrt eig input h0
    have hm := (EstPcaMeanEnergy.main_noData_iff o sqrt eig input).mpr h0
    refine ⟨hm, ?_⟩
    rw [hm]
    rfl
  refine ⟨?_, ?_, hest, ?_, ?_⟩
  · intro pq o apply_exp exp
    exact ⟨_, posterior_to_post_empty pq o apply_exp exp, rfl⟩
  · intro m o softmax_last dimension nnet alignment_reader transform_reader mean_reader
      energy_reader
    constructor
    · intro out h
      rw [nnet_pca_forward_empty m o softmax_last dimension nnet alignment_reader
        transform_reader mean_reader energy_reader out h]
      exact ⟨rfl, rfl⟩
    · intro h1 h2 h3 hfill
      obtain ⟨energies, he⟩ := Option.isSome_iff_exists.mp hfill
      exact ⟨_, nnet_pca_forward_empty_returns m o softmax_last dimension nnet
        alignment_reader transform_reader mean_reader energy_reader energies h1 h2 h3 he,
        rfl⟩
  · intro o sqrt eig
    exact ⟨(hest o sqrt eig (EstPcaMeanEnergy.Input.features []) rfl).2,
      (hest o sqrt eig (EstPcaMeanEnergy.Input.vectors []) rfl).2⟩
  · intro cfg stream out h
    exact analyze_post_counts_status cfg stream out h

end PcaBin
